import Mathlib

set_option maxHeartbeats 4000000
set_option maxRecDepth 100000

/-!
Verification of the bulk-file-editor core (merch documents).

The development shallowly embeds the TypeScript core: JavaScript strings are
modelled as lists of unicode scalar characters (`JStr`), JSON values as an
inductive type with an executable parser, the filesystem capability as the
repository's own in-memory filesystem (an association list keyed by
normalized paths), and the node `path` utilities - which are an external
collaborator consumed through an interface - as an abstract structure of
string functions (`IPath`). Asynchronous functions of the source are pure
here because the source awaits every operation in program order.

Known modelling choices, each confined to degenerate inputs that no claim
touches: JSON numbers are exact rationals rather than IEEE doubles; string
offsets count unicode scalars rather than UTF-16 units (they differ only on
astral characters and lone surrogates); a lone `\uXXXX` surrogate escape
decodes to the null character; non-string JSON values that the parser stores
into string-typed fields are kept via their JavaScript string coercion
(where the real planner would later throw a TypeError from `path.resolve`).
-/

/-- A JavaScript string, as the list of its characters. -/
abbrev JStr := List Char

/-- Conversion from a Lean string literal to the model of JS strings. -/
def jstr (s : String) : JStr := s.data

/-- The character of `cs` at index `i`, as `cs[i]` reads in JavaScript
(out of range gives `undefined`, here `none`). -/
def charAt (cs : JStr) (i : Nat) : Option Char := cs.get? i

/-- `String.prototype.substring(a, b)`: swaps the arguments when `a > b`
and clamps to the string length. -/
def substrJS (cs : JStr) (a b : Nat) : JStr :=
  (cs.take (max a b)).drop (min a b)

/-- Whether `pat` occurs at the start of `cs`. -/
def startsWithL (cs pat : JStr) : Bool :=
  match pat, cs with
  | [], _ => true
  | _ :: _, [] => false
  | p :: ps, c :: cs => p = c && startsWithL cs ps

/-- Whether `pat` occurs as a contiguous run somewhere in `cs`
(`String.prototype.indexOf(pat) !== -1`). -/
def containsSub (cs pat : JStr) : Bool :=
  match cs with
  | [] => startsWithL [] pat
  | _ :: t => startsWithL cs pat || containsSub t pat

/-- The index of the last occurrence of character `c` in `cs`
(`String.prototype.lastIndexOf`), or `none`. -/
def lastIndexOfCh (cs : JStr) (c : Char) : Option Nat :=
  match cs with
  | [] => none
  | x :: t =>
    match lastIndexOfCh t c with
    | some i => some (i + 1)
    | none => if x = c then some 0 else none

/-! ### Line endings and line structure

ECMAScript regular expressions treat `\n`, `\r`, U+2028 and U+2029 as line
terminators: `.` matches none of them, and with the `m` flag `^`/`$` match
at each of them. The parser's header scan is line-oriented through exactly
this mechanism. -/

/-- ECMAScript line terminators. -/
def isLT (c : Char) : Bool :=
  c = '\n' || c = '\r' || c = '\u2028' || c = '\u2029'

/-- Walks the text accumulating the current line (reversed) and its start
offset, closing a line at every terminator character. -/
def lineSplitAux : JStr → Nat → JStr → List (Nat × JStr)
  | [], start, acc => [(start, acc.reverse)]
  | c :: t, start, acc =>
    if isLT c then (start, acc.reverse) :: lineSplitAux t (start + acc.length + 1) []
    else lineSplitAux t start (c :: acc)

/-- All lines of `cs` with the offset at which each starts. A terminator
ends a line; the empty run between `\r` and `\n` counts as an (empty) line,
exactly as ECMAScript `^`/`$` with the `m` flag see it. -/
def lineSplit (cs : JStr) : List (Nat × JStr) :=
  lineSplitAux cs 0 []

/-- `content.indexOf(str) !== -1` specialised to detection of `\r\n`. -/
def detectLineEnding (cs : JStr) : Option JStr :=
  if containsSub cs (jstr ("\r\n")) then some (jstr ("\r\n"))
  else if containsSub cs (jstr ("\n")) then some (jstr ("\n"))
  else none

/-- `content.replace(/\r?\n/g, "\r\n")`. -/
def toCRLF : JStr → JStr
  | [] => []
  | '\r' :: '\n' :: t => '\r' :: '\n' :: toCRLF t
  | '\n' :: t => '\r' :: '\n' :: toCRLF t
  | c :: t => c :: toCRLF t

/-- `content.replace(/\r\n/g, "\n")`. -/
def toLF : JStr → JStr
  | [] => []
  | '\r' :: '\n' :: t => '\n' :: toLF t
  | c :: t => c :: toLF t

/-- `normalizeLineEndings(content, lineEnding)` from utils: rewrite to CRLF
when the requested ending is the string `\r\n`, to LF when it is `\n`, and
return the content unchanged for any other value. -/
def normalizeLineEndings (cs : JStr) (lineEnding : JStr) : JStr :=
  if lineEnding = jstr ("\r\n") then toCRLF cs
  else if lineEnding = jstr ("\n") then toLF cs
  else cs

/-! ### Digits and hashing -/

/-- The digit character of a value below ten. -/
def digitCh (n : Nat) : Char := Char.ofNat ('0'.toNat + n)

/-- A lowercase hex digit character. -/
def hexCh (n : Nat) : Char :=
  if n < 10 then digitCh n else Char.ofNat ('a'.toNat + (n - 10))

/-- Fueled decimal rendering, most significant digit first; any fuel above
the number's size is equivalent. -/
def decDigitsAux : Nat → Nat → JStr
  | 0, _ => []
  | fuel + 1, n => if n < 10 then [digitCh n] else decDigitsAux fuel (n / 10) ++ [digitCh (n % 10)]

/-- Fueled hex rendering, most significant digit first. -/
def hexDigitsAux : Nat → Nat → JStr
  | 0, _ => []
  | fuel + 1, n => if n < 16 then [hexCh n] else hexDigitsAux fuel (n / 16) ++ [hexCh (n % 16)]

/-- Hex digits of a natural number (at least one digit). -/
def hexDigits (n : Nat) : JStr := hexDigitsAux (n + 1) n

/-- Modelled from the spec: hashing is "SHA-256 over exact byte content,
hex-encoded" (section 6), provided by the external crypto library and thus
not code under src/. The model keeps exactly the properties the core relies
on: determinism, a nonempty output of hex-like characters free of line
terminators and JSON-special characters, and freedom from collisions
(injectivity), obtained by hex-encoding the code points with a separator. -/
def computeHash (cs : JStr) : JStr :=
  'h' :: (cs.map (fun c => hexDigits c.toNat ++ ['g'])).flatten

/-! ### JSON values and `JSON.parse` -/

/-- A JSON number as the exact decimal `mant / 10 ^ exp10`, kept canonical
(`exp10 = 0`, or `mant` not divisible by ten) so that numeric equality - the
equality JavaScript `Map` keys and `===` use - is structural equality. -/
structure JNum where
  mant : Int
  exp10 : Nat
deriving DecidableEq

/-- Canonicalize a decimal by stripping common factors of ten. -/
def jnumCanon (m : Int) : Nat → JNum
  | 0 => ⟨m, 0⟩
  | k + 1 => if m % 10 = 0 then jnumCanon (m / 10) k else ⟨m, k + 1⟩

/-- The canonical decimal of a natural number. -/
def jnumOfNat (n : Nat) : JNum := ⟨(n : Int), 0⟩

/-- A JSON value: the result of `JSON.parse`. Numbers are exact decimals. -/
inductive JsonVal where
  | str (s : JStr)
  | num (q : JNum)
  | bool (b : Bool)
  | null
  | arr (xs : List JsonVal)
  | obj (fields : List (JStr × JsonVal))

/-- JavaScript truthiness of a JSON value (`if (data.path)`). -/
def truthy : JsonVal → Bool
  | .str s => s ≠ []
  | .num q => q.mant ≠ 0
  | .bool b => b
  | .null => false
  | .arr _ => true
  | .obj _ => true

/-- Property access `data.key` on a parsed JSON value: the last binding of
the key in an object (JavaScript keeps the last duplicate), `none`
(undefined) otherwise. -/
def objGet (v : JsonVal) (key : JStr) : Option JsonVal :=
  match v with
  | .obj fields =>
    match fields.reverse.find? (fun p => p.1 = key) with
    | some p => some p.2
    | none => none
  | _ => none

/-- Decimal digits of a natural number. -/
def decDigits (n : Nat) : JStr := decDigitsAux (n + 1) n

/-- JavaScript `String(x)` for an integer. -/
def intToJStr (i : Int) : JStr :=
  if i < 0 then '-' :: decDigits i.natAbs else decDigits i.natAbs

/-- JavaScript string coercion of a decimal: exact for integers and for
short decimals, where it coincides with the shortest-double rendering
JavaScript would print. -/
def jnumToJStr (n : JNum) : JStr :=
  if n.exp10 = 0 then intToJStr n.mant
  else
    let s := decDigits n.mant.natAbs
    let s := if s.length ≤ n.exp10 then List.replicate (n.exp10 + 1 - s.length) '0' ++ s else s
    (if n.mant < 0 then ['-'] else []) ++
      s.take (s.length - n.exp10) ++ ['.'] ++ s.drop (s.length - n.exp10)

/-- JavaScript `String(x)` of a JSON value (`${idx}` interpolation and the
coercions noted in the header comment). Arrays join their elements with
commas, objects render as `[object Object]`. -/
def jsToString : JsonVal → JStr
  | .str s => s
  | .num q => jnumToJStr q
  | .bool b => if b then jstr ("true") else jstr ("false")
  | .null => jstr ("null")
  | .obj _ => jstr ("[object Object]")
  | .arr xs => (xs.map jsToStringAtom).intersperse [','] |>.flatten
where
  /-- Array elements coerce with `null` rendered empty, as `Array.prototype.join` does. -/
  jsToStringAtom : JsonVal → JStr
    | .null => []
    | .str s => s
    | .num q => jnumToJStr q
    | .bool b => if b then jstr ("true") else jstr ("false")
    | .obj _ => jstr ("[object Object]")
    | .arr _ => []

/-- JSON whitespace (RFC 8259: space, tab, line feed, carriage return). -/
def jsonWS (c : Char) : Bool :=
  c = ' ' || c = '\t' || c = '\n' || c = '\r'

/-- The value of a hex digit. -/
def hexVal (c : Char) : Option Nat :=
  if ('0' ≤ c) ∧ (c ≤ '9') then some (c.toNat - '0'.toNat)
  else if ('a' ≤ c) ∧ (c ≤ 'f') then some (c.toNat - 'a'.toNat + 10)
  else if ('A' ≤ c) ∧ (c ≤ 'F') then some (c.toNat - 'A'.toNat + 10)
  else none

/-- One escape sequence after the backslash of a JSON string: the decoded
character and the rest. A `\uXXXX` high surrogate followed by a `\uXXXX`
low surrogate decodes to the one scalar the pair denotes in JavaScript. -/
def unescapeJson (t : JStr) : Option (Char × JStr) :=
  match t with
  | [] => none
  | e :: t2 =>
    if e = '"' then some ('"', t2)
    else if e = '\\' then some ('\\', t2)
    else if e = '/' then some ('/', t2)
    else if e = 'b' then some ('\x08', t2)
    else if e = 'f' then some ('\x0c', t2)
    else if e = 'n' then some ('\n', t2)
    else if e = 'r' then some ('\r', t2)
    else if e = 't' then some ('\t', t2)
    else if e = 'u' then
      match t2 with
      | a :: b :: c2 :: d :: t3 =>
        match hexVal a, hexVal b, hexVal c2, hexVal d with
        | some ha, some hb, some hc, some hd =>
          let x := ((ha * 16 + hb) * 16 + hc) * 16 + hd
          if 0xD800 ≤ x ∧ x ≤ 0xDBFF then
            match t3 with
            | '\\' :: 'u' :: a2 :: b2 :: c3 :: d2 :: t4 =>
              match hexVal a2, hexVal b2, hexVal c3, hexVal d2 with
              | some ha2, some hb2, some hc2, some hd2 =>
                let y := ((ha2 * 16 + hb2) * 16 + hc2) * 16 + hd2
                if 0xDC00 ≤ y ∧ y ≤ 0xDFFF then
                  some (Char.ofNat (0x10000 + (x - 0xD800) * 0x400 + (y - 0xDC00)), t4)
                else some (Char.ofNat x, t3)
              | _, _, _, _ => some (Char.ofNat x, t3)
            | _ => some (Char.ofNat x, t3)
          else some (Char.ofNat x, t3)
        | _, _, _, _ => none
      | _ => none
    else none

/-- A JSON string literal body after the opening quote: the decoded
characters and the rest after the closing quote. Control characters are
refused and escapes follow the JSON grammar. The fuel only serves
termination; one unit is spent per decoded character, so any fuel above the
input length is equivalent. -/
def parseJStringBody (fuel : Nat) (cs : JStr) : Option (JStr × JStr) :=
  match fuel with
  | 0 => none
  | fuel + 1 =>
    match cs with
    | [] => none
    | c :: t =>
      if c = '"' then some ([], t)
      else if c = '\\' then
        match unescapeJson t with
        | some (ch, rest) => (fun r => (ch :: r.1, r.2)) <$> parseJStringBody fuel rest
        | none => none
      else if c.toNat < 0x20 then none
      else (fun r => (c :: r.1, r.2)) <$> parseJStringBody fuel t

/-- One or more decimal digits: their value, count, and the rest. -/
def parseDigits (cs : JStr) : Option (Nat × Nat × JStr) :=
  match cs with
  | c :: t =>
    if '0' ≤ c ∧ c ≤ '9' then
      match parseDigits t with
      | some (v, n, rest) => some ((c.toNat - '0'.toNat) * 10 ^ n + v, n + 1, rest)
      | none => some (c.toNat - '0'.toNat, 1, t)
    else none
  | [] => none

/-- A JSON number per the strict grammar of `JSON.parse` (no leading zeros,
no leading `+`, no bare `.`), decoded to an exact rational. -/
def parseJNumber (cs : JStr) : Option (JNum × JStr) := do
  let (neg, cs1) := match cs with
    | '-' :: t => (true, t)
    | _ => (false, cs)
  let (intPart, rest1) ← (do
    match cs1 with
    | '0' :: t =>
      match t with
      | c :: _ => if '0' ≤ c ∧ c ≤ '9' then none else some ((0 : Nat), t)
      | [] => some ((0 : Nat), ([] : JStr))
    | c :: _ =>
      if '1' ≤ c ∧ c ≤ '9' then
        match parseDigits cs1 with
        | some (v, _, rest) => some (v, rest)
        | none => none
      else none
    | [] => none)
  let (fracNum, fracLen, rest2) ← (do
    match rest1 with
    | '.' :: t =>
      match parseDigits t with
      | some (v, n, rest) => some (v, n, rest)
      | none => none
    | _ => some ((0 : Nat), (0 : Nat), rest1))
  let (expVal, rest3) ← (do
    match rest2 with
    | c :: t =>
      if c = 'e' ∨ c = 'E' then
        let (esign, t2) := match t with
          | '-' :: u => ((-1 : Int), u)
          | '+' :: u => ((1 : Int), u)
          | _ => ((1 : Int), t)
        match parseDigits t2 with
        | some (v, _, rest) => some (esign * (v : Int), rest)
        | none => none
      else some ((0 : Int), rest2)
    | [] => some ((0 : Int), rest2))
  let mantissa : Int := (intPart : Int) * (10 : Int) ^ fracLen + (fracNum : Int)
  let signed : Int := if neg then -mantissa else mantissa
  if 0 ≤ expVal then
    some (jnumCanon (signed * (10 : Int) ^ expVal.natAbs) fracLen, rest3)
  else
    some (jnumCanon signed (fracLen + expVal.natAbs), rest3)

mutual

/-- A JSON value at the head of `cs` (fueled recursive descent). -/
def parseJValue (fuel : Nat) (cs : JStr) : Option (JsonVal × JStr) :=
  match fuel with
  | 0 => none
  | fuel + 1 =>
    let cs := cs.dropWhile jsonWS
    match cs with
    | [] => none
    | c :: t =>
      if c = '"' then (fun r => (JsonVal.str r.1, r.2)) <$> parseJStringBody (t.length + 1) t
      else if c = '\x7b' then
        let t2 := t.dropWhile jsonWS
        match t2 with
        | '\x7d' :: rest => some (JsonVal.obj [], rest)
        | _ =>
          match parseJMembers fuel t with
          | some (fields, rest) => some (JsonVal.obj fields, rest)
          | none => none
      else if c = '[' then
        let t2 := t.dropWhile jsonWS
        match t2 with
        | ']' :: rest => some (JsonVal.arr [], rest)
        | _ =>
          match parseJElements fuel t with
          | some (xs, rest) => some (JsonVal.arr xs, rest)
          | none => none
      else if startsWithL cs (jstr ("true")) then some (JsonVal.bool true, cs.drop 4)
      else if startsWithL cs (jstr ("false")) then some (JsonVal.bool false, cs.drop 5)
      else if startsWithL cs (jstr ("null")) then some (JsonVal.null, cs.drop 4)
      else (fun r => (JsonVal.num r.1, r.2)) <$> parseJNumber cs

/-- Object members after the opening brace (at least one member). -/
def parseJMembers (fuel : Nat) (cs : JStr) : Option (List (JStr × JsonVal) × JStr) :=
  match fuel with
  | 0 => none
  | fuel + 1 =>
    let cs := cs.dropWhile jsonWS
    match cs with
    | '"' :: t =>
      match parseJStringBody (t.length + 1) t with
      | some (key, rest1) =>
        let rest2 := rest1.dropWhile jsonWS
        match rest2 with
        | ':' :: rest3 =>
          match parseJValue fuel rest3 with
          | some (v, rest4) =>
            let rest5 := rest4.dropWhile jsonWS
            match rest5 with
            | ',' :: rest6 =>
              match parseJMembers fuel rest6 with
              | some (fields, rest7) => some ((key, v) :: fields, rest7)
              | none => none
            | '\x7d' :: rest6 => some ([(key, v)], rest6)
            | _ => none
          | none => none
        | _ => none
      | none => none
    | _ => none

/-- Array elements after the opening bracket (at least one element). -/
def parseJElements (fuel : Nat) (cs : JStr) : Option (List JsonVal × JStr) :=
  match fuel with
  | 0 => none
  | fuel + 1 =>
    match parseJValue fuel cs with
    | some (v, rest1) =>
      let rest2 := rest1.dropWhile jsonWS
      match rest2 with
      | ',' :: rest3 =>
        match parseJElements fuel rest3 with
        | some (xs, rest4) => some (v :: xs, rest4)
        | none => none
      | ']' :: rest3 => some ([v], rest3)
      | _ => none
    | none => none

end

/-- `JSON.parse(s)`: the whole string must be one value, whitespace aside. -/
def jsonParse (cs : JStr) : Option JsonVal :=
  match parseJValue (cs.length + 1) cs with
  | some (v, rest) => if rest.dropWhile jsonWS = [] then some v else none
  | none => none

/-! ### The document model (`models.ts`)

Two fields are stored up to behavioral equivalence so that the records keep
decidable equality without embedding raw JSON values:

* `hash`: the planner and analyzer only ever compare a record's hash with a
  computed hash string using strict equality, so a truthy non-string hash
  value (which equals no string) is represented as `none` - it behaves
  exactly like any hash string that never matches.
* `eol`: the stored `data.eol` is only ever used as a truthiness test
  followed by strict comparison against the strings `"\r\n"` and `"\n"`
  inside `normalizeLineEndings`, so it is kept as which of the three
  behavior classes the value falls in (CRLF, LF, or some other truthy value
  for which normalization is the identity); an absent or falsy value is
  `none`. -/

/-- A half-open character range `{start, endExclusive}` in the document. -/
structure OffsetRange where
  start : Nat
  endExclusive : Nat
deriving DecidableEq

/-- The behavior class of a stored `eol` field (see the section comment). -/
inductive EolSpec where
  | crlf
  | lf
  | otherTruthy
deriving DecidableEq

/-- `ExistingFileInfo` of models.ts. -/
structure ExistingFileInfo where
  idx : JNum
  path : JStr
  hash : Option JStr
  headerOffsetRange : OffsetRange
deriving DecidableEq

/-- `UpdatedFileInfo` of models.ts (`content = none` is a folded record). -/
structure UpdatedFileInfo where
  idx : JNum
  newPath : JStr
  content : Option JStr
  headerOffsetRange : OffsetRange
  eol : Option EolSpec
deriving DecidableEq

/-- `NewFileInfo` of models.ts: an updated record without an `idx`. -/
structure NewFileInfo where
  newPath : JStr
  content : Option JStr
  headerOffsetRange : OffsetRange
  eol : Option EolSpec
deriving DecidableEq

/-- Diagnostic severity. -/
inductive Severity where
  | error
  | warning
deriving DecidableEq

/-- `MerchDiagnostic` of models.ts. -/
structure MerchDiagnostic where
  range : OffsetRange
  message : JStr
  severity : Severity
deriving DecidableEq

/-- A JavaScript `Map` (or a string-keyed object): an association list in
insertion order; `set` overwrites in place, keeping the original position. -/
abbrev JMap (α β : Type) := List (α × β)

/-- `Map.prototype.get`. -/
def jmGet [DecidableEq α] : JMap α β → α → Option β
  | [], _ => none
  | (k, v) :: t, key => if k = key then some v else jmGet t key

/-- `Map.prototype.set`: overwrite in place, else append. -/
def jmSet [DecidableEq α] : JMap α β → α → β → JMap α β
  | [], key, v => [(key, v)]
  | (k, w) :: t, key, v => if k = key then (key, v) :: t else (k, w) :: jmSet t key v

/-- `Map.prototype.delete`. -/
def jmDelete [DecidableEq α] : JMap α β → α → JMap α β
  | [], _ => []
  | (k, w) :: t, key => if k = key then t else (k, w) :: jmDelete t key

/-- `ParsedMerchDoc` of models.ts. -/
structure ParsedMerchDoc where
  existingFiles : List ExistingFileInfo
  updatedFiles : JMap JNum UpdatedFileInfo
  newFiles : List NewFileInfo
  basePath : JStr
  setupHeaderRange : Option OffsetRange
  diagnostics : List MerchDiagnostic
deriving DecidableEq

/-! ### The header-line parser (`tryParseMerchLine`)

The strict regex is `^.*? merch::([a-zA-Z0-9-]+):\s*(\{.*\})\s*(:)?$`.
Since `.` and `\s` see no line terminator inside a line, the regex is
equivalent to: from the end of the line, an optional final colon, then
whitespace, then the `}` that closes the JSON capture; from the start, the
first occurrence of ` merch::` followed by a maximal nonempty run of
command characters, a colon, whitespace, and the `{` that opens the
capture, lying at least two characters before the capture's end. -/

/-- The literal the lenient header scan looks for. -/
def merchMarker : JStr := jstr (" merch::")

/-- A command-name character, `[a-zA-Z0-9-]`. -/
def isCmdChar (c : Char) : Bool :=
  (('a' ≤ c) && (c ≤ 'z')) || (('A' ≤ c) && (c ≤ 'Z')) || (('0' ≤ c) && (c ≤ '9')) || c = '-'

/-- ECMAScript `\s`. -/
def jsWS (c : Char) : Bool :=
  c = ' ' || c = '\t' || c = '\n' || c = '\x0b' || c = '\x0c' || c = '\r' ||
  c = ' ' || c = ' ' || (' ' ≤ c && c ≤ ' ') ||
  c = ' ' || c = ' ' || c = ' ' || c = ' ' ||
  c = '　' || c = '﻿'

/-- The end-anchored part of the strict regex, `\s*(:)?$` after the JSON
capture: whether the line carries a trailing colon, and the index just past
the `}` that ends the capture. -/
def merchTail (line : JStr) : Option (Bool × Nat) :=
  let r := line.reverse
  let p := match r with
    | ':' :: t => (true, t)
    | _ => (false, r)
  let r2 := p.2.dropWhile jsWS
  match r2 with
  | '\x7d' :: _ => some (p.1, r2.length)
  | _ => none

/-- After an occurrence of the marker: the command name and the index,
relative to the given suffix, of the `{` opening the JSON capture. -/
def merchAfterMarker (s : JStr) : Option (JStr × Nat) :=
  let cmd := s.takeWhile isCmdChar
  if cmd = [] then none
  else match s.drop cmd.length with
    | ':' :: rest =>
      let ws := rest.takeWhile jsWS
      match rest.drop ws.length with
      | '\x7b' :: _ => some (cmd, cmd.length + 1 + ws.length)
      | _ => none
    | _ => none

/-- Left-to-right search for the first ` merch::` occurrence whose suffix
matches command, colon, whitespace and an opening brace compatible with the
capture's end `jEnd`; later occurrences are tried when one fails, as the
backtracking engine does. -/
def findMerchCmd : JStr → Nat → Nat → Option (JStr × Nat)
  | [], _, _ => none
  | l@(_ :: t), i, jEnd =>
    (if startsWithL l merchMarker then
      match merchAfterMarker (l.drop merchMarker.length) with
      | some (cmd, rel) =>
        let jStart := i + merchMarker.length + rel
        if jStart + 2 ≤ jEnd then some (cmd, jStart) else none
      | none => none
    else none).orElse (fun _ => findMerchCmd t (i + 1) jEnd)

/-- `MerchLine` of parser.ts. -/
structure MerchLine where
  command : JStr
  data : JsonVal
  hasColon : Bool

/-- `tryParseMerchLine` of parser.ts: the strict regex followed by
`JSON.parse` of the capture; any failure yields `none` (`null`). -/
def tryParseMerchLine (line : JStr) : Option MerchLine :=
  match merchTail line with
  | none => none
  | some (hasColon, jEnd) =>
    match findMerchCmd line 0 jEnd with
    | none => none
    | some (cmd, jStart) =>
      match jsonParse (substrJS line jStart jEnd) with
      | some data => some ⟨cmd, data, hasColon⟩
      | none => none

/-- The fallback test `/merch::([a-zA-Z0-9-]+):/` distinguishing "Invalid
JSON in header" from "Could not parse header". -/
def hasCmdShape : JStr → Bool
  | [] => false
  | l@(_ :: t) =>
    (startsWithL l (jstr ("merch::")) &&
      (let s := l.drop 7
       let cmd := s.takeWhile isCmdChar
       !cmd.isEmpty &&
         (match s.drop cmd.length with
          | ':' :: _ => true
          | _ => false))) ||
    hasCmdShape t

/-! ### The document parser (`parseMerchDoc`) -/

/-- Which record the pending content block belongs to. -/
inductive PendingTarget where
  | updated (idx : JNum)
  | newIdx (arrayIndex : Nat)
deriving DecidableEq

/-- `PendingContent` of parser.ts. -/
structure PendingContent where
  contentStart : Nat
  target : PendingTarget
deriving DecidableEq

/-- The parser's mutable state while scanning matched header lines. -/
structure ScanState where
  existingFiles : List ExistingFileInfo
  updatedFiles : JMap JNum UpdatedFileInfo
  newFiles : List NewFileInfo
  basePath : Option JStr
  setupHeaderRange : Option OffsetRange
  diagnostics : List MerchDiagnostic
  pending : Option PendingContent
deriving DecidableEq

/-- The empty initial scan state. -/
def initScanState : ScanState := ⟨[], [], [], none, none, [], none⟩

/-- `assignContent` of parser.ts: store a closed content block into the
record it belongs to, when that record still exists. -/
def assignContent (st : ScanState) (content : JStr) (target : PendingTarget) : ScanState :=
  match target with
  | .updated idx =>
    match jmGet st.updatedFiles idx with
    | some fi =>
      { st with updatedFiles := jmSet st.updatedFiles idx { fi with content := some content } }
    | none => st
  | .newIdx i =>
    match st.newFiles.get? i with
    | some fi => { st with newFiles := st.newFiles.set i { fi with content := some content } }
    | none => st

/-- Close a pending content block against position `upTo`: trim one `\n`
and then one `\r` off the end (reading `doc[end - 1]`, where a negative
index is `undefined`), take the substring, and assign it. -/
def closePending (doc : JStr) (st : ScanState) (upTo : Nat) : ScanState :=
  match st.pending with
  | none => st
  | some pc =>
    let e1 := upTo
    let e2 := if 0 < e1 ∧ charAt doc (e1 - 1) = some '\n' then e1 - 1 else e1
    let e3 := if 0 < e2 ∧ charAt doc (e2 - 1) = some '\r' then e2 - 1 else e2
    assignContent st (substrJS doc pc.contentStart e3) pc.target

/-- A one-entry diagnostics push. -/
def pushDiag (st : ScanState) (r : OffsetRange) (msg : JStr) (sev : Severity) : ScanState :=
  { st with diagnostics := st.diagnostics ++ [⟨r, msg, sev⟩] }

/-- The stored form of a parsed `eol` field (see the model section). -/
def eolSpecOf (v : Option JsonVal) : Option EolSpec :=
  match v with
  | none => none
  | some v =>
    if truthy v then
      match v with
      | .str s =>
        if s = jstr ("\r\n") then some .crlf
        else if s = jstr ("\n") then some .lf
        else some .otherTruthy
      | _ => some .otherTruthy
    else none

/-- The stored form of a truthy `hash` field (see the model section). -/
def hashFieldOf (v : JsonVal) : Option JStr :=
  match v with
  | .str s => some s
  | _ => none

/-- The content start right after a header carrying a trailing colon: skip
one `\r` and then one `\n`. -/
def contentStartAfter (doc : JStr) (matchEnd : Nat) : Nat :=
  let c1 := if charAt doc matchEnd = some '\r' then matchEnd + 1 else matchEnd
  if charAt doc c1 = some '\n' then c1 + 1 else c1

/-- The per-matched-line body of the scan loop of `parseMerchDoc`. -/
def scanStep (doc : JStr) (st : ScanState) (m : Nat × JStr) : ScanState :=
  let matchStart := m.1
  let line := m.2
  let matchEnd := matchStart + line.length
  let range : OffsetRange := ⟨matchStart, matchEnd⟩
  let st := closePending doc st matchStart
  let st := { st with pending := none }
  match tryParseMerchLine line with
  | some ml =>
    if ml.command = jstr ("setup") then
      match objGet ml.data (jstr ("basePath")) with
      | some v =>
        if truthy v then
          { st with basePath := some (jsToString v), setupHeaderRange := some range }
        else pushDiag st range (jstr ("Missing basePath in setup")) .error
      | none => pushDiag st range (jstr ("Missing basePath in setup")) .error
    else if ml.command = jstr ("existing-file") then
      match objGet ml.data (jstr ("idx")) with
      | some (.num q) =>
        match objGet ml.data (jstr ("path")), objGet ml.data (jstr ("hash")) with
        | some pv, some hv =>
          if truthy pv ∧ truthy hv then
            let rec0 : ExistingFileInfo := ⟨q, jsToString pv, hashFieldOf hv, range⟩
            { st with existingFiles := st.existingFiles ++ [rec0] }
          else pushDiag st range (jstr ("Invalid existing-file data")) .error
        | _, _ => pushDiag st range (jstr ("Invalid existing-file data")) .error
      | _ => pushDiag st range (jstr ("Invalid existing-file data")) .error
    else if ml.command = jstr ("file") then
      match objGet ml.data (jstr ("path")) with
      | some pv =>
        if truthy pv then
          match objGet ml.data (jstr ("idx")) with
          | some (.num q) =>
            let rec1 : UpdatedFileInfo :=
              ⟨q, jsToString pv, none, range, eolSpecOf (objGet ml.data (jstr ("eol")))⟩
            let st := { st with updatedFiles := jmSet st.updatedFiles q rec1 }
            if ml.hasColon then
              { st with pending := some ⟨contentStartAfter doc matchEnd, .updated q⟩ }
            else st
          | _ =>
            let arrayIndex := st.newFiles.length
            let rec2 : NewFileInfo :=
              ⟨jsToString pv, none, range, eolSpecOf (objGet ml.data (jstr ("eol")))⟩
            let st := { st with newFiles := st.newFiles ++ [rec2] }
            if ml.hasColon then
              { st with pending := some ⟨contentStartAfter doc matchEnd, .newIdx arrayIndex⟩ }
            else st
        else pushDiag st range (jstr ("Invalid file data: missing path")) .error
      | none => pushDiag st range (jstr ("Invalid file data: missing path")) .error
    else pushDiag st range (jstr ("Unknown command: ") ++ ml.command) .error
  | none =>
    if hasCmdShape line then pushDiag st range (jstr ("Invalid JSON in header")) .error
    else pushDiag st range (jstr ("Could not parse header")) .error

/-- The lines the lenient global regex `^.*? merch::.*$` matches: every
line containing the marker, with its start offset. -/
def matchedLines (doc : JStr) : List (Nat × JStr) :=
  (lineSplit doc).filter (fun p => containsSub p.2 merchMarker)

/-- The scan of `parseMerchDoc`: fold the matched lines and close the last
pending content block against the end of the document. -/
def parseScan (doc : JStr) : ScanState :=
  let st := (matchedLines doc).foldl (scanStep doc) initScanState
  closePending doc st doc.length

/-- The post-pass warning about every `updatedFiles` key with no
corresponding `existing-file` entry. -/
def orphanDiags (st : ScanState) : List MerchDiagnostic :=
  st.updatedFiles.filterMap (fun p =>
    if st.existingFiles.any (fun e => e.idx = p.1) then none
    else some ⟨p.2.headerOffsetRange,
      jstr ("No existing-file found with idx ") ++ jnumToJStr p.1, .warning⟩)

/-- The parser's one hard failure. -/
inductive ParseError where
  | noBasePath
deriving DecidableEq

/-- `parseMerchDoc` of parser.ts. -/
def parseMerchDoc (doc : JStr) : Except ParseError ParsedMerchDoc :=
  let st := parseScan doc
  let diags := st.diagnostics ++ orphanDiags st
  match st.basePath with
  | some bp => .ok ⟨st.existingFiles, st.updatedFiles, st.newFiles, bp, st.setupHeaderRange, diags⟩
  | none =>
    if diags.isEmpty then .error .noBasePath
    else .ok ⟨st.existingFiles, st.updatedFiles, st.newFiles, jstr ("."),
      st.setupHeaderRange, diags⟩

/-! ### Path utilities and the in-memory filesystem

The node `path` module is an external collaborator; the core consumes it
through an interface (spec section 6). It is modelled as a structure of
abstract string functions, and a small concrete POSIX-like instance is
provided for concrete runs. -/

/-- The path-utility interface `IPath`. `basename` takes the extension to
strip, as `path.basename(p, ext)` does. -/
structure IPath where
  resolve : JStr → JStr → JStr
  dirname : JStr → JStr
  extname : JStr → JStr
  basename : JStr → JStr → JStr
  join : JStr → JStr → JStr
  relative : JStr → JStr → JStr

/-- Index of the last `/` in a path. -/
def lastSlash (p : JStr) : Option Nat := lastIndexOfCh p '/'

/-- Modelled from the spec: `path.posix.resolve` for an absolute base and a
clean relative path (no `.`/`..` segments), the only inputs concrete runs
use. An absolute path wins; anything else is appended to the base. -/
def posixResolve (base p : JStr) : JStr :=
  if startsWithL p (jstr ("/")) then p else base ++ '/' :: p

/-- Modelled from the spec: `path.posix.dirname` for clean paths. -/
def posixDirname (p : JStr) : JStr :=
  match lastSlash p with
  | none => jstr (".")
  | some 0 => jstr ("/")
  | some i => p.take i

/-- The last path segment. -/
def lastSegment (p : JStr) : JStr :=
  match lastSlash p with
  | none => p
  | some i => p.drop (i + 1)

/-- Modelled from the spec: `path.posix.extname` for clean paths. -/
def posixExtname (p : JStr) : JStr :=
  let seg := lastSegment p
  match lastIndexOfCh seg '.' with
  | none => []
  | some 0 => []
  | some i => seg.drop i

/-- Modelled from the spec: `path.posix.basename(p, ext)` for clean paths. -/
def posixBasename (p ext : JStr) : JStr :=
  let seg := lastSegment p
  if ext ≠ [] ∧ seg ≠ ext ∧ startsWithL seg.reverse ext.reverse then
    seg.take (seg.length - ext.length)
  else seg

/-- Modelled from the spec: `path.posix.join` of two clean segments. -/
def posixJoin (a b : JStr) : JStr :=
  if a = [] then b else if b = [] then a else a ++ '/' :: b

/-- Modelled from the spec: `path.posix.relative` for a base that is a
prefix of the target, the only inputs concrete runs use. -/
def posixRelative (fromP toP : JStr) : JStr :=
  if startsWithL toP (fromP ++ [('/' : Char)]) then toP.drop (fromP.length + 1)
  else if toP = fromP then []
  else toP

/-- The concrete POSIX-like path instance used by closed runs. -/
def simplePath : IPath :=
  ⟨posixResolve, posixDirname, posixExtname, posixBasename, posixJoin, posixRelative⟩

/-- The state of `MemoryFileSystem`: normalized path to content. -/
abbrev MemFs := JMap JStr JStr

/-- `MemoryFileSystem`'s path normalization: backslashes to slashes, then a
leading drive letter stripped. -/
def memNormalize (p : JStr) : JStr :=
  let q := p.map (fun c => if c = '\\' then '/' else c)
  match q with
  | a :: ':' :: t =>
    if ('a' ≤ a && a ≤ 'z') || ('A' ≤ a && a ≤ 'Z') then t else q
  | _ => q

/-- `exists` and `isFile` (they coincide on the in-memory filesystem). -/
def memHas (fs : MemFs) (p : JStr) : Bool := (jmGet fs (memNormalize p)).isSome

/-- `readFile`, `none` when the promise would reject. -/
def memRead (fs : MemFs) (p : JStr) : Option JStr := jmGet fs (memNormalize p)

/-- `writeFile`. -/
def memWrite (fs : MemFs) (p c : JStr) : MemFs := jmSet fs (memNormalize p) c

/-- `delete` (a JavaScript `Map.delete`, which never throws). -/
def memDelete (fs : MemFs) (p : JStr) : MemFs := jmDelete fs (memNormalize p)

/-- `rename`: move the content, rejecting when the source is missing. -/
def memRename (fs : MemFs) (o n : JStr) : Option MemFs :=
  match jmGet fs (memNormalize o) with
  | some c => some (jmSet (jmDelete fs (memNormalize o)) (memNormalize n) c)
  | none => none

/-! ### The action planner (`actions.ts`) -/

/-- An `Action` of actions.ts, with its optional source range (the name
`Action` itself is taken by Mathlib). -/
inductive FsAction where
  | write (path : JStr) (content : JStr) (source : Option OffsetRange)
  | delete (path : JStr) (source : Option OffsetRange)
  | rename (oldPath : JStr) (newPath : JStr) (source : Option OffsetRange)
deriving DecidableEq

/-- The source range an action carries. -/
def FsAction.source : FsAction → Option OffsetRange
  | .write _ _ s => s
  | .delete _ s => s
  | .rename _ _ s => s

/-- `runAction`: dispatch one action to the filesystem. -/
def runAction (a : FsAction) (fs : MemFs) : Option MemFs :=
  match a with
  | .write p c _ => some (memWrite fs p c)
  | .rename o n _ => memRename fs o n
  | .delete p _ => some (memDelete fs p)

/-- Run a list of actions in order, stopping at the first failure. -/
def runActions : List FsAction → MemFs → Option MemFs
  | [], fs => some fs
  | a :: t, fs =>
    match runAction a fs with
    | some fs2 => runActions t fs2
    | none => none

/-- How `buildActions` can fail: `HashMismatchError` carrying the affected
relative path; the "Something is fishy" internal invariant error; and fuel
exhaustion, which models the infinite loops the source would enter on
pathological path implementations (a temp path colliding with its own
cycle, or an empty-string rename key). -/
inductive BuildError where
  | hashMismatch (filePath : JStr)
  | fishy
  | outOfFuel
deriving DecidableEq

/-- A pending rename's value in the `renames` map. -/
structure RenameInfo where
  newPath : JStr
  source : Option OffsetRange
deriving DecidableEq

/-- Normalization to a record's declared `eol`, exactly as the source
guards `normalizeLineEndings` behind a truthiness test of the field. -/
def applyEol (eol : Option EolSpec) (c : JStr) : JStr :=
  match eol with
  | some .crlf => toCRLF c
  | some .lf => toLF c
  | _ => c

/-- The per-existing-file step of `buildActions`: the optional hash check,
then a pending rename and/or a write or delete action. -/
def buildStep (P : IPath) (fs : MemFs) (checkHash : Bool) (doc : ParsedMerchDoc)
    (acc : List FsAction × JMap JStr RenameInfo) (e : ExistingFileInfo) :
    Except BuildError (List FsAction × JMap JStr RenameInfo) :=
  let oldPath := P.resolve doc.basePath e.path
  let updated := jmGet doc.updatedFiles e.idx
  let isFoldedRename : Bool := match updated with
    | some u => u.content = none
    | none => false
  let proceed : Except BuildError (List FsAction × JMap JStr RenameInfo) :=
    match updated with
    | some u =>
      let newPath := P.resolve doc.basePath u.newPath
      let renames2 :=
        if oldPath ≠ newPath then jmSet acc.2 oldPath ⟨newPath, some u.headerOffsetRange⟩
        else acc.2
      match u.content with
      | some c =>
        let contentToWrite := applyEol u.eol c
        if e.hash = some (computeHash contentToWrite) then .ok (acc.1, renames2)
        else .ok (acc.1 ++ [.write oldPath contentToWrite (some u.headerOffsetRange)], renames2)
      | none => .ok (acc.1, renames2)
    | none => .ok (acc.1 ++ [.delete oldPath (some e.headerOffsetRange)], acc.2)
  if checkHash ∧ ¬isFoldedRename then
    match memRead fs oldPath with
    | some onDisk =>
      if e.hash = some (computeHash onDisk) then proceed
      else .error (.hashMismatch e.path)
    | none => .error (.hashMismatch e.path)
  else proceed

/-- `processRename`: the depth-first walk over the pending-rename graph,
emitting renames in dependency order and breaking cycles with a generated
temp path. One unit of fuel is spent per visited node. -/
def processRename (P : IPath) : Nat → JMap JStr RenameInfo → List JStr → List FsAction → JStr →
    Except BuildError (JMap JStr RenameInfo × List FsAction)
  | 0, _, _, _, _ => .error .outOfFuel
  | fuel + 1, renames, processed, acts, fromP =>
    match jmGet renames fromP with
    | none => .ok (renames, acts)
    | some info =>
      if fromP ∈ processed then .error .fishy
      else if info.newPath ∈ fromP :: processed then
        let dir := P.dirname info.newPath
        let ext := P.extname info.newPath
        let nm := P.basename info.newPath ext
        let tempPath := P.join dir (nm ++ jstr ("_temp") ++ ext)
        .ok (jmDelete (jmSet renames tempPath ⟨info.newPath, info.source⟩) fromP,
          acts ++ [.rename fromP tempPath info.source])
      else
        match processRename P fuel renames (fromP :: processed) acts info.newPath with
        | .ok (renames2, acts2) =>
          .ok (jmDelete renames2 fromP, acts2 ++ [.rename fromP info.newPath info.source])
        | .error err => .error err

/-- The `while (renames.size > 0)` loop: take the first key and walk from
it. A falsy (empty-string) first key makes the source spin forever; here
the fuel runs out instead. -/
def renameLoop (P : IPath) : Nat → JMap JStr RenameInfo → List FsAction →
    Except BuildError (List FsAction)
  | _, [], acts => .ok acts
  | 0, _ :: _, _ => .error .outOfFuel
  | fuel + 1, renames@((k, _) :: _), acts =>
    if k = [] then renameLoop P fuel renames acts
    else
      match processRename P (renames.length + 1) renames [] acts k with
      | .ok (renames2, acts2) => renameLoop P fuel renames2 acts2
      | .error e => .error e

/-- The per-updated-record step of the orphan pass of `buildActions`: an
updated record with no matching existing record and non-null content gets a
write to its own (new) path. -/
def updatedOrphanStep (P : IPath) (doc : ParsedMerchDoc) (acts : List FsAction)
    (p : JNum × UpdatedFileInfo) : List FsAction :=
  if doc.existingFiles.any (fun e => e.idx = p.1) then acts
  else
    match p.2.content with
    | some c =>
      acts ++ [.write (P.resolve doc.basePath p.2.newPath) (applyEol p.2.eol c)
        (some p.2.headerOffsetRange)]
    | none => acts

/-- The per-new-file step of `buildActions`: a write when content is
non-null. -/
def newFileStep (P : IPath) (doc : ParsedMerchDoc) (acts : List FsAction)
    (nf : NewFileInfo) : List FsAction :=
  match nf.content with
  | some c =>
    acts ++ [.write (P.resolve doc.basePath nf.newPath) (applyEol nf.eol c)
      (some nf.headerOffsetRange)]
  | none => acts

/-- `buildActions` of actions.ts. -/
def buildActions (P : IPath) (doc : ParsedMerchDoc) (fs : MemFs) (checkHash : Bool) :
    Except BuildError (List FsAction) := do
  let s1 ← doc.existingFiles.foldlM (buildStep P fs checkHash doc) ([], [])
  let acts2 := doc.updatedFiles.foldl (updatedOrphanStep P doc) s1.1
  let acts3 := doc.newFiles.foldl (newFileStep P doc) acts2
  renameLoop P (2 * s1.2.length + 2) s1.2 acts3

/-! ### The splitter (`splitter.ts`) -/

/-- How `splitContent` can fail. -/
inductive SplitError where
  | parse (e : ParseError)
  | build (e : BuildError)
  | run
deriving DecidableEq

/-- `splitContent` of splitter.ts: parse, plan, then (unless `dryRun`)
execute the actions in order, threading the filesystem state. The logger
argument only prints and is omitted. -/
def splitContent (P : IPath) (content : JStr) (dryRun : Bool) (fs : MemFs)
    (checkHash : Bool) : Except SplitError (List FsAction × MemFs) :=
  match parseMerchDoc content with
  | .error e => .error (.parse e)
  | .ok doc =>
    match buildActions P doc fs checkHash with
    | .error e => .error (.build e)
    | .ok acts =>
      if dryRun then .ok (acts, fs)
      else
        match runActions acts fs with
        | some fs2 => .ok (acts, fs2)
        | none => .error .run

/-! ### The builder (`merger.ts`) -/

/-- `LineFormatter` of models.ts. -/
structure LineFormatter where
  pre : JStr
  suf : JStr
deriving DecidableEq

/-- `LineFormatter.format`. -/
def LineFormatter.format (f : LineFormatter) (content : JStr) : JStr :=
  f.pre ++ content ++ f.suf

/-- `normalizePath` of merger.ts: backslashes to forward slashes. -/
def normalizePath (p : JStr) : JStr :=
  p.map (fun c => if c = '\\' then '/' else c)

/-- One escaped character of `JSON.stringify` string output. -/
def jsonEscapeChar (c : Char) : JStr :=
  if c = '"' then ['\\', '"']
  else if c = '\\' then ['\\', '\\']
  else if c = '\n' then ['\\', 'n']
  else if c = '\r' then ['\\', 'r']
  else if c = '\t' then ['\\', 't']
  else if c = '\x08' then ['\\', 'b']
  else if c = '\x0c' then ['\\', 'f']
  else if c.toNat < 32 then
    '\\' :: 'u' :: '0' :: '0' :: [hexCh (c.toNat / 16), hexCh (c.toNat % 16)]
  else [c]

/-- `JSON.stringify` body of a string. -/
def jsonEscape (s : JStr) : JStr := (s.map jsonEscapeChar).flatten

/-- A `JSON.stringify` quoted string. -/
def jq (s : JStr) : JStr := '"' :: jsonEscape s ++ ['"']

/-- The opening and closing braces, as one-character strings. -/
def jLB : JStr := ['\x7b']

/-- The closing brace. -/
def jRB : JStr := ['\x7d']

/-- `JSON.stringify({basePath})`. -/
def renderSetupJson (bp : JStr) : JStr :=
  jLB ++ jq (jstr ("basePath")) ++ [':'] ++ jq bp ++ jRB

/-- `JSON.stringify({path, idx, hash})`. -/
def renderExistingJson (p : JStr) (i : Nat) (h : JStr) : JStr :=
  jLB ++ jq (jstr ("path")) ++ [':'] ++ jq p ++ [','] ++
    jq (jstr ("idx")) ++ [':'] ++ decDigits i ++ [','] ++
    jq (jstr ("hash")) ++ [':'] ++ jq h ++ jRB

/-- `JSON.stringify({path, idx, eol?})`. -/
def renderFileJson (p : JStr) (i : Nat) (eol : Option JStr) : JStr :=
  jLB ++ jq (jstr ("path")) ++ [':'] ++ jq p ++ [','] ++
    jq (jstr ("idx")) ++ [':'] ++ decDigits i ++
    (match eol with
     | some e => [','] ++ jq (jstr ("eol")) ++ [':'] ++ jq e
     | none => []) ++ jRB

/-- The dominant line ending `mergeFiles` picks: the detected ending of the
first included file that has one, else `\n`. -/
def mergeMainLE (files : List JStr) (fs : MemFs) : JStr :=
  match files with
  | [] => jstr ("\n")
  | f :: t =>
    match (if memHas fs f then memRead fs f else none) with
    | some c =>
      match detectLineEnding c with
      | some le => le
      | none => mergeMainLE t fs
    | none => mergeMainLE t fs

/-- The header-manifest line of one file in `mergeFiles`. -/
def mergeExistingLine (P : IPath) (formatter : LineFormatter) (baseDir : JStr) (le : JStr)
    (i : Nat) (f : JStr) (c : JStr) : JStr :=
  let displayPath := normalizePath (P.relative baseDir f)
  formatter.format (jstr ("merch::existing-file: ") ++
    renderExistingJson displayPath i (computeHash c)) ++ le

/-- The body block of one file in `mergeFiles`. -/
def mergeBodyBlock (P : IPath) (formatter : LineFormatter) (baseDir : JStr) (le : JStr)
    (withoutContent : Bool) (i : Nat) (f : JStr) (c : JStr) : JStr :=
  let displayPath := normalizePath (P.relative baseDir f)
  let fileLE := detectLineEnding c
  let eolField := match fileLE with
    | some fle => if fle ≠ le then some fle else none
    | none => none
  formatter.format (jstr ("merch::file: ") ++ renderFileJson displayPath i eolField ++
    (if withoutContent then [] else [':'])) ++ le ++
  (if withoutContent then [] else normalizeLineEndings c le ++ le)

/-- `mergeFiles` of merger.ts: the full document text the builder writes.
The node `path.relative` the source calls through the global module is the
interface's `relative`. -/
def mergeFiles (P : IPath) (files : List JStr) (formatter : LineFormatter) (baseDir : JStr)
    (withoutContent : Bool) (fs : MemFs) : JStr :=
  let le := mergeMainLE files fs
  let sep := formatter.format (List.replicate 20 '=') ++ le
  let setupLine :=
    formatter.format (jstr ("merch::setup: ") ++ renderSetupJson (normalizePath baseDir)) ++ le
  let manifest := (files.enum.map (fun p =>
    match memRead fs p.2 with
    | some c => if memHas fs p.2 then mergeExistingLine P formatter baseDir le p.1 p.2 c else []
    | none => [])).flatten
  let body := (files.enum.map (fun p =>
    match memRead fs p.2 with
    | some c =>
      if memHas fs p.2 then mergeBodyBlock P formatter baseDir le withoutContent p.1 p.2 c
      else []
    | none => [])).flatten
  sep ++ setupLine ++ manifest ++ sep ++ le ++ body

/-! ### Folding and unfolding -/

/-- `FoldResult` of the folding module. -/
structure FoldResult where
  newContent : JStr
  hadModifiedContent : Bool
deriving DecidableEq

/-- `UnfoldResult`. -/
structure UnfoldResult where
  newContent : JStr
deriving DecidableEq

/-- `isFolded`: true iff the record carries no content. -/
def isFolded (content : Option JStr) : Bool := content = none

/-- Trim one `\n` then one `\r` off position `e` of the document (the
shared end-of-block trimming idiom). -/
def trimEnd (doc : JStr) (e : Nat) : Nat :=
  let e2 := if 0 < e ∧ charAt doc (e - 1) = some '\n' then e - 1 else e
  if 0 < e2 ∧ charAt doc (e2 - 1) = some '\r' then e2 - 1 else e2

/-- `findContentEnd`: the end of the content block of the record whose
header starts at `hdrStart` - just before the nearest later header, or the
end of the document, one trailing line break trimmed. -/
def findContentEnd (content : JStr) (hdrStart : Nat) (doc : ParsedMerchDoc) : Nat :=
  let allHeaders :=
    (doc.updatedFiles.map (fun p => p.2.headerOffsetRange.start)).filter (fun s => hdrStart < s) ++
    (doc.newFiles.map (fun f => f.headerOffsetRange.start)).filter (fun s => hdrStart < s)
  match allHeaders with
  | [] => trimEnd content content.length
  | h :: t => trimEnd content (t.foldl min h)

/-- `foldFile`: delete everything from the last colon of the record's
header line through the end of its content block, and report whether the
discarded content differed (by hash, after eol normalization) from the
stored existing-file hash. The filesystem argument of the source is unused. -/
def foldFile (content : JStr) (file : UpdatedFileInfo) (_fs : MemFs) (_basePath : JStr) :
    Except ParseError FoldResult :=
  match file.content with
  | none => .ok ⟨content, false⟩
  | some fc =>
    match parseMerchDoc content with
    | .error e => .error e
    | .ok doc =>
      let existingFile := doc.existingFiles.find? (fun e => e.idx = file.idx)
      let hadModifiedContent := match existingFile with
        | some ex => decide (ex.hash ≠ some (computeHash (applyEol file.eol fc)))
        | none => false
      let contentEnd := findContentEnd content file.headerOffsetRange.start doc
      let headerLine :=
        substrJS content file.headerOffsetRange.start file.headerOffsetRange.endExclusive
      match lastIndexOfCh headerLine ':' with
      | none => .ok ⟨content, false⟩
      | some colonIndex =>
        let colonOffsetInDoc := file.headerOffsetRange.start + colonIndex
        .ok ⟨substrJS content 0 colonOffsetInDoc ++ substrJS content contentEnd content.length,
          hadModifiedContent⟩

/-- How `unfoldFile` can fail. -/
inductive UnfoldError where
  | parse (e : ParseError)
  | noExisting
  | readFail
deriving DecidableEq

/-- `unfoldFile`: read the file from disk via the existing record's path,
normalize it to the document's dominant line ending, and splice a colon
plus the content after the header. -/
def unfoldFile (P : IPath) (content : JStr) (file : UpdatedFileInfo) (fs : MemFs)
    (basePath : JStr) : Except UnfoldError UnfoldResult :=
  match file.content with
  | some _ => .ok ⟨content⟩
  | none =>
    match parseMerchDoc content with
    | .error e => .error (.parse e)
    | .ok doc =>
      match doc.existingFiles.find? (fun e => e.idx = file.idx) with
      | none => .error .noExisting
      | some existingFile =>
        match memRead fs (P.resolve basePath existingFile.path) with
        | none => .error .readFail
        | some fileContent =>
          let merchLE := (detectLineEnding content).getD (jstr ("\n"))
          let fileLE := detectLineEnding fileContent
          let normalizedContent := match fileLE with
            | some fle =>
              if fle ≠ merchLE then normalizeLineEndings fileContent merchLE else fileContent
            | none => fileContent
          let insertPosition := file.headerOffsetRange.endExclusive
          let remaining := substrJS content insertPosition content.length
          let needsTrailing :=
            !(startsWithL remaining (jstr ("\n"))) && !(startsWithL remaining (jstr ("\r\n")))
          .ok ⟨substrJS content 0 insertPosition ++ [':'] ++ merchLE ++ normalizedContent ++
            (if needsTrailing then merchLE else []) ++ remaining⟩

/-! ### The analyzer (`analyzer.ts`) -/

/-- A status annotation's kind. -/
inductive StatusType where
  | info
  | warning
  | error
  | success
deriving DecidableEq

/-- `FileStatus` of analyzer.ts. -/
structure FileStatus where
  range : OffsetRange
  message : JStr
  type : StatusType
deriving DecidableEq

/-- What kind of target-path entry a record contributes. -/
inductive EntryKind where
  | write
  | rename
deriving DecidableEq

/-- One entry of the analyzer's `targetPaths` map. -/
structure TargetEntry where
  source : OffsetRange
  kind : EntryKind
  isNew : Bool
deriving DecidableEq

/-- A deleted existing file, for noop detection. -/
structure DeletedInfo where
  source : OffsetRange
  hash : Option JStr
deriving DecidableEq

/-- The analyzer's first pass over existing files: collect target-path
entries and deleted paths. -/
def analyzerPhase1 (P : IPath) (doc : ParsedMerchDoc) :
    JMap JStr (List TargetEntry) × JMap JStr DeletedInfo :=
  doc.existingFiles.foldl (fun acc e =>
    let oldPath := P.resolve doc.basePath e.path
    match jmGet doc.updatedFiles e.idx with
    | none => (acc.1, jmSet acc.2 oldPath ⟨e.headerOffsetRange, e.hash⟩)
    | some u =>
      let newPath := P.resolve doc.basePath u.newPath
      let entry := (jmGet acc.1 newPath).getD []
      let entry2 :=
        if u.content ≠ none then entry ++ [⟨u.headerOffsetRange, .write, false⟩]
        else if oldPath ≠ newPath then entry ++ [⟨u.headerOffsetRange, .rename, false⟩]
        else entry
      (jmSet acc.1 newPath entry2, acc.2)) ([], [])

/-- The analyzer's pass over new files: more target-path entries. -/
def analyzerPhase2 (P : IPath) (doc : ParsedMerchDoc) (targets : JMap JStr (List TargetEntry)) :
    JMap JStr (List TargetEntry) :=
  doc.newFiles.foldl (fun targets nf =>
    let newPath := P.resolve doc.basePath nf.newPath
    let entry := (jmGet targets newPath).getD []
    let entry2 := if nf.content ≠ none then entry ++ [⟨nf.headerOffsetRange, .write, true⟩] else entry
    jmSet targets newPath entry2) targets

/-- The conflict message for a target path. -/
def conflictMsg (P : IPath) (doc : ParsedMerchDoc) (targetPath : JStr) : JStr :=
  jstr ("Conflict: multiple files write to \"") ++ P.relative doc.basePath targetPath ++
    jstr ("\"")

/-- The per-target-path step of the conflict-and-noop loop. -/
def conflictNoopStep (P : IPath) (doc : ParsedMerchDoc) (deleted : JMap JStr DeletedInfo)
    (sts : List FileStatus) (tp : JStr × List TargetEntry) : List FileStatus :=
  if tp.2.length > 1 then
    sts ++ tp.2.map (fun en => ⟨en.source, conflictMsg P doc tp.1, .error⟩)
  else
    match tp.2 with
    | [en] =>
      match jmGet deleted tp.1 with
      | some del =>
        if en.isNew ∧ en.kind = .write then
          match doc.newFiles.find? (fun f => f.headerOffsetRange = en.source) with
          | some nf =>
            match nf.content with
            | some c =>
              if del.hash = some (computeHash (applyEol nf.eol c)) then
                sts ++
                  [⟨en.source, jstr ("Noop: replaces deleted file with identical content"),
                    .info⟩,
                   ⟨del.source, jstr ("Noop: replaced by new file with identical content"),
                    .info⟩]
              else sts
            | none => sts
          | none => sts
        else sts
      | none => sts
    | _ => sts

/-- The conflict-and-noop loop over the collected target paths. -/
def conflictNoopStatuses (P : IPath) (doc : ParsedMerchDoc)
    (targets : JMap JStr (List TargetEntry)) (deleted : JMap JStr DeletedInfo) :
    List FileStatus :=
  targets.foldl (conflictNoopStep P doc deleted) []

/-- One action's status step, skipping ranges that already carry one. -/
def actionStatusStep (P : IPath) (doc : ParsedMerchDoc) (sts : List FileStatus)
    (a : FsAction) : List FileStatus :=
  match a.source with
  | none => sts
  | some src =>
    if sts.any (fun s => s.range = src) then sts
    else
      match a with
      | .write _ _ _ =>
        let isNewFile := !(doc.existingFiles.any (fun e =>
          match jmGet doc.updatedFiles e.idx with
          | some u => u.headerOffsetRange = src
          | none => false))
        sts ++ [⟨src, (if isNewFile then jstr ("New File") else jstr ("Content updated")),
          .success⟩]
      | .rename oldP _ _ =>
        sts ++ [⟨src, jstr ("Renamed from ") ++ P.relative doc.basePath oldP, .info⟩]
      | .delete _ _ => sts ++ [⟨src, jstr ("Deleted"), .warning⟩]

/-- The per-action statuses, skipping ranges that already carry one. -/
def actionStatuses (P : IPath) (doc : ParsedMerchDoc) (acts : List FsAction)
    (sts0 : List FileStatus) : List FileStatus :=
  acts.foldl (actionStatusStep P doc) sts0

/-- One existing file's "Renamed to" step. -/
def renamedToStep (P : IPath) (doc : ParsedMerchDoc) (sts : List FileStatus)
    (e : ExistingFileInfo) : List FileStatus :=
  match jmGet doc.updatedFiles e.idx with
  | some u =>
    if P.resolve doc.basePath e.path ≠ P.resolve doc.basePath u.newPath then
      sts ++ [⟨e.headerOffsetRange, jstr ("Renamed to ") ++ u.newPath, .info⟩]
    else sts
  | none => sts

/-- The "Renamed to" statuses on existing files. -/
def renamedToStatuses (P : IPath) (doc : ParsedMerchDoc) (sts0 : List FileStatus) :
    List FileStatus :=
  doc.existingFiles.foldl (renamedToStep P doc) sts0

/-- Diagnostic severities map to status kinds of the same name. -/
def severityType : Severity → StatusType
  | .error => .error
  | .warning => .warning

/-- `analyzeMerchDoc` of analyzer.ts: conflict and noop annotations from
the document model, then the actions of a dry planner run against an empty
in-memory filesystem with hash checking off (an error yields no actions),
then rename annotations and the parser's diagnostics. The live text
argument of the source is unused. -/
def analyzeMerchDoc (P : IPath) (_content : JStr) (doc : ParsedMerchDoc) : List FileStatus :=
  let p1 := analyzerPhase1 P doc
  let targets := analyzerPhase2 P doc p1.1
  let sts1 := conflictNoopStatuses P doc targets p1.2
  let acts := match buildActions P doc [] false with
    | .ok a => a
    | .error _ => []
  let sts2 := actionStatuses P doc acts sts1
  let sts3 := renamedToStatuses P doc sts2
  sts3 ++ doc.diagnostics.map (fun d => ⟨d.range, d.message, severityType d.severity⟩)

/-! ### Definitions the verification statements use -/

/-- The `"// {}"` comment style the extension and the tests use. -/
def stdFormatter : LineFormatter := ⟨jstr ("// "), []⟩

/-- Whether an action is a write. -/
def isWriteA : FsAction → Bool
  | .write _ _ _ => true
  | _ => false

/-- Whether an action is a rename. -/
def isRenameA : FsAction → Bool
  | .rename _ _ _ => true
  | _ => false

/-- Whether a planner result is the hash-mismatch failure. -/
def isHashMismatchResult : Except BuildError (List FsAction) → Bool
  | .error (.hashMismatch _) => true
  | _ => false

/-- All diagnostics the parser collects for a document (scan plus orphan
pass): what `parseMerchDoc` consults before deciding to throw. -/
def parseDiags (doc : JStr) : List MerchDiagnostic :=
  (parseScan doc).diagnostics ++ orphanDiags (parseScan doc)

/-- Whether a line is a setup header carrying a truthy `basePath`. -/
def isSetupHeader (line : JStr) : Bool :=
  match tryParseMerchLine line with
  | some ml =>
    ml.command = jstr ("setup") &&
      (match objGet ml.data (jstr ("basePath")) with
       | some v => truthy v
       | none => false)
  | none => false

/-- Whether the hash verification the planner performs for an existing
record fails (the record is checked - not folded - and the file is absent
or its hash differs). -/
def hashCheckFails (P : IPath) (fs : MemFs) (doc : ParsedMerchDoc) (e : ExistingFileInfo) : Bool :=
  let isFoldedRename : Bool := match jmGet doc.updatedFiles e.idx with
    | some u => u.content = none
    | none => false
  !isFoldedRename &&
    (match memRead fs (P.resolve doc.basePath e.path) with
     | some onDisk => !(decide (e.hash = some (computeHash onDisk)))
     | none => true)

/-! ### Rendered documents

`renderDoc` is the exact shape of the text the builder emits with the
`"// {}"` comment style: a separator, a setup header, one manifest line per
file, a separator, a blank line, then one body block per file (a folded
block is a bare header). `mergeFiles` is proved to produce exactly such a
document, and the parser is characterized on it. -/

/-- One file of a rendered document. -/
structure FileSpec where
  idx : Nat
  path : JStr
  hash : JStr
  eol : Option JStr
  content : Option JStr
deriving DecidableEq

/-- The separator line. -/
def sepLine : JStr := stdFormatter.format (List.replicate 20 '=')

/-- The setup header line. -/
def setupLineOf (base : JStr) : JStr :=
  stdFormatter.format (jstr ("merch::setup: ") ++ renderSetupJson base)

/-- One manifest line. -/
def manifestLineOf (sp : FileSpec) : JStr :=
  stdFormatter.format (jstr ("merch::existing-file: ") ++
    renderExistingJson sp.path sp.idx sp.hash)

/-- One body header line (a trailing colon iff the block carries content). -/
def fileHeaderOf (sp : FileSpec) : JStr :=
  stdFormatter.format (jstr ("merch::file: ") ++ renderFileJson sp.path sp.idx sp.eol ++
    (match sp.content with
     | some _ => [':']
     | none => []))

/-- One body block. -/
def blockOf (le : JStr) (sp : FileSpec) : JStr :=
  fileHeaderOf sp ++ le ++
  (match sp.content with
   | some c => c ++ le
   | none => [])

/-- The rendered document. -/
def renderDoc (base le : JStr) (specs : List FileSpec) : JStr :=
  sepLine ++ le ++ setupLineOf base ++ le ++
  (specs.map (fun sp => manifestLineOf sp ++ le)).flatten ++
  sepLine ++ le ++ le ++
  (specs.map (blockOf le)).flatten

/-- The specs whose rendering is what `mergeFiles` writes. -/
def mergeSpecs (P : IPath) (files : List JStr) (baseDir : JStr) (withoutContent : Bool)
    (fs : MemFs) (le : JStr) : List FileSpec :=
  files.enum.filterMap (fun p =>
    (memRead fs p.2).map (fun c =>
      ⟨p.1, normalizePath (P.relative baseDir p.2), computeHash c,
        (match detectLineEnding c with
         | some fle => if fle ≠ le then some fle else none
         | none => none),
        if withoutContent then none else some (normalizeLineEndings c le)⟩))

/-- Free of the line terminators `JSON.stringify` leaves unescaped, which
are the only characters able to break a rendered header line. -/
def escLineSafe (s : JStr) : Bool := s.all (fun c => !(c = '\u2028' || c = '\u2029'))

/-- A content that round-trips through a rendered body block: free of the
header marker, and - when the document ending is a bare `\n` - not ending in
a stray `\r` that the block trimming would consume. -/
def blockSafe (le c : JStr) : Bool :=
  !(containsSub c merchMarker) &&
    (le = jstr ("\r\n") || !(decide (c.getLast? = some '\r')))

/-- A well-behaved file spec: nonempty path and hash, header-safe strings,
an `eol` field that is a real line ending, and round-trip-safe content. -/
def specOk (le : JStr) (sp : FileSpec) : Bool :=
  decide (sp.path ≠ []) && decide (sp.hash ≠ []) && escLineSafe sp.path && escLineSafe sp.hash &&
  (match sp.eol with
   | none => true
   | some e => decide (e = jstr ("\n")) || decide (e = jstr ("\r\n"))) &&
  (match sp.content with
   | none => true
   | some c => blockSafe le c)

/-- The hypotheses of the rendered-document characterization. -/
def renderOk (base le : JStr) (specs : List FileSpec) : Prop :=
  base ≠ [] ∧ escLineSafe base ∧ (le = jstr ("\n") ∨ le = jstr ("\r\n")) ∧
  (∀ sp ∈ specs, specOk le sp) ∧ (specs.map (fun sp => sp.idx)).Nodup

/-- The existing record a manifest line at offset `off` parses to. -/
def manifestRecOf (off : Nat) (sp : FileSpec) : ExistingFileInfo :=
  ⟨jnumOfNat sp.idx, sp.path, some sp.hash, ⟨off, off + (manifestLineOf sp).length⟩⟩

/-- The stored eol class of a rendered `eol` field. -/
def eolSpecOfRendered : Option JStr → Option EolSpec
  | none => none
  | some e =>
    if e = jstr ("\r\n") then some .crlf
    else if e = jstr ("\n") then some .lf
    else if e = [] then none
    else some .otherTruthy

/-- The updated record a body block at offset `off` parses to. -/
def updatedRecOf (off : Nat) (sp : FileSpec) : UpdatedFileInfo :=
  ⟨jnumOfNat sp.idx, sp.path, sp.content, ⟨off, off + (fileHeaderOf sp).length⟩,
    eolSpecOfRendered sp.eol⟩

/-- The existing records of a rendered manifest, offsets threaded. -/
def manifestRecsFrom (le : JStr) (off : Nat) : List FileSpec → List ExistingFileInfo
  | [] => []
  | sp :: t =>
    manifestRecOf off sp :: manifestRecsFrom le (off + (manifestLineOf sp).length + le.length) t

/-- The updated records of a rendered body, offsets threaded. -/
def updatedRecsFrom (le : JStr) (off : Nat) : List FileSpec → JMap JNum UpdatedFileInfo
  | [] => []
  | sp :: t =>
    (jnumOfNat sp.idx, updatedRecOf off sp) :: updatedRecsFrom le (off + (blockOf le sp).length) t

/-- Where the manifest's first line starts. -/
def manifestStart (base le : JStr) : Nat :=
  sepLine.length + le.length + (setupLineOf base).length + le.length

/-- Where the body's first block starts. -/
def bodyStart (base le : JStr) (specs : List FileSpec) : Nat :=
  manifestStart base le +
    ((specs.map (fun sp => (manifestLineOf sp).length + le.length)).sum) +
    sepLine.length + le.length + le.length

/-- The document a benign rendered document parses to. -/
def expectedParsedDoc (base le : JStr) (specs : List FileSpec) : ParsedMerchDoc :=
  ⟨manifestRecsFrom le (manifestStart base le) specs,
   updatedRecsFrom le (bodyStart base le specs) specs,
   [], base,
   some ⟨sepLine.length + le.length, sepLine.length + le.length + (setupLineOf base).length⟩,
   []⟩


/-- A concrete document for closed runs: one tracked file `f` whose updated
header renames it to `g`, folded. -/
def c9Doc : JStr := jstr "// merch::setup: \x7b\"basePath\":\"/s\"\x7d\n// merch::existing-file: \x7b\"path\":\"f\",\"idx\":0,\"hash\":\"hx\"\x7d\n// merch::file: \x7b\"path\":\"g\",\"idx\":0\x7d\n"

/-- The filesystem for `c9Doc`: `/s/f` holds `x`. -/
def c9Fs : MemFs := [(jstr "/s/f", jstr "x")]

/-- The one action splitting `c9Doc` plans. -/
def c9Act : FsAction := .rename (jstr "/s/f") (jstr "/s/g") (some ⟨93, 129⟩)

/-- The filesystem after executing that action. -/
def c9Fs2 : MemFs := [(jstr "/s/g", jstr "x")]

/-- A document for the write-before-rename witness: one tracked file whose
updated record moves it from `f` to `g` and replaces its content. -/
def c5Doc : ParsedMerchDoc :=
  ⟨[⟨jnumOfNat 0, jstr "f", some (computeHash (jstr "old")), ⟨0, 1⟩⟩],
   [(jnumOfNat 0, ⟨jnumOfNat 0, jstr "g", some (jstr "y"), ⟨2, 3⟩, none⟩)],
   [], jstr "/s", none, []⟩

/-- The plan for [c5Doc]: the content write (to the old path) first, the
rename after it. -/
def c5Acts : List FsAction :=
  [.write (jstr "/s/f") (jstr "y") (some ⟨2, 3⟩),
   .rename (jstr "/s/f") (jstr "/s/g") (some ⟨2, 3⟩)]

/-- The folded updated record of [c3Doc]: null content, path equal to the
old path. -/
def c3Upd : UpdatedFileInfo := ⟨jnumOfNat 0, jstr "f", none, ⟨2, 3⟩, none⟩

/-- A document whose only updated record is [c3Upd]: folded in place (the
resolved path equals the old path). -/
def c3Doc : ParsedMerchDoc :=
  ⟨[⟨jnumOfNat 0, jstr "f", some (jstr "hh"), ⟨0, 1⟩⟩],
   [(jnumOfNat 0, c3Upd)], [], jstr "/s", none, []⟩

/-- A document with one tracked file and no updated record: with the file
absent from the filesystem its hash check fails. -/
def c3FailDoc : ParsedMerchDoc :=
  ⟨[⟨jnumOfNat 0, jstr "f", some (jstr "hh"), ⟨0, 1⟩⟩], [], [], jstr "/s", none, []⟩

/-- A two-file document whose updated headers swap the two paths: file 0
(`pA`) is renamed to `pB` and file 1 (`pB`) to `pA`, both folded (null
content). -/
def swapDoc (bp pA pB : JStr) (hA hB : Option JStr) (rA rB sA sB : OffsetRange) :
    ParsedMerchDoc :=
  ⟨[⟨jnumOfNat 0, pA, hA, rA⟩, ⟨jnumOfNat 1, pB, hB, rB⟩],
   [(jnumOfNat 0, ⟨jnumOfNat 0, pB, none, sA, none⟩),
    (jnumOfNat 1, ⟨jnumOfNat 1, pA, none, sB, none⟩)],
   [], bp, none, []⟩

/-- The temp path `processRename` generates to break a cycle whose blocked
target is `p`. -/
def tempPathOf (P : IPath) (p : JStr) : JStr :=
  P.join (P.dirname p) (P.basename p (P.extname p) ++ jstr ("_temp") ++ P.extname p)

/-- A document for the C2 counterexample: the swap of `x.txt` and
`x_temp.txt` under base path `/s`, both records folded. -/
def c2BadDoc : ParsedMerchDoc :=
  swapDoc (jstr "/s") (jstr "x.txt") (jstr "x_temp.txt")
    (some (jstr "ha")) (some (jstr "hb")) ⟨0, 1⟩ ⟨2, 3⟩ ⟨4, 5⟩ ⟨6, 7⟩

/-- The two actions the planner actually emits for [c2BadDoc]: the
generated temp path collides with the second file's path, so the cycle
walk deletes that file's pending rename instead of parking it. -/
def c2BadActs : List FsAction :=
  [.rename (jstr "/s/x_temp.txt") (jstr "/s/x_temp.txt") (some ⟨6, 7⟩),
   .rename (jstr "/s/x.txt") (jstr "/s/x_temp.txt") (some ⟨4, 5⟩)]

/-- First orphan updated record of [c8Doc]. -/
def c8U0 : UpdatedFileInfo := ⟨jnumOfNat 0, jstr "t", some (jstr "x"), ⟨0, 1⟩, none⟩

/-- Second orphan updated record of [c8Doc]. -/
def c8U1 : UpdatedFileInfo := ⟨jnumOfNat 1, jstr "t", some (jstr "y"), ⟨2, 3⟩, none⟩

/-- A document whose two updated records both resolve to `/s/t` but match
no existing record (no existing files at all). -/
def c8Doc : ParsedMerchDoc :=
  ⟨[], [(jnumOfNat 0, c8U0), (jnumOfNat 1, c8U1)], [], jstr "/s", none, []⟩

/-- A document with a genuine target-path conflict: the updated record of
the tracked file and a new file both resolve to `/s/t`. -/
def c8wDoc : ParsedMerchDoc :=
  ⟨[⟨jnumOfNat 0, jstr "a", some (jstr "h0"), ⟨0, 1⟩⟩],
   [(jnumOfNat 0, ⟨jnumOfNat 0, jstr "t", some (jstr "x"), ⟨2, 3⟩, none⟩)],
   [⟨jstr "t", some (jstr "y"), ⟨4, 5⟩, none⟩], jstr "/s", none, []⟩

/-- The two target entries the analyzer collects at `/s/t` for [c8wDoc]. -/
def c8wEntries : List TargetEntry :=
  [⟨⟨2, 3⟩, .write, false⟩, ⟨⟨4, 5⟩, .write, true⟩]

/-- A document whose only matched line is an unknown command, producing a
diagnostic and no base path. -/
def c6Doc : JStr := jstr "x merch::wat: \x7b\x7d\n"

/-- The manifest lines with their offsets, as the lenient scan sees them. -/
def manifestLinePairs (le : JStr) (off : Nat) : List FileSpec → List (Nat × JStr)
  | [] => []
  | sp :: t =>
    (off, manifestLineOf sp) ::
      manifestLinePairs le (off + (manifestLineOf sp).length + le.length) t

/-- The body header lines with their offsets. -/
def bodyHeaderPairs (le : JStr) (off : Nat) : List FileSpec → List (Nat × JStr)
  | [] => []
  | sp :: t => (off, fileHeaderOf sp) :: bodyHeaderPairs le (off + (blockOf le sp).length) t

/-- The `eol` field `mergeFiles` renders for a file of detected ending
`detectLineEnding c` into a document of dominant ending `le`. -/
def mergeEolField (c le : JStr) : Option JStr :=
  match detectLineEnding c with
  | some fle => if fle ≠ le then some fle else none
  | none => none

/-- The filesystem of the C4 counterexample: one file whose content mixes
the two line endings. -/
def c4Fs : MemFs := [(jstr "/s/a", jstr "a\nb\r\n")]

/-- A concrete spec for closed fold/unfold runs: the file `a` tracked with
content `x` and its hash. -/
def c7Spec : FileSpec := ⟨0, jstr "a", computeHash (jstr "x"), none, some (jstr "x")⟩

/-- A hand-written document whose single content block lacks a trailing line
terminator (the text ends right after the `x`). -/
def c7Doc : JStr := jstr "// merch::setup: \x7b\"basePath\":\"/s\"\x7d\n// merch::existing-file: \x7b\"path\":\"a\",\"idx\":0,\"hash\":\"h78g\"\x7d\n// merch::file: \x7b\"path\":\"a\",\"idx\":0\x7d:\nx"

/-- The filesystem of the fold/unfold runs: `/s/a` holds `x`. -/
def c7Fs : MemFs := [(jstr "/s/a", jstr "x")]

/-- A second spec, so a fold/unfold run can target a record that is not the
last one of the document. -/
def c7SpecB : FileSpec := ⟨1, jstr "b", computeHash (jstr "y"), none, some (jstr "y")⟩

/-! ## Theorems -/

theorem foldlM_ok_of_all {ε α β : Type} {f : β → α → Except ε β} :
    ∀ (l : List α) (init : β), (∀ acc e, e ∈ l → ∃ v, f acc e = .ok v) →
      ∃ v, l.foldlM f init = .ok v := by
  intro l
  induction l with
  | nil => intro init _; exact ⟨init, rfl⟩
  | cons a t ih =>
    intro init h
    obtain ⟨v, hv⟩ := h init a (by simp)
    have := ih v (fun acc e he => h acc e (by simp [he]))
    obtain ⟨w, hw⟩ := this
    refine ⟨w, ?_⟩
    rw [List.foldlM_cons, hv]
    exact hw

theorem buildStep_false_ok (P : IPath) (fs : MemFs) (doc : ParsedMerchDoc)
    (acc : List FsAction × JMap JStr RenameInfo) (e : ExistingFileInfo) :
    ∃ v, buildStep P fs false doc acc e = .ok v := by
  unfold buildStep
  simp only [Bool.false_eq_true, false_and, if_false]
  split
  · split
    · split
      · exact ⟨_, rfl⟩
      · exact ⟨_, rfl⟩
    · exact ⟨_, rfl⟩
  · exact ⟨_, rfl⟩

theorem processRename_no_hash (P : IPath) :
    ∀ (fuel : Nat) (rn : JMap JStr RenameInfo) (pr : List JStr) (acts : List FsAction)
      (f : JStr) (p : JStr),
      processRename P fuel rn pr acts f ≠ .error (.hashMismatch p) := by
  intro fuel
  induction fuel with
  | zero => intro rn pr acts f p h; simp [processRename] at h
  | succ n ih =>
    intro rn pr acts f p h
    unfold processRename at h
    cases hg : jmGet rn f with
    | none => rw [hg] at h; exact absurd h (by simp)
    | some info =>
      rw [hg] at h
      dsimp only at h
      by_cases hf : f ∈ pr
      · rw [if_pos hf] at h; exact absurd h (by simp)
      · rw [if_neg hf] at h
        by_cases hm : info.newPath ∈ f :: pr
        · rw [if_pos hm] at h; exact absurd h (by simp)
        · rw [if_neg hm] at h
          cases hp : processRename P n rn (f :: pr) acts info.newPath with
          | ok v => rw [hp] at h; exact absurd h (by simp)
          | error e =>
            rw [hp] at h
            simp only [Except.error.injEq] at h
            exact ih _ _ _ _ _ (h ▸ hp)

theorem renameLoop_no_hash (P : IPath) :
    ∀ (fuel : Nat) (rn : JMap JStr RenameInfo) (acts : List FsAction),
      isHashMismatchResult (renameLoop P fuel rn acts) = false := by
  intro fuel
  induction fuel with
  | zero =>
    intro rn acts
    cases rn with
    | nil => rfl
    | cons a t => rfl
  | succ n ih =>
    intro rn acts
    cases rn with
    | nil => rfl
    | cons a t =>
      unfold renameLoop
      split
      · exact ih _ _
      · split
        · exact ih _ _
        · rename_i heq
          cases hb : processRename P ((a :: t).length + 1) (a :: t) [] acts a.1 with
          | ok v => rw [hb] at heq; exact absurd heq (by simp)
          | error e =>
            rw [hb] at heq
            simp only [Except.error.injEq] at heq
            subst heq
            cases e with
            | hashMismatch p => exact absurd hb (processRename_no_hash P _ _ _ _ _ _)
            | fishy => rfl
            | outOfFuel => rfl

/-- C10: with hash verification disabled, the planner never raises a
hash-mismatch failure, whatever the document and the on-disk state: the
only throw sites for `HashMismatchError` are guarded by the `checkHash`
flag, so planning with verification off succeeds past any disk drift or
missing tracked file. -/
theorem buildActions_no_hash_error_when_unchecked (P : IPath) (doc : ParsedMerchDoc)
    (fs : MemFs) : isHashMismatchResult (buildActions P doc fs false) = false := by
  unfold buildActions
  obtain ⟨s1, hs1⟩ := foldlM_ok_of_all doc.existingFiles ([], [])
    (fun acc e _ => buildStep_false_ok P fs doc acc e)
  rw [hs1]
  exact renameLoop_no_hash P _ _ _

/-- C9: `splitContent` with `dryRun = true` returns the planned action list
without executing any of it - the filesystem value it returns is the input
filesystem unchanged - and whenever the `dryRun = false` run succeeds, the
dry run returns exactly the same action list (the plan is computed before
the execution loop and only read from the filesystem). -/
theorem splitContent_dryRun_frame (P : IPath) (t : JStr) (fs : MemFs) (cH : Bool) :
    (∀ acts fs2, splitContent P t true fs cH = .ok (acts, fs2) → fs2 = fs) ∧
    (∀ acts fs2, splitContent P t false fs cH = .ok (acts, fs2) →
      splitContent P t true fs cH = .ok (acts, fs)) := by
  constructor
  · intro acts fs2 h
    unfold splitContent at h
    cases hp : parseMerchDoc t with
    | error e => rw [hp] at h; exact absurd h (by simp)
    | ok doc =>
      rw [hp] at h
      dsimp only at h
      cases hb : buildActions P doc fs cH with
      | error e => rw [hb] at h; exact absurd h (by simp)
      | ok a =>
        rw [hb] at h
        dsimp only at h
        simp only [if_true, Except.ok.injEq, Prod.mk.injEq] at h
        exact h.2.symm
  · intro acts fs2 h
    unfold splitContent at h
    cases hp : parseMerchDoc t with
    | error e => rw [hp] at h; exact absurd h (by simp)
    | ok doc =>
      rw [hp] at h
      dsimp only at h
      cases hb : buildActions P doc fs cH with
      | error e => rw [hb] at h; exact absurd h (by simp)
      | ok a =>
        rw [hb] at h
        dsimp only at h
        simp only [Bool.false_eq_true, if_false] at h
        cases hr : runActions a fs with
        | none => rw [hr] at h; exact absurd h (by simp)
        | some fs3 =>
          rw [hr] at h
          simp only [Except.ok.injEq, Prod.mk.injEq] at h
          unfold splitContent
          rw [hp]
          dsimp only
          rw [hb]
          simp [h.1]

theorem splitContent_dryRun_frame_witness :
    splitContent simplePath c9Doc true c9Fs true = .ok ([c9Act], c9Fs) :=
  (splitContent_dryRun_frame simplePath c9Doc c9Fs true).2 [c9Act] c9Fs2 (by rfl)

theorem buildStep_acts (P : IPath) (fs : MemFs) (cH : Bool) (doc : ParsedMerchDoc)
    (acc : List FsAction × JMap JStr RenameInfo) (e : ExistingFileInfo)
    (acc2 : List FsAction × JMap JStr RenameInfo)
    (h : buildStep P fs cH doc acc e = .ok acc2) :
    (∃ extra, acc2.1 = acc.1 ++ extra ∧ ∀ a ∈ extra, isRenameA a = false) ∧
    (∀ u, jmGet doc.updatedFiles e.idx = some u → ∀ c, u.content = some c →
      e.hash ≠ some (computeHash (applyEol u.eol c)) →
      FsAction.write (P.resolve doc.basePath e.path) (applyEol u.eol c)
        (some u.headerOffsetRange) ∈ acc2.1) := by
  unfold buildStep at h
  cases hu : jmGet doc.updatedFiles e.idx with
  | none =>
    rw [hu] at h
    dsimp only at h
    have hx : acc2.1 = acc.1 ++ [FsAction.delete (P.resolve doc.basePath e.path)
        (some e.headerOffsetRange)] := by
      split at h
      · split at h
        · split at h
          · simp only [Except.ok.injEq] at h; rw [← h]
          · exact absurd h (by simp)
        · exact absurd h (by simp)
      · simp only [Except.ok.injEq] at h; rw [← h]
    refine ⟨⟨_, hx, ?_⟩, ?_⟩
    · intro a ha
      rw [List.mem_singleton] at ha
      subst ha; rfl
    · intro u h2
      exact absurd h2 (by simp)
  | some u =>
    rw [hu] at h
    dsimp only at h
    cases hc : u.content with
    | none =>
      rw [hc] at h
      dsimp only at h
      have hx : acc2.1 = acc.1 := by
        split at h
        · split at h
          · split at h
            · simp only [Except.ok.injEq] at h; rw [← h]
            · exact absurd h (by simp)
          · exact absurd h (by simp)
        · simp only [Except.ok.injEq] at h; rw [← h]
      refine ⟨⟨[], by simp [hx], by intro a ha; simp at ha⟩, ?_⟩
      intro u2 h2 c2 h3
      rw [Option.some.injEq] at h2
      subst h2
      rw [hc] at h3
      exact absurd h3 (by simp)
    | some c =>
      rw [hc] at h
      dsimp only at h
      by_cases he : e.hash = some (computeHash (applyEol u.eol c))
      · rw [if_pos he] at h
        have hx : acc2.1 = acc.1 := by
          split at h
          · split at h
            · split at h
              · simp only [Except.ok.injEq] at h; rw [← h]
              · exact absurd h (by simp)
            · exact absurd h (by simp)
          · simp only [Except.ok.injEq] at h; rw [← h]
        refine ⟨⟨[], by simp [hx], by intro a ha; simp at ha⟩, ?_⟩
        intro u2 h2 c2 h3 hne
        rw [Option.some.injEq] at h2
        subst h2
        rw [hc, Option.some.injEq] at h3
        subst h3
        exact absurd he hne
      · rw [if_neg he] at h
        have hx : acc2.1 = acc.1 ++ [FsAction.write (P.resolve doc.basePath e.path)
            (applyEol u.eol c) (some u.headerOffsetRange)] := by
          split at h
          · split at h
            · split at h
              · simp only [Except.ok.injEq] at h; rw [← h]
              · exact absurd h (by simp)
            · exact absurd h (by simp)
          · simp only [Except.ok.injEq] at h; rw [← h]
        refine ⟨⟨_, hx, ?_⟩, ?_⟩
        · intro a ha
          rw [List.mem_singleton] at ha
          subst ha; rfl
        · intro u2 h2 c2 h3 hne
          rw [Option.some.injEq] at h2
          subst h2
          rw [hc, Option.some.injEq] at h3
          subst h3
          rw [hx]
          simp

theorem buildSteps_fold (P : IPath) (fs : MemFs) (cH : Bool) (doc : ParsedMerchDoc) :
    ∀ (l : List ExistingFileInfo) (acc s1 : List FsAction × JMap JStr RenameInfo),
      l.foldlM (buildStep P fs cH doc) acc = .ok s1 →
      (∃ extra, s1.1 = acc.1 ++ extra ∧ ∀ a ∈ extra, isRenameA a = false) ∧
      (∀ e ∈ l, ∀ u, jmGet doc.updatedFiles e.idx = some u → ∀ c, u.content = some c →
        e.hash ≠ some (computeHash (applyEol u.eol c)) →
        FsAction.write (P.resolve doc.basePath e.path) (applyEol u.eol c)
          (some u.headerOffsetRange) ∈ s1.1) := by
  intro l
  induction l with
  | nil =>
    intro acc s1 h
    have h2 : (Except.ok acc : Except BuildError (List FsAction × JMap JStr RenameInfo))
        = Except.ok s1 := h
    simp only [Except.ok.injEq] at h2
    subst h2
    exact ⟨⟨[], by simp, by intro a ha; simp at ha⟩, by intro e he; simp at he⟩
  | cons a t ih =>
    intro acc s1 h
    rw [List.foldlM_cons] at h
    cases hm : buildStep P fs cH doc acc a with
    | error err =>
      rw [hm] at h
      have h3 : (Except.error err : Except BuildError (List FsAction × JMap JStr RenameInfo))
          = Except.ok s1 := h
      exact absurd h3 (by simp)
    | ok m =>
      rw [hm] at h
      have h2 : t.foldlM (buildStep P fs cH doc) m = .ok s1 := h
      obtain ⟨⟨ex2, hex2, hr2⟩, hmem2⟩ := ih m s1 h2
      obtain ⟨⟨ex1, hex1, hr1⟩, hw1⟩ := buildStep_acts P fs cH doc acc a m hm
      constructor
      · refine ⟨ex1 ++ ex2, by rw [hex2, hex1, List.append_assoc], ?_⟩
        intro x hx
        rcases List.mem_append.mp hx with h3 | h3
        exacts [hr1 x h3, hr2 x h3]
      · intro e he u hu c hc hne
        rcases List.mem_cons.mp he with h4 | h4
        · subst h4
          have h5 := hw1 u hu c hc hne
          rw [hex2]
          exact List.mem_append.mpr (Or.inl h5)
        · exact hmem2 e h4 u hu c hc hne

theorem foldl_writes_extends {α : Type} (f : List FsAction → α → List FsAction)
    (hf : ∀ acts x, ∃ extra, f acts x = acts ++ extra ∧ ∀ a ∈ extra, isRenameA a = false) :
    ∀ (l : List α) (acts : List FsAction),
      ∃ extra, l.foldl f acts = acts ++ extra ∧ ∀ a ∈ extra, isRenameA a = false := by
  intro l
  induction l with
  | nil => intro acts; exact ⟨[], by simp, by intro a ha; simp at ha⟩
  | cons x t ih =>
    intro acts
    obtain ⟨e1, he1, hr1⟩ := hf acts x
    obtain ⟨e2, he2, hr2⟩ := ih (f acts x)
    refine ⟨e1 ++ e2, ?_, ?_⟩
    · rw [List.foldl_cons, he2, he1, List.append_assoc]
    · intro a ha
      rcases List.mem_append.mp ha with h3 | h3
      exacts [hr1 a h3, hr2 a h3]

theorem updatedOrphanStep_writes (P : IPath) (doc : ParsedMerchDoc) :
    ∀ (acts : List FsAction) (p : JNum × UpdatedFileInfo),
      ∃ extra, updatedOrphanStep P doc acts p = acts ++ extra ∧
        ∀ a ∈ extra, isRenameA a = false := by
  intro acts p
  unfold updatedOrphanStep
  split
  · exact ⟨[], by simp, by intro a ha; simp at ha⟩
  · cases hc : p.2.content with
    | some c =>
      exact ⟨_, rfl, by intro a ha; rw [List.mem_singleton] at ha; subst ha; rfl⟩
    | none => exact ⟨[], by simp, by intro a ha; simp at ha⟩

theorem newFileStep_writes (P : IPath) (doc : ParsedMerchDoc) :
    ∀ (acts : List FsAction) (nf : NewFileInfo),
      ∃ extra, newFileStep P doc acts nf = acts ++ extra ∧
        ∀ a ∈ extra, isRenameA a = false := by
  intro acts nf
  unfold newFileStep
  cases hc : nf.content with
  | some c =>
    exact ⟨_, rfl, by intro a ha; rw [List.mem_singleton] at ha; subst ha; rfl⟩
  | none => exact ⟨[], by simp, by intro a ha; simp at ha⟩

theorem processRename_appends_renames (P : IPath) :
    ∀ (fuel : Nat) (rn : JMap JStr RenameInfo) (pr : List JStr) (acts : List FsAction)
      (f : JStr) (rn2 : JMap JStr RenameInfo) (acts2 : List FsAction),
      processRename P fuel rn pr acts f = .ok (rn2, acts2) →
      ∃ rs, acts2 = acts ++ rs ∧ ∀ a ∈ rs, isRenameA a = true := by
  intro fuel
  induction fuel with
  | zero => intro rn pr acts f rn2 acts2 h; simp [processRename] at h
  | succ n ih =>
    intro rn pr acts f rn2 acts2 h
    unfold processRename at h
    cases hg : jmGet rn f with
    | none =>
      rw [hg] at h
      simp only [Except.ok.injEq, Prod.mk.injEq] at h
      exact ⟨[], by rw [← h.2]; simp, by intro a ha; simp at ha⟩
    | some info =>
      rw [hg] at h
      dsimp only at h
      by_cases hf : f ∈ pr
      · rw [if_pos hf] at h; exact absurd h (by simp)
      · rw [if_neg hf] at h
        by_cases hm : info.newPath ∈ f :: pr
        · rw [if_pos hm] at h
          simp only [Except.ok.injEq, Prod.mk.injEq] at h
          exact ⟨_, h.2.symm, by intro a ha; rw [List.mem_singleton] at ha; subst ha; rfl⟩
        · rw [if_neg hm] at h
          cases hp : processRename P n rn (f :: pr) acts info.newPath with
          | error e => rw [hp] at h; exact absurd h (by simp)
          | ok v =>
            obtain ⟨vr, va⟩ := v
            rw [hp] at h
            dsimp only at h
            simp only [Except.ok.injEq, Prod.mk.injEq] at h
            obtain ⟨rs1, hrs1, hrr1⟩ := ih rn (f :: pr) acts info.newPath vr va hp
            refine ⟨rs1 ++ [FsAction.rename f info.newPath info.source], ?_, ?_⟩
            · rw [← h.2, hrs1, List.append_assoc]
            · intro a ha
              rcases List.mem_append.mp ha with h3 | h3
              · exact hrr1 a h3
              · rw [List.mem_singleton] at h3; subst h3; rfl

theorem renameLoop_appends_renames (P : IPath) :
    ∀ (fuel : Nat) (rn : JMap JStr RenameInfo) (acts acts2 : List FsAction),
      renameLoop P fuel rn acts = .ok acts2 →
      ∃ rs, acts2 = acts ++ rs ∧ ∀ a ∈ rs, isRenameA a = true := by
  intro fuel
  induction fuel with
  | zero =>
    intro rn acts acts2 h
    cases rn with
    | nil =>
      have h2 : (Except.ok acts : Except BuildError (List FsAction)) = Except.ok acts2 := h
      simp only [Except.ok.injEq] at h2
      subst h2
      exact ⟨[], by simp, by intro a ha; simp at ha⟩
    | cons kv t => exact absurd h (by simp [renameLoop])
  | succ n ih =>
    intro rn acts acts2 h
    cases rn with
    | nil =>
      have h2 : (Except.ok acts : Except BuildError (List FsAction)) = Except.ok acts2 := h
      simp only [Except.ok.injEq] at h2
      subst h2
      exact ⟨[], by simp, by intro a ha; simp at ha⟩
    | cons kv t =>
      obtain ⟨k, info⟩ := kv
      unfold renameLoop at h
      split at h
      · exact ih _ _ _ h
      · cases hb : processRename P (((k, info) :: t).length + 1) ((k, info) :: t) [] acts k with
        | error e => rw [hb] at h; exact absurd h (by simp)
        | ok v =>
          obtain ⟨vr, va⟩ := v
          rw [hb] at h
          dsimp only at h
          obtain ⟨rs2, hrs2, hrr2⟩ := ih vr va acts2 h
          obtain ⟨rs1, hrs1, hrr1⟩ := processRename_appends_renames P _ _ _ _ _ _ _ hb
          refine ⟨rs1 ++ rs2, ?_, ?_⟩
          · rw [hrs2, hrs1, List.append_assoc]
          · intro x hx
            rcases List.mem_append.mp hx with h3 | h3
            exacts [hrr1 x h3, hrr2 x h3]

theorem writes_before_renames_in_append (ws rs : List FsAction)
    (hw : ∀ a ∈ ws, isRenameA a = false) (hr : ∀ a ∈ rs, isRenameA a = true) :
    ∀ i j (hi : i < (ws ++ rs).length) (hj : j < (ws ++ rs).length),
      isWriteA ((ws ++ rs).get ⟨i, hi⟩) = true →
      isRenameA ((ws ++ rs).get ⟨j, hj⟩) = true → i < j := by
  intro i j hi hj hwi hrj
  have hjlen : ws.length ≤ j := by
    by_contra hn
    push_neg at hn
    have hval : (ws ++ rs).get ⟨j, hj⟩ = ws.get ⟨j, hn⟩ := by
      simp [List.get_eq_getElem, List.getElem_append_left hn]
    rw [hval] at hrj
    have h2 := hw _ (List.get_mem ws j hn)
    rw [h2] at hrj
    exact absurd hrj (by simp)
  have hilen : i < ws.length := by
    by_contra hn
    push_neg at hn
    have hlt : i - ws.length < rs.length := by
      have h3 := hi
      rw [List.length_append] at h3
      omega
    have hval : (ws ++ rs).get ⟨i, hi⟩ = rs.get ⟨i - ws.length, hlt⟩ := by
      simp [List.get_eq_getElem, List.getElem_append_right hn]
    rw [hval] at hwi
    have h2 := hr _ (List.get_mem rs (i - ws.length) hlt)
    revert hwi h2
    cases rs.get ⟨i - ws.length, hlt⟩ <;> simp [isWriteA, isRenameA]
  omega

/-- C5: in a successful plan, the actions split into a rename-free prefix
followed by a renames-only suffix (so every write comes before every
rename), and the write emitted for an updated record that matches an
existing record - one whose content differs from the stored hash - targets
the resolved old path of the existing record, not the new path. -/
theorem buildActions_writes_old_path_before_renames (P : IPath) (doc : ParsedMerchDoc)
    (fs : MemFs) (cH : Bool) (acts : List FsAction)
    (h : buildActions P doc fs cH = .ok acts) :
    (∃ ws rs, acts = ws ++ rs ∧ (∀ a ∈ ws, isRenameA a = false) ∧
      (∀ a ∈ rs, isRenameA a = true) ∧
      ∀ e ∈ doc.existingFiles, ∀ u, jmGet doc.updatedFiles e.idx = some u →
        ∀ c, u.content = some c → e.hash ≠ some (computeHash (applyEol u.eol c)) →
          FsAction.write (P.resolve doc.basePath e.path) (applyEol u.eol c)
            (some u.headerOffsetRange) ∈ ws) ∧
    ∀ i j (hi : i < acts.length) (hj : j < acts.length),
      isWriteA (acts.get ⟨i, hi⟩) = true → isRenameA (acts.get ⟨j, hj⟩) = true → i < j := by
  unfold buildActions at h
  cases hs1 : doc.existingFiles.foldlM (buildStep P fs cH doc) ([], []) with
  | error e =>
    rw [hs1] at h
    have h2 : (Except.error e : Except BuildError (List FsAction)) = Except.ok acts := h
    exact absurd h2 (by simp)
  | ok s1 =>
    rw [hs1] at h
    have h2 : renameLoop P (2 * s1.2.length + 2) s1.2
        (doc.newFiles.foldl (newFileStep P doc)
          (doc.updatedFiles.foldl (updatedOrphanStep P doc) s1.1)) = .ok acts := h
    obtain ⟨rs, hrs, hrr⟩ := renameLoop_appends_renames P _ _ _ _ h2
    obtain ⟨ex2, hex2, hxr2⟩ := foldl_writes_extends (updatedOrphanStep P doc)
      (updatedOrphanStep_writes P doc) doc.updatedFiles s1.1
    obtain ⟨ex3, hex3, hxr3⟩ := foldl_writes_extends (newFileStep P doc)
      (newFileStep_writes P doc) doc.newFiles (s1.1 ++ ex2)
    obtain ⟨⟨ex1, hex1, hxr1⟩, hmem⟩ :=
      buildSteps_fold P fs cH doc doc.existingFiles ([], []) s1 hs1
    simp only [List.nil_append] at hex1
    rw [hex2] at hrs
    rw [hex3] at hrs
    have hws : ∀ a ∈ (s1.1 ++ ex2) ++ ex3, isRenameA a = false := by
      intro a ha
      rcases List.mem_append.mp ha with h3 | h3
      · rcases List.mem_append.mp h3 with h4 | h4
        · apply hxr1
          rwa [← hex1]
        · exact hxr2 a h4
      · exact hxr3 a h3
    refine ⟨⟨(s1.1 ++ ex2) ++ ex3, rs, hrs, hws, hrr, ?_⟩, ?_⟩
    · intro e he u hu c hc hne
      have h6 := hmem e he u hu c hc hne
      exact List.mem_append.mpr (Or.inl (List.mem_append.mpr (Or.inl h6)))
    · rw [hrs]
      exact writes_before_renames_in_append _ _ hws hrr

theorem buildActions_writes_old_path_before_renames_witness :
    (∃ ws rs, c5Acts = ws ++ rs ∧ (∀ a ∈ ws, isRenameA a = false) ∧
      (∀ a ∈ rs, isRenameA a = true) ∧
      ∀ e ∈ c5Doc.existingFiles, ∀ u, jmGet c5Doc.updatedFiles e.idx = some u →
        ∀ c, u.content = some c → e.hash ≠ some (computeHash (applyEol u.eol c)) →
          FsAction.write (simplePath.resolve c5Doc.basePath e.path) (applyEol u.eol c)
            (some u.headerOffsetRange) ∈ ws) ∧
    ∀ i j (hi : i < c5Acts.length) (hj : j < c5Acts.length),
      isWriteA (c5Acts.get ⟨i, hi⟩) = true → isRenameA (c5Acts.get ⟨j, hj⟩) = true → i < j :=
  buildActions_writes_old_path_before_renames simplePath c5Doc [] false c5Acts (by rfl)

theorem buildStep_hash_spec (P : IPath) (fs : MemFs) (doc : ParsedMerchDoc)
    (acc : List FsAction × JMap JStr RenameInfo) (e : ExistingFileInfo) :
    (hashCheckFails P fs doc e = true ∧
      buildStep P fs true doc acc e = .error (.hashMismatch e.path)) ∨
    (hashCheckFails P fs doc e = false ∧
      ∃ acc2, buildStep P fs true doc acc e = .ok acc2) := by
  unfold hashCheckFails buildStep
  dsimp only
  cases hu : jmGet doc.updatedFiles e.idx with
  | none =>
    dsimp only
    cases hm : memRead fs (P.resolve doc.basePath e.path) with
    | none =>
      refine Or.inl ⟨by simp, ?_⟩
      split
      · rfl
      · rename_i hC
        exact absurd ⟨rfl, by simp⟩ hC
    | some onDisk =>
      by_cases he : e.hash = some (computeHash onDisk)
      · refine Or.inr ⟨by simp [he], ?_⟩
        split
        · dsimp only
          rw [if_pos he]
          exact ⟨_, rfl⟩
        · exact ⟨_, rfl⟩
      · refine Or.inl ⟨by simp [he], ?_⟩
        split
        · dsimp only
          rw [if_neg he]
        · rename_i hC
          exact absurd ⟨rfl, by simp⟩ hC
  | some u =>
    dsimp only
    cases hc : u.content with
    | none =>
      refine Or.inr ⟨by simp, ?_⟩
      split
      · rename_i hC
        simp at hC
      · exact ⟨_, rfl⟩
    | some c =>
      cases hm : memRead fs (P.resolve doc.basePath e.path) with
      | none =>
        refine Or.inl ⟨by simp, ?_⟩
        split
        · rfl
        · rename_i hC
          exact absurd ⟨rfl, by simp⟩ hC
      | some onDisk =>
        by_cases he : e.hash = some (computeHash onDisk)
        · refine Or.inr ⟨by simp [he], ?_⟩
          split
          · dsimp only
            rw [if_pos he]
            by_cases he2 : e.hash = some (computeHash (applyEol u.eol c))
            · exact ⟨_, by rw [if_pos he2]⟩
            · exact ⟨_, by rw [if_neg he2]⟩
          · by_cases he2 : e.hash = some (computeHash (applyEol u.eol c))
            · exact ⟨_, by dsimp only; rw [if_pos he2]⟩
            · exact ⟨_, by dsimp only; rw [if_neg he2]⟩
        · refine Or.inl ⟨by simp [he], ?_⟩
          split
          · dsimp only
            rw [if_neg he]
          · rename_i hC
            exact absurd ⟨rfl, by simp⟩ hC

theorem buildSteps_fold_hash (P : IPath) (fs : MemFs) (doc : ParsedMerchDoc) :
    ∀ (l : List ExistingFileInfo) (acc : List FsAction × JMap JStr RenameInfo),
      (∀ e, l.find? (hashCheckFails P fs doc) = some e →
        l.foldlM (buildStep P fs true doc) acc = .error (.hashMismatch e.path)) ∧
      (l.find? (hashCheckFails P fs doc) = none →
        ∃ s1, l.foldlM (buildStep P fs true doc) acc = .ok s1) := by
  intro l
  induction l with
  | nil =>
    intro acc
    constructor
    · intro e he
      simp [List.find?] at he
    · intro _
      exact ⟨acc, rfl⟩
  | cons a t ih =>
    intro acc
    constructor
    · intro e he
      rw [List.foldlM_cons]
      cases hcf : hashCheckFails P fs doc a with
      | true =>
        rw [List.find?_cons_of_pos _ hcf, Option.some.injEq] at he
        subst he
        rcases buildStep_hash_spec P fs doc acc a with ⟨_, herr⟩ | ⟨hfalse, _⟩
        · rw [herr]
          rfl
        · rw [hcf] at hfalse
          exact absurd hfalse (by simp)
      | false =>
        rw [List.find?_cons_of_neg _ (by simp [hcf])] at he
        rcases buildStep_hash_spec P fs doc acc a with ⟨htrue, _⟩ | ⟨_, acc2, hok⟩
        · rw [hcf] at htrue
          exact absurd htrue (by simp)
        · rw [hok]
          exact (ih acc2).1 e he
    · intro hn
      rw [List.foldlM_cons]
      cases hcf : hashCheckFails P fs doc a with
      | true =>
        rw [List.find?_cons_of_pos _ hcf] at hn
        exact absurd hn (by simp)
      | false =>
        rw [List.find?_cons_of_neg _ (by simp [hcf])] at hn
        rcases buildStep_hash_spec P fs doc acc a with ⟨htrue, _⟩ | ⟨_, acc2, hok⟩
        · rw [hcf] at htrue
          exact absurd htrue (by simp)
        · rw [hok]
          exact (ih acc2).2 hn

/-- C3, amended: with hash verification requested, the planner checks each
existing-file record in order, but skips the check for every updated record
with null content - whether or not its path differs from the old path (the
source tests only `content === null`, not the path). The first record whose
check fails (file absent or hash differing) aborts planning with a
hash-mismatch failure carrying that record's relative path; if no checked
record fails, no hash-mismatch failure is raised. -/
theorem buildActions_hash_check_first_failure (P : IPath) (doc : ParsedMerchDoc)
    (fs : MemFs) :
    (∀ e, doc.existingFiles.find? (hashCheckFails P fs doc) = some e →
      buildActions P doc fs true = .error (.hashMismatch e.path)) ∧
    (doc.existingFiles.find? (hashCheckFails P fs doc) = none →
      isHashMismatchResult (buildActions P doc fs true) = false) := by
  constructor
  · intro e he
    unfold buildActions
    rw [(buildSteps_fold_hash P fs doc doc.existingFiles ([], [])).1 e he]
    rfl
  · intro hn
    unfold buildActions
    obtain ⟨s1, hs1⟩ := (buildSteps_fold_hash P fs doc doc.existingFiles ([], [])).2 hn
    rw [hs1]
    exact renameLoop_no_hash P _ _ _

theorem buildActions_hash_check_first_failure_witness :
    buildActions simplePath c3FailDoc [] true
      = .error (.hashMismatch (jstr "f")) :=
  (buildActions_hash_check_first_failure simplePath c3FailDoc []).1
    ⟨jnumOfNat 0, jstr "f", some (jstr "hh"), ⟨0, 1⟩⟩ (by decide)

/-- C3, counterexample: an updated record with null content whose resolved
path equals the old path. The source skips the hash check for it (null
content alone triggers the skip), so planning succeeds even though the
tracked file is absent from the filesystem; the claim would demand a
hash-mismatch failure here. -/
theorem buildActions_folded_same_path_skips_check :
    jmGet c3Doc.updatedFiles (jnumOfNat 0) = some c3Upd ∧
    c3Upd.content = none ∧
    simplePath.resolve c3Doc.basePath c3Upd.newPath
      = simplePath.resolve c3Doc.basePath (jstr "f") ∧
    memRead [] (simplePath.resolve c3Doc.basePath (jstr "f")) = none ∧
    buildActions simplePath c3Doc [] true = .ok [] :=
  ⟨by decide, by decide, by decide, by decide, by rfl⟩

/-- C2, amended: for a two-file swap the planner emits exactly three
renames - B to the generated temp path, A to B, temp to A, with the first
and third carrying B's header range and the second A's - and running them
swaps the two contents, PROVIDED the generated temp path (derived from A's
resolved path) differs from both resolved paths and no path is empty;
when the temp path collides with one of the two paths the source emits a
different, shorter plan (see the counterexample). -/
theorem buildActions_swap_cycle (P : IPath) (bp pA pB : JStr) (hA hB : Option JStr)
    (rA rB sA sB : OffsetRange) (fs0 : MemFs) (cA cB : JStr)
    (hAB : P.resolve bp pA ≠ P.resolve bp pB)
    (hTA : tempPathOf P (P.resolve bp pA) ≠ P.resolve bp pA)
    (hTB : tempPathOf P (P.resolve bp pA) ≠ P.resolve bp pB)
    (hA0 : P.resolve bp pA ≠ [])
    (hT0 : tempPathOf P (P.resolve bp pA) ≠ [])
    (hnAB : memNormalize (P.resolve bp pA) ≠ memNormalize (P.resolve bp pB))
    (hnTA : memNormalize (tempPathOf P (P.resolve bp pA)) ≠ memNormalize (P.resolve bp pA))
    (hnTB : memNormalize (tempPathOf P (P.resolve bp pA)) ≠ memNormalize (P.resolve bp pB)) :
    buildActions P (swapDoc bp pA pB hA hB rA rB sA sB) fs0 false = .ok
      [.rename (P.resolve bp pB) (tempPathOf P (P.resolve bp pA)) (some sB),
       .rename (P.resolve bp pA) (P.resolve bp pB) (some sA),
       .rename (tempPathOf P (P.resolve bp pA)) (P.resolve bp pA) (some sB)] ∧
    runActions
      [.rename (P.resolve bp pB) (tempPathOf P (P.resolve bp pA)) (some sB),
       .rename (P.resolve bp pA) (P.resolve bp pB) (some sA),
       .rename (tempPathOf P (P.resolve bp pA)) (P.resolve bp pA) (some sB)]
      [(memNormalize (P.resolve bp pA), cA), (memNormalize (P.resolve bp pB), cB)] =
    some [(memNormalize (P.resolve bp pB), cA), (memNormalize (P.resolve bp pA), cB)] := by
  constructor
  · simp only [tempPathOf, List.append_assoc] at hTA hTB hT0
    simp [buildActions, swapDoc, buildStep, updatedOrphanStep, newFileStep, jmGet, jmSet,
      jmDelete, renameLoop, processRename, tempPathOf, jnumOfNat, Bind.bind, Except.bind,
      Pure.pure, Except.pure, hAB, hTA, hTB, hA0, hT0, Ne.symm hAB, Ne.symm hTA, Ne.symm hTB]
  · simp [runActions, runAction, memRename, jmGet, jmSet, jmDelete,
      hnAB, hnTA, hnTB, Ne.symm hnAB, Ne.symm hnTA, Ne.symm hnTB]

theorem buildActions_swap_cycle_witness :
    buildActions simplePath (swapDoc (jstr "/s") (jstr "a.txt") (jstr "b.txt")
        (some (jstr "ha")) (some (jstr "hb")) ⟨0, 1⟩ ⟨2, 3⟩ ⟨4, 5⟩ ⟨6, 7⟩) [] false = .ok
      [.rename (jstr "/s/b.txt") (jstr "/s/a_temp.txt") (some ⟨6, 7⟩),
       .rename (jstr "/s/a.txt") (jstr "/s/b.txt") (some ⟨4, 5⟩),
       .rename (jstr "/s/a_temp.txt") (jstr "/s/a.txt") (some ⟨6, 7⟩)] ∧
    runActions
      [.rename (jstr "/s/b.txt") (jstr "/s/a_temp.txt") (some ⟨6, 7⟩),
       .rename (jstr "/s/a.txt") (jstr "/s/b.txt") (some ⟨4, 5⟩),
       .rename (jstr "/s/a_temp.txt") (jstr "/s/a.txt") (some ⟨6, 7⟩)]
      [(jstr "/s/a.txt", jstr "one"), (jstr "/s/b.txt", jstr "two")] =
    some [(jstr "/s/b.txt", jstr "one"), (jstr "/s/a.txt", jstr "two")] :=
  buildActions_swap_cycle simplePath (jstr "/s") (jstr "a.txt") (jstr "b.txt")
    (some (jstr "ha")) (some (jstr "hb")) ⟨0, 1⟩ ⟨2, 3⟩ ⟨4, 5⟩ ⟨6, 7⟩ []
    (jstr "one") (jstr "two")
    (by decide) (by decide) (by decide) (by decide) (by decide)
    (by decide) (by decide) (by decide)

/-- C2, counterexample: swapping `x.txt` and `x_temp.txt`. The temp path
generated to break the cycle equals the second file's resolved path, so
the planner emits only two renames - the first a self-rename - instead of
the claimed three, and running them leaves one file's content lost. -/
theorem buildActions_swap_temp_collision :
    buildActions simplePath c2BadDoc [] false = .ok c2BadActs ∧
    c2BadActs.length = 2 ∧
    runActions c2BadActs
      [(jstr "/s/x.txt", jstr "one"), (jstr "/s/x_temp.txt", jstr "two")] =
    some [(jstr "/s/x_temp.txt", jstr "one")] :=
  ⟨by rfl, by rfl, by rfl⟩

theorem jmGet_mem {α β : Type} [DecidableEq α] :
    ∀ (m : JMap α β) (k : α) (v : β), jmGet m k = some v → (k, v) ∈ m := by
  intro m
  induction m with
  | nil => intro k v h; simp [jmGet] at h
  | cons p t ih =>
    intro k v h
    obtain ⟨k2, w⟩ := p
    simp only [jmGet] at h
    split at h
    · rename_i hk
      simp only [Option.some.injEq] at h
      subst h
      subst hk
      exact List.mem_cons_self _ _
    · exact List.mem_cons_of_mem _ (ih k v h)

theorem foldl_status_mem {α : Type} (f : List FileStatus → α → List FileStatus)
    (hf : ∀ sts x, ∃ extra, f sts x = sts ++ extra) :
    ∀ (l : List α) (sts : List FileStatus) (s : FileStatus), s ∈ sts → s ∈ l.foldl f sts := by
  intro l
  induction l with
  | nil => intro sts s hs; simpa using hs
  | cons x t ih =>
    intro sts s hs
    rw [List.foldl_cons]
    apply ih
    obtain ⟨extra, he⟩ := hf sts x
    rw [he]
    exact List.mem_append.mpr (Or.inl hs)

theorem conflictNoopStep_extends (P : IPath) (doc : ParsedMerchDoc)
    (deleted : JMap JStr DeletedInfo) (sts : List FileStatus) (tp : JStr × List TargetEntry) :
    ∃ extra, conflictNoopStep P doc deleted sts tp = sts ++ extra := by
  unfold conflictNoopStep
  repeat' split
  all_goals first
    | exact ⟨_, rfl⟩
    | exact ⟨[], by simp⟩

theorem actionStatusStep_extends (P : IPath) (doc : ParsedMerchDoc)
    (sts : List FileStatus) (a : FsAction) :
    ∃ extra, actionStatusStep P doc sts a = sts ++ extra := by
  unfold actionStatusStep
  repeat' split
  all_goals first
    | exact ⟨_, rfl⟩
    | exact ⟨[], by simp⟩

theorem renamedToStep_extends (P : IPath) (doc : ParsedMerchDoc)
    (sts : List FileStatus) (e : ExistingFileInfo) :
    ∃ extra, renamedToStep P doc sts e = sts ++ extra := by
  unfold renamedToStep
  repeat' split
  all_goals first
    | exact ⟨_, rfl⟩
    | exact ⟨[], by simp⟩

theorem conflictNoopStatuses_mem (P : IPath) (doc : ParsedMerchDoc)
    (deleted : JMap JStr DeletedInfo) (targets : JMap JStr (List TargetEntry))
    (tp : JStr) (entries : List TargetEntry)
    (h : jmGet targets tp = some entries) (hlen : 1 < entries.length) :
    ∀ en ∈ entries, (⟨en.source, conflictMsg P doc tp, .error⟩ : FileStatus)
      ∈ conflictNoopStatuses P doc targets deleted := by
  intro en hen
  obtain ⟨l1, l2, hsplit⟩ := List.append_of_mem (jmGet_mem targets tp entries h)
  unfold conflictNoopStatuses
  rw [hsplit, List.foldl_append, List.foldl_cons]
  have hstep : (⟨en.source, conflictMsg P doc tp, .error⟩ : FileStatus)
      ∈ conflictNoopStep P doc deleted
        (List.foldl (conflictNoopStep P doc deleted) [] l1) (tp, entries) := by
    unfold conflictNoopStep
    dsimp only
    rw [if_pos hlen]
    simp only [List.mem_append, List.mem_map]
    right
    exact ⟨en, hen, rfl⟩
  exact foldl_status_mem _ (conflictNoopStep_extends P doc deleted) l2 _ _ hstep

/-- C8, amended: a conflict annotation of severity error is emitted at the
header range of every CONTRIBUTING record of a shared target path, where a
record contributes a target entry only if it would act there: an updated
record matched by an existing record, with non-null content or a changed
resolved path, or a new-file record with non-null content. Orphan updated
records (no matching existing record) and in-place folded records
contribute no entry, so two of them sharing a target draw no conflict. -/
theorem analyzeMerchDoc_conflict_annotations (P : IPath) (content : JStr)
    (doc : ParsedMerchDoc) (tp : JStr) (entries : List TargetEntry)
    (h : jmGet (analyzerPhase2 P doc (analyzerPhase1 P doc).1) tp = some entries)
    (hlen : 1 < entries.length) :
    ∀ en ∈ entries, (⟨en.source, conflictMsg P doc tp, .error⟩ : FileStatus)
      ∈ analyzeMerchDoc P content doc := by
  intro en hen
  have h1 := conflictNoopStatuses_mem P doc (analyzerPhase1 P doc).2
    (analyzerPhase2 P doc (analyzerPhase1 P doc).1) tp entries h hlen en hen
  unfold analyzeMerchDoc
  dsimp only
  apply List.mem_append.mpr
  left
  unfold renamedToStatuses
  apply foldl_status_mem _ (renamedToStep_extends P doc)
  unfold actionStatuses
  apply foldl_status_mem _ (actionStatusStep_extends P doc)
  exact h1

theorem analyzeMerchDoc_conflict_annotations_witness :
    (⟨⟨2, 3⟩, conflictMsg simplePath c8wDoc (jstr "/s/t"), .error⟩ : FileStatus)
      ∈ analyzeMerchDoc simplePath [] c8wDoc ∧
    (⟨⟨4, 5⟩, conflictMsg simplePath c8wDoc (jstr "/s/t"), .error⟩ : FileStatus)
      ∈ analyzeMerchDoc simplePath [] c8wDoc :=
  ⟨analyzeMerchDoc_conflict_annotations simplePath [] c8wDoc (jstr "/s/t") c8wEntries
      (by decide) (by decide) ⟨⟨2, 3⟩, .write, false⟩ (by decide),
   analyzeMerchDoc_conflict_annotations simplePath [] c8wDoc (jstr "/s/t") c8wEntries
      (by decide) (by decide) ⟨⟨4, 5⟩, .write, true⟩ (by decide)⟩

/-- C8, counterexample: two distinct updated records resolving to the same
target path, neither matching any existing record. The analyzer's
target-path collection only walks existing files, so orphan updated
records contribute no entries: no status of severity error is emitted at
all, against the claim's demand of a conflict annotation on each. -/
theorem analyzeMerchDoc_orphan_conflict_missed :
    jmGet c8Doc.updatedFiles (jnumOfNat 0) = some c8U0 ∧
    jmGet c8Doc.updatedFiles (jnumOfNat 1) = some c8U1 ∧
    c8U0 ≠ c8U1 ∧
    simplePath.resolve c8Doc.basePath c8U0.newPath
      = simplePath.resolve c8Doc.basePath c8U1.newPath ∧
    (analyzeMerchDoc simplePath [] c8Doc).all
      (fun s => !(decide (s.type = StatusType.error))) = true := by
  decide

theorem assignContent_basePath (st : ScanState) (c : JStr) (tg : PendingTarget) :
    (assignContent st c tg).basePath = st.basePath := by
  unfold assignContent
  repeat' split
  all_goals rfl

theorem closePending_basePath (doc : JStr) (st : ScanState) (k : Nat) :
    (closePending doc st k).basePath = st.basePath := by
  unfold closePending
  split
  · rfl
  · exact assignContent_basePath _ _ _

theorem scanStep_basePath_none (doc : JStr) (st : ScanState) (m : Nat × JStr) :
    (scanStep doc st m).basePath = none ↔
      st.basePath = none ∧ isSetupHeader m.2 = false := by
  unfold scanStep isSetupHeader
  dsimp only
  cases ht : tryParseMerchLine m.2 with
  | none =>
    try rw [ht]
    dsimp only
    split <;> simp [pushDiag, closePending_basePath]
  | some ml =>
    try rw [ht]
    dsimp only
    by_cases hsetup : ml.command = jstr ("setup")
    · rw [if_pos hsetup]
      cases hbp : objGet ml.data (jstr ("basePath")) with
      | none => simp [pushDiag, closePending_basePath, hsetup]
      | some v =>
        dsimp only
        by_cases htr : truthy v = true
        · rw [if_pos htr]
          simp [closePending_basePath, hsetup, htr]
        · rw [if_neg htr]
          simp [pushDiag, closePending_basePath, hsetup, htr]
    · rw [if_neg hsetup]
      have hrhs : (ml.command = jstr ("setup") &&
          (match objGet ml.data (jstr ("basePath")) with
           | some v => truthy v
           | none => false)) = false := by
        simp [hsetup]
      repeat' split
      all_goals simp [pushDiag, closePending_basePath, hsetup]

theorem scan_fold_basePath_none (doc : JStr) :
    ∀ (l : List (Nat × JStr)) (st : ScanState),
      (l.foldl (scanStep doc) st).basePath = none ↔
        st.basePath = none ∧ ∀ m ∈ l, isSetupHeader m.2 = false := by
  intro l
  induction l with
  | nil => intro st; simp
  | cons x t ih =>
    intro st
    rw [List.foldl_cons, ih (scanStep doc st x), scanStep_basePath_none]
    constructor
    · rintro ⟨⟨h1, h2⟩, h3⟩
      refine ⟨h1, ?_⟩
      intro m hm
      rcases List.mem_cons.mp hm with h4 | h4
      · subst h4; exact h2
      · exact h3 m h4
    · rintro ⟨h1, h2⟩
      exact ⟨⟨h1, h2 x (List.mem_cons_self _ _)⟩, fun m hm => h2 m (List.mem_cons_of_mem _ hm)⟩

theorem parseScan_basePath_none (t : JStr) :
    (parseScan t).basePath = none ↔ ∀ m ∈ matchedLines t, isSetupHeader m.2 = false := by
  unfold parseScan
  dsimp only
  rw [closePending_basePath, scan_fold_basePath_none]
  simp [initScanState]

/-- C6: the parser raises the missing-base-path failure exactly when no
matched header line is a setup header carrying a truthy `basePath` AND the
collected diagnostics (scan diagnostics plus orphan-idx warnings) are
empty; with no base path but at least one diagnostic it degrades to a
partial document with the default base path `"."` and those diagnostics. -/
theorem parseMerchDoc_noBasePath_iff (t : JStr) :
    (parseMerchDoc t = .error .noBasePath ↔
      (∀ m ∈ matchedLines t, isSetupHeader m.2 = false) ∧ parseDiags t = []) ∧
    ((∀ m ∈ matchedLines t, isSetupHeader m.2 = false) → parseDiags t ≠ [] →
      parseMerchDoc t = .ok ⟨(parseScan t).existingFiles, (parseScan t).updatedFiles,
        (parseScan t).newFiles, jstr ("."), (parseScan t).setupHeaderRange, parseDiags t⟩) := by
  have hbp := parseScan_basePath_none t
  have hdiagdef : parseDiags t = (parseScan t).diagnostics ++ orphanDiags (parseScan t) := rfl
  constructor
  · constructor
    · intro h
      unfold parseMerchDoc at h
      dsimp only at h
      cases hb : (parseScan t).basePath with
      | some bp =>
        rw [hb] at h
        dsimp only at h
        exact absurd h (by simp)
      | none =>
        rw [hb] at h
        dsimp only at h
        refine ⟨hbp.mp hb, ?_⟩
        by_cases hd : ((parseScan t).diagnostics ++ orphanDiags (parseScan t)).isEmpty
        · rw [hdiagdef]
          exact List.isEmpty_iff.mp hd
        · rw [if_neg hd] at h
          exact absurd h (by simp)
    · rintro ⟨hall, hdiag⟩
      unfold parseMerchDoc
      dsimp only
      rw [hbp.mpr hall]
      rw [hdiagdef] at hdiag
      rw [hdiag]
      rfl
  · intro hall hne
    unfold parseMerchDoc
    dsimp only
    rw [hbp.mpr hall]
    rw [hdiagdef] at hne
    rw [if_neg (by simpa [List.isEmpty_iff] using hne)]
    rfl

theorem parseMerchDoc_noBasePath_iff_witness :
    parseMerchDoc c6Doc = .ok ⟨(parseScan c6Doc).existingFiles, (parseScan c6Doc).updatedFiles,
      (parseScan c6Doc).newFiles, jstr ("."), (parseScan c6Doc).setupHeaderRange,
      parseDiags c6Doc⟩ :=
  (parseMerchDoc_noBasePath_iff c6Doc).2 (by decide) (by decide)

/-! ### List and string plumbing -/

theorem substrJS_extract (x y z : JStr) :
    substrJS (x ++ y ++ z) x.length (x.length + y.length) = y := by
  unfold substrJS
  rw [max_eq_right (Nat.le_add_right _ _), min_eq_left (Nat.le_add_right _ _)]
  rw [List.append_assoc, List.take_append, List.take_left, List.drop_left]

theorem startsWithL_append_self : ∀ (pat rest : JStr), startsWithL (pat ++ rest) pat = true := by
  intro pat
  induction pat with
  | nil => intro rest; simp [startsWithL]
  | cons p ps ih => intro rest; simp [startsWithL, ih]

theorem startsWithL_append_right :
    ∀ (x pat b : JStr), startsWithL x pat = true → startsWithL (x ++ b) pat = true := by
  intro x pat
  induction pat generalizing x with
  | nil => intro b _; simp [startsWithL]
  | cons p ps ih =>
    intro b h
    cases x with
    | nil => simp [startsWithL] at h
    | cons c cs =>
      simp only [startsWithL, Bool.and_eq_true] at h ⊢
      exact ⟨h.1, ih cs b h.2⟩

theorem containsSub_mono_left :
    ∀ (a b pat : JStr), containsSub a pat = true → containsSub (a ++ b) pat = true := by
  intro a
  induction a with
  | nil =>
    intro b pat h
    simp only [containsSub] at h
    cases pat with
    | nil => cases b <;> simp [containsSub, startsWithL]
    | cons p ps => simp [startsWithL] at h
  | cons c t ih =>
    intro b pat h
    simp only [containsSub, Bool.or_eq_true] at h ⊢
    rcases h with h | h
    · exact Or.inl (startsWithL_append_right _ _ _ h)
    · exact Or.inr (ih b pat h)

theorem containsSub_mono_right :
    ∀ (a b pat : JStr), containsSub b pat = true → containsSub (a ++ b) pat = true := by
  intro a
  induction a with
  | nil =>
    intro b pat h
    exact h
  | cons c t ih =>
    intro b pat h
    simp only [List.cons_append, containsSub, Bool.or_eq_true]
    exact Or.inr (ih b pat h)

theorem containsSub_append_self : ∀ (pat rest : JStr), containsSub (pat ++ rest) pat = true := by
  intro pat rest
  cases pat with
  | nil => cases rest <;> simp [containsSub, startsWithL]
  | cons p ps =>
    simp only [List.cons_append, containsSub, Bool.or_eq_true]
    exact Or.inl (by simpa only [List.cons_append] using startsWithL_append_self (p :: ps) rest)

theorem containsSub_marker_mid (u w : JStr) :
    containsSub (u ++ merchMarker ++ w) merchMarker = true := by
  rw [List.append_assoc]
  exact containsSub_mono_right _ _ _ (containsSub_append_self _ _)

/-! ### Character arithmetic -/

theorem char_toNat_ofNat {n : Nat} (h : n < 0xD800) : (Char.ofNat n).toNat = n := by
  rw [Char.ofNat, dif_pos (Or.inl h)]
  rfl

theorem char_eq_iff_toNat {c d : Char} : c = d ↔ c.toNat = d.toNat := by
  constructor
  · intro h; rw [h]
  · intro h; exact Char.eq_of_val_eq (UInt32.ext h)

theorem char_le_iff_toNat {c d : Char} : c ≤ d ↔ c.toNat ≤ d.toNat := Iff.rfl

theorem digitCh_toNat {n : Nat} (h : n < 10) : (digitCh n).toNat = 48 + n := by
  unfold digitCh
  rw [show '0'.toNat = 48 from rfl]
  exact char_toNat_ofNat (by omega)

theorem hexCh_toNat_digit {n : Nat} (h : n < 10) : (hexCh n).toNat = 48 + n := by
  unfold hexCh
  rw [if_pos h]
  exact digitCh_toNat h

theorem hexCh_toNat_alpha {n : Nat} (h1 : 10 ≤ n) (h2 : n < 16) :
    (hexCh n).toNat = 87 + n := by
  unfold hexCh
  rw [if_neg (by omega)]
  rw [show 'a'.toNat = 97 from rfl, char_toNat_ofNat (by omega)]
  omega

theorem isLT_false_of_toNat {c : Char} (h10 : c.toNat ≠ 10) (h13 : c.toNat ≠ 13)
    (h28 : c.toNat ≠ 8232) (h29 : c.toNat ≠ 8233) : isLT c = false := by
  unfold isLT
  have e10 : (c = '\n') = False := by
    simp only [eq_iff_iff, iff_false]
    intro h; exact h10 (char_eq_iff_toNat.mp h)
  have e13 : (c = '\r') = False := by
    simp only [eq_iff_iff, iff_false]
    intro h; exact h13 (char_eq_iff_toNat.mp h)
  have e28 : (c = ' ') = False := by
    simp only [eq_iff_iff, iff_false]
    intro h; exact h28 (char_eq_iff_toNat.mp h)
  have e29 : (c = ' ') = False := by
    simp only [eq_iff_iff, iff_false]
    intro h; exact h29 (char_eq_iff_toNat.mp h)
  simp [e10, e13, e28, e29]

theorem digitCh_not_lt {n : Nat} (h : n < 10) : isLT (digitCh n) = false := by
  have := digitCh_toNat h
  exact isLT_false_of_toNat (by omega) (by omega) (by omega) (by omega)

theorem hexCh_not_lt {n : Nat} (h : n < 16) : isLT (hexCh n) = false := by
  by_cases h10 : n < 10
  · have := hexCh_toNat_digit h10
    exact isLT_false_of_toNat (by omega) (by omega) (by omega) (by omega)
  · have := hexCh_toNat_alpha (by omega) h
    exact isLT_false_of_toNat (by omega) (by omega) (by omega) (by omega)

theorem hexVal_hexCh {n : Nat} (h : n < 16) : hexVal (hexCh n) = some n := by
  unfold hexVal
  obtain ⟨h0, h9, ha, hf⟩ :
      ('0' : Char).toNat = 48 ∧ ('9' : Char).toNat = 57 ∧
        ('a' : Char).toNat = 97 ∧ ('f' : Char).toNat = 102 := ⟨rfl, rfl, rfl, rfl⟩
  by_cases h10 : n < 10
  · have ht := hexCh_toNat_digit h10
    rw [if_pos ⟨char_le_iff_toNat.mpr (by omega), char_le_iff_toNat.mpr (by omega)⟩]
    simp only [Option.some.injEq]
    omega
  · have ht := hexCh_toNat_alpha (by omega) h
    rw [if_neg, if_pos ⟨char_le_iff_toNat.mpr (by omega), char_le_iff_toNat.mpr (by omega)⟩]
    · simp only [Option.some.injEq]
      omega
    · intro hcon
      have h2 := char_le_iff_toNat.mp hcon.2
      omega

theorem jsonEscapeChar_not_lt {c : Char} (h28 : c.toNat ≠ 8232) (h29 : c.toNat ≠ 8233) :
    ∀ x ∈ jsonEscapeChar c, isLT x = false := by
  intro x hx
  unfold jsonEscapeChar at hx
  by_cases hq : c = '"'
  · rw [if_pos hq] at hx
    simp only [List.mem_cons, List.not_mem_nil, or_false] at hx
    rcases hx with rfl | rfl <;> rfl
  rw [if_neg hq] at hx
  by_cases hbs : c = '\\'
  · rw [if_pos hbs] at hx
    simp only [List.mem_cons, List.not_mem_nil, or_false] at hx
    rcases hx with rfl | rfl <;> rfl
  rw [if_neg hbs] at hx
  by_cases hn : c = '\n'
  · rw [if_pos hn] at hx
    simp only [List.mem_cons, List.not_mem_nil, or_false] at hx
    rcases hx with rfl | rfl <;> rfl
  rw [if_neg hn] at hx
  by_cases hr : c = '\r'
  · rw [if_pos hr] at hx
    simp only [List.mem_cons, List.not_mem_nil, or_false] at hx
    rcases hx with rfl | rfl <;> rfl
  rw [if_neg hr] at hx
  by_cases htb : c = '\t'
  · rw [if_pos htb] at hx
    simp only [List.mem_cons, List.not_mem_nil, or_false] at hx
    rcases hx with rfl | rfl <;> rfl
  rw [if_neg htb] at hx
  by_cases hbk : c = '\x08'
  · rw [if_pos hbk] at hx
    simp only [List.mem_cons, List.not_mem_nil, or_false] at hx
    rcases hx with rfl | rfl <;> rfl
  rw [if_neg hbk] at hx
  by_cases hff : c = '\x0c'
  · rw [if_pos hff] at hx
    simp only [List.mem_cons, List.not_mem_nil, or_false] at hx
    rcases hx with rfl | rfl <;> rfl
  rw [if_neg hff] at hx
  by_cases hlt : c.toNat < 0x20
  · rw [if_pos hlt] at hx
    simp only [List.mem_cons, List.not_mem_nil, or_false] at hx
    rcases hx with rfl | rfl | rfl | rfl | rfl | rfl
    · rfl
    · rfl
    · rfl
    · rfl
    · exact hexCh_not_lt (by omega)
    · exact hexCh_not_lt (by omega)
  · rw [if_neg hlt] at hx
    simp only [List.mem_singleton] at hx
    subst hx
    apply isLT_false_of_toNat
    · intro hh; exact hn (char_eq_iff_toNat.mpr (by rw [hh]; rfl))
    · intro hh; exact hr (char_eq_iff_toNat.mpr (by rw [hh]; rfl))
    · exact h28
    · exact h29

theorem escLineSafe_toNat {s : JStr} (hs : escLineSafe s = true) :
    ∀ c ∈ s, c.toNat ≠ 8232 ∧ c.toNat ≠ 8233 := by
  intro c hc
  unfold escLineSafe at hs
  rw [List.all_eq_true] at hs
  have h2 := hs c hc
  simp only [Bool.not_eq_eq_eq_not, Bool.not_true, Bool.or_eq_false_iff,
    decide_eq_false_iff_not] at h2
  constructor
  · intro hh; exact h2.1 (char_eq_iff_toNat.mpr (by rw [hh]; rfl))
  · intro hh; exact h2.2 (char_eq_iff_toNat.mpr (by rw [hh]; rfl))

theorem jsonEscape_not_lt {s : JStr} (hs : escLineSafe s = true) :
    ∀ x ∈ jsonEscape s, isLT x = false := by
  intro x hx
  unfold jsonEscape at hx
  rw [List.mem_flatten] at hx
  obtain ⟨l, hl, hxl⟩ := hx
  rw [List.mem_map] at hl
  obtain ⟨c, hc, rfl⟩ := hl
  have h2 := escLineSafe_toNat hs c hc
  exact jsonEscapeChar_not_lt h2.1 h2.2 x hxl

theorem decDigitsAux_shape :
    ∀ (fuel n : Nat), ∀ x ∈ decDigitsAux fuel n, ∃ m, m < 10 ∧ x = digitCh m := by
  intro fuel
  induction fuel with
  | zero => intro n x hx; simp [decDigitsAux] at hx
  | succ f ih =>
    intro n x hx
    unfold decDigitsAux at hx
    split at hx
    · simp only [List.mem_singleton] at hx
      subst hx
      exact ⟨n, by omega, rfl⟩
    · rw [List.mem_append] at hx
      rcases hx with hx | hx
      · exact ih _ x hx
      · simp only [List.mem_singleton] at hx
        subst hx
        exact ⟨n % 10, Nat.mod_lt _ (by omega), rfl⟩

theorem decDigits_not_lt {n : Nat} : ∀ x ∈ decDigits n, isLT x = false := by
  intro x hx
  obtain ⟨m, hm, rfl⟩ := decDigitsAux_shape _ _ x hx
  exact digitCh_not_lt hm

theorem jstr_not_lt_decide {s : String}
    (h : (jstr s).all (fun c => !(isLT c)) = true) : ∀ x ∈ jstr s, isLT x = false := by
  intro x hx
  rw [List.all_eq_true] at h
  have := h x hx
  simpa using this

/-! ### Line structure of concatenations -/

theorem lineSplitAux_peel_line (c0 : Char) (h0 : isLT c0 = true) :
    ∀ (u : JStr) (v : JStr) (start : Nat) (acc : JStr), (∀ c ∈ u, isLT c = false) →
      lineSplitAux (u ++ c0 :: v) start acc =
        (start, acc.reverse ++ u) :: lineSplitAux v (start + acc.length + u.length + 1) [] := by
  intro u
  induction u with
  | nil =>
    intro v start acc _
    rw [List.nil_append, lineSplitAux, if_pos h0]
    simp
  | cons c u2 ih =>
    intro v start acc hfree
    have hc : isLT c = false := hfree c (by simp)
    rw [List.cons_append, lineSplitAux, if_neg (by simp [hc])]
    rw [ih v start (c :: acc) (fun x hx => hfree x (by simp [hx]))]
    have h1 : start + (c :: acc).length + u2.length + 1
        = start + acc.length + (c :: u2).length + 1 := by
      simp only [List.length_cons]
      omega
    rw [h1]
    simp

theorem lineSplitAux_chunk_filter (c0 : Char) (h0 : isLT c0 = true) :
    ∀ (u : JStr) (v : JStr) (start : Nat) (acc : JStr),
      containsSub (acc.reverse ++ u) merchMarker = false →
      (lineSplitAux (u ++ c0 :: v) start acc).filter (fun p => containsSub p.2 merchMarker) =
        (lineSplitAux v (start + acc.length + u.length + 1) []).filter
          (fun p => containsSub p.2 merchMarker) := by
  intro u
  induction u with
  | nil =>
    intro v start acc hfree
    rw [List.nil_append, lineSplitAux, if_pos h0, List.filter_cons]
    rw [List.append_nil] at hfree
    simp [hfree]
  | cons c u2 ih =>
    intro v start acc hfree
    by_cases hc : isLT c = true
    · rw [List.cons_append, lineSplitAux, if_pos hc, List.filter_cons]
      have hpre : containsSub acc.reverse merchMarker = false := by
        cases hq : containsSub acc.reverse merchMarker
        · rfl
        · rw [containsSub_mono_left _ (c :: u2) _ hq] at hfree
          exact absurd hfree (by simp)
      have hsuf : containsSub u2 merchMarker = false := by
        cases hq : containsSub u2 merchMarker
        · rfl
        · have h2 := containsSub_mono_right [c] _ _ hq
          rw [containsSub_mono_right acc.reverse (c :: u2) _ h2] at hfree
          exact absurd hfree (by simp)
      rw [if_neg (by simp [hpre])]
      rw [ih v (start + acc.length + 1) [] (by simpa using hsuf)]
      have h1 : start + acc.length + 1 + ([] : JStr).length + u2.length + 1
          = start + acc.length + (c :: u2).length + 1 := by
        simp only [List.length_cons, List.length_nil]
        omega
      rw [h1]
    · rw [List.cons_append, lineSplitAux, if_neg (by simp [hc])]
      rw [ih v start (c :: acc) (by simpa [List.append_assoc] using hfree)]
      have h1 : start + (c :: acc).length + u2.length + 1
          = start + acc.length + (c :: u2).length + 1 := by
        simp only [List.length_cons]
        omega
      rw [h1]

theorem append_not_lt {a b : JStr} (ha : ∀ c ∈ a, isLT c = false)
    (hb : ∀ c ∈ b, isLT c = false) : ∀ c ∈ a ++ b, isLT c = false := by
  intro c hc
  rcases List.mem_append.mp hc with h | h
  exacts [ha c h, hb c h]

theorem jq_not_lt {s : JStr} (hs : escLineSafe s = true) : ∀ c ∈ jq s, isLT c = false := by
  intro c hc
  unfold jq at hc
  rcases List.mem_cons.mp hc with h | h
  · subst h; rfl
  · rcases List.mem_append.mp h with h2 | h2
    · exact jsonEscape_not_lt hs c h2
    · rw [List.mem_singleton] at h2; subst h2; rfl

theorem renderSetupJson_not_lt {base : JStr} (hb : escLineSafe base = true) :
    ∀ c ∈ renderSetupJson base, isLT c = false := by
  unfold renderSetupJson
  apply append_not_lt
  apply append_not_lt
  apply append_not_lt
  apply append_not_lt (by decide)
  · exact jq_not_lt (by decide)
  · exact (by decide)
  · exact jq_not_lt hb
  · exact (by decide)

theorem renderExistingJson_not_lt {p : JStr} {i : Nat} {h : JStr}
    (hp : escLineSafe p = true) (hh : escLineSafe h = true) :
    ∀ c ∈ renderExistingJson p i h, isLT c = false := by
  intro c hc
  unfold renderExistingJson at hc
  simp only [List.mem_append] at hc
  rcases hc with ((((((((((((h1|h1)|h1)|h1)|h1)|h1)|h1)|h1)|h1)|h1)|h1)|h1)|h1)
  · exact (by decide : ∀ x ∈ jLB, isLT x = false) c h1
  · exact (by decide : ∀ x ∈ jq (jstr "path"), isLT x = false) c h1
  · exact (by decide : ∀ x ∈ [(':' : Char)], isLT x = false) c h1
  · exact jq_not_lt hp c h1
  · exact (by decide : ∀ x ∈ [(',' : Char)], isLT x = false) c h1
  · exact (by decide : ∀ x ∈ jq (jstr "idx"), isLT x = false) c h1
  · exact (by decide : ∀ x ∈ [(':' : Char)], isLT x = false) c h1
  · exact decDigits_not_lt c h1
  · exact (by decide : ∀ x ∈ [(',' : Char)], isLT x = false) c h1
  · exact (by decide : ∀ x ∈ jq (jstr "hash"), isLT x = false) c h1
  · exact (by decide : ∀ x ∈ [(':' : Char)], isLT x = false) c h1
  · exact jq_not_lt hh c h1
  · exact (by decide : ∀ x ∈ jRB, isLT x = false) c h1

theorem renderFileJson_not_lt {p : JStr} {i : Nat} {eol : Option JStr}
    (hp : escLineSafe p = true)
    (he : ∀ e, eol = some e → escLineSafe e = true) :
    ∀ c ∈ renderFileJson p i eol, isLT c = false := by
  intro c hc
  unfold renderFileJson at hc
  simp only [List.mem_append] at hc
  rcases hc with (((((((((h1|h1)|h1)|h1)|h1)|h1)|h1)|h1)|h1)|h1)
  · exact (by decide : ∀ x ∈ jLB, isLT x = false) c h1
  · exact (by decide : ∀ x ∈ jq (jstr "path"), isLT x = false) c h1
  · exact (by decide : ∀ x ∈ [(':' : Char)], isLT x = false) c h1
  · exact jq_not_lt hp c h1
  · exact (by decide : ∀ x ∈ [(',' : Char)], isLT x = false) c h1
  · exact (by decide : ∀ x ∈ jq (jstr "idx"), isLT x = false) c h1
  · exact (by decide : ∀ x ∈ [(':' : Char)], isLT x = false) c h1
  · exact decDigits_not_lt c h1
  · cases heol : eol with
    | none => rw [heol] at h1; simp at h1
    | some e =>
      rw [heol] at h1
      simp only [List.mem_append] at h1
      rcases h1 with ((h1|h1)|h1)|h1
      · exact (by decide : ∀ x ∈ [(',' : Char)], isLT x = false) c h1
      · exact (by decide : ∀ x ∈ jq (jstr "eol"), isLT x = false) c h1
      · exact (by decide : ∀ x ∈ [(':' : Char)], isLT x = false) c h1
      · exact jq_not_lt (he e heol) c h1
  · exact (by decide : ∀ x ∈ jRB, isLT x = false) c h1

theorem setupLine_not_lt {base : JStr} (hb : escLineSafe base = true) :
    ∀ c ∈ setupLineOf base, isLT c = false := by
  unfold setupLineOf LineFormatter.format
  apply append_not_lt
  apply append_not_lt (by decide)
  apply append_not_lt (by decide)
  · exact renderSetupJson_not_lt hb
  · exact (by decide)

theorem manifestLine_not_lt {sp : FileSpec} (hp : escLineSafe sp.path = true)
    (hh : escLineSafe sp.hash = true) : ∀ c ∈ manifestLineOf sp, isLT c = false := by
  unfold manifestLineOf LineFormatter.format
  apply append_not_lt
  apply append_not_lt (by decide)
  apply append_not_lt (by decide)
  · exact renderExistingJson_not_lt hp hh
  · exact (by decide)

theorem fileHeader_not_lt {sp : FileSpec} (hp : escLineSafe sp.path = true)
    (he : ∀ e, sp.eol = some e → escLineSafe e = true) :
    ∀ c ∈ fileHeaderOf sp, isLT c = false := by
  unfold fileHeaderOf LineFormatter.format
  apply append_not_lt
  apply append_not_lt (by decide)
  apply append_not_lt
  apply append_not_lt (by decide)
  · exact renderFileJson_not_lt hp he
  · intro c hc
    cases hcnt : sp.content with
    | some c2 =>
      rw [hcnt] at hc
      rw [List.mem_singleton] at hc
      subst hc
      rfl
    | none =>
      rw [hcnt] at hc
      simp at hc
  · exact (by decide)

theorem format_marker (x : JStr) :
    containsSub (stdFormatter.format (jstr "merch::" ++ x)) merchMarker = true := by
  have h : stdFormatter.format (jstr "merch::" ++ x)
      = jstr "//" ++ merchMarker ++ (x ++ []) := by
    unfold stdFormatter LineFormatter.format merchMarker jstr
    simp
  rw [h]
  exact containsSub_marker_mid _ _

theorem setupLine_marker (base : JStr) :
    containsSub (setupLineOf base) merchMarker = true := by
  have h : setupLineOf base
      = stdFormatter.format (jstr "merch::" ++ (jstr "setup: " ++ renderSetupJson base)) := by
    unfold setupLineOf LineFormatter.format jstr
    simp
  rw [h]
  exact format_marker _

theorem manifestLine_marker (sp : FileSpec) :
    containsSub (manifestLineOf sp) merchMarker = true := by
  have h : manifestLineOf sp = stdFormatter.format (jstr "merch::" ++
      (jstr "existing-file: " ++ renderExistingJson sp.path sp.idx sp.hash)) := by
    unfold manifestLineOf LineFormatter.format jstr
    simp
  rw [h]
  exact format_marker _

theorem fileHeader_marker (sp : FileSpec) :
    containsSub (fileHeaderOf sp) merchMarker = true := by
  have h : fileHeaderOf sp = stdFormatter.format (jstr "merch::" ++
      (jstr "file: " ++ (renderFileJson sp.path sp.idx sp.eol ++
        (match sp.content with | some _ => [(':' : Char)] | none => [])))) := by
    unfold fileHeaderOf LineFormatter.format jstr
    simp
  rw [h]
  exact format_marker _

theorem matched_peel_line {le : JStr} (hle : le = jstr "\n" ∨ le = jstr "\r\n")
    (u v : JStr) (start : Nat) (hfree : ∀ c ∈ u, isLT c = false)
    (hmk : containsSub u merchMarker = true) :
    (lineSplitAux (u ++ (le ++ v)) start []).filter (fun p => containsSub p.2 merchMarker) =
      (start, u) :: (lineSplitAux v (start + u.length + le.length) []).filter
        (fun p => containsSub p.2 merchMarker) := by
  rcases hle with h | h
  · subst h
    have he : u ++ (jstr "\n" ++ v) = u ++ '\n' :: v := by simp [jstr]
    rw [he, lineSplitAux_peel_line '\n' rfl u v start [] hfree, List.filter_cons]
    simp only [List.reverse_nil, List.nil_append, List.length_nil, hmk, if_true]
    have harith : start + 0 + u.length + 1 = start + u.length + (jstr "\n").length := by
      simp [jstr]
    rw [harith]
  · subst h
    have he : u ++ (jstr "\r\n" ++ v) = u ++ '\r' :: ('\n' :: v) := by simp [jstr]
    rw [he, lineSplitAux_peel_line '\r' rfl u ('\n' :: v) start [] hfree, List.filter_cons]
    simp only [List.reverse_nil, List.nil_append, List.length_nil, hmk, if_true]
    rw [lineSplitAux, if_pos (by decide : isLT '\n' = true), List.filter_cons]
    simp only [List.reverse_nil, List.length_nil]
    rw [if_neg (by decide : ¬(containsSub ([] : JStr) merchMarker = true))]
    have harith : start + 0 + u.length + 1 + 0 + 1 = start + u.length + (jstr "\r\n").length := by
      simp [jstr]
      try omega
    rw [harith]

theorem matched_peel_chunk {le : JStr} (hle : le = jstr "\n" ∨ le = jstr "\r\n")
    (u v : JStr) (start : Nat) (hmk : containsSub u merchMarker = false) :
    (lineSplitAux (u ++ (le ++ v)) start []).filter (fun p => containsSub p.2 merchMarker) =
      (lineSplitAux v (start + u.length + le.length) []).filter
        (fun p => containsSub p.2 merchMarker) := by
  rcases hle with h | h
  · subst h
    have he : u ++ (jstr "\n" ++ v) = u ++ '\n' :: v := by simp [jstr]
    rw [he, lineSplitAux_chunk_filter '\n' rfl u v start [] (by simpa using hmk)]
    have harith : start + ([] : JStr).length + u.length + 1
        = start + u.length + (jstr "\n").length := by
      simp [jstr]
    rw [harith]
  · subst h
    have he : u ++ (jstr "\r\n" ++ v) = u ++ '\r' :: ('\n' :: v) := by simp [jstr]
    rw [he, lineSplitAux_chunk_filter '\r' rfl u ('\n' :: v) start [] (by simpa using hmk)]
    rw [lineSplitAux, if_pos (by decide : isLT '\n' = true), List.filter_cons]
    simp only [List.reverse_nil, List.length_nil]
    rw [if_neg (by decide : ¬(containsSub ([] : JStr) merchMarker = true))]
    have harith : start + 0 + u.length + 1 + 0 + 1
        = start + u.length + (jstr "\r\n").length := by
      simp [jstr]
      try omega
    rw [harith]

theorem matched_peel_blank {le : JStr} (hle : le = jstr "\n" ∨ le = jstr "\r\n")
    (v : JStr) (start : Nat) :
    (lineSplitAux (le ++ v) start []).filter (fun p => containsSub p.2 merchMarker) =
      (lineSplitAux v (start + le.length) []).filter (fun p => containsSub p.2 merchMarker) := by
  have h := matched_peel_chunk hle [] v start (by decide)
  simpa using h

theorem specOk_fields {le : JStr} {sp : FileSpec} (h : specOk le sp = true) :
    sp.path ≠ [] ∧ sp.hash ≠ [] ∧ escLineSafe sp.path = true ∧ escLineSafe sp.hash = true ∧
    (∀ e, sp.eol = some e → e = jstr "\n" ∨ e = jstr "\r\n") ∧
    (∀ c, sp.content = some c → blockSafe le c = true) := by
  unfold specOk at h
  simp only [Bool.and_eq_true, decide_eq_true_eq] at h
  obtain ⟨⟨⟨⟨⟨hp, hh⟩, hpe⟩, hhe⟩, heol⟩, hcont⟩ := h
  refine ⟨hp, hh, hpe, hhe, ?_, ?_⟩
  · intro e he
    rw [he] at heol
    simp only [Bool.or_eq_true, decide_eq_true_eq] at heol
    tauto
  · intro c hc
    rw [hc] at hcont
    exact hcont

theorem specOk_eol_esc {le : JStr} {sp : FileSpec} (h : specOk le sp = true) :
    ∀ e, sp.eol = some e → escLineSafe e = true := by
  intro e he
  rcases (specOk_fields h).2.2.2.2.1 e he with h2 | h2 <;> subst h2 <;> decide

theorem manifest_matched {le : JStr} (hle : le = jstr "\n" ∨ le = jstr "\r\n") :
    ∀ (specs : List FileSpec) (off : Nat) (v : JStr),
      (∀ sp ∈ specs, specOk le sp = true) →
      (lineSplitAux ((specs.map (fun sp => manifestLineOf sp ++ le)).flatten ++ v) off []).filter
          (fun p => containsSub p.2 merchMarker) =
        manifestLinePairs le off specs ++
          (lineSplitAux v
            (off + ((specs.map (fun sp => (manifestLineOf sp).length + le.length)).sum)) []).filter
            (fun p => containsSub p.2 merchMarker) := by
  intro specs
  induction specs with
  | nil =>
    intro off v _
    simp [manifestLinePairs]
  | cons sp t ih =>
    intro off v hok
    obtain ⟨hp0, hh0, hpe, hhe, heol, hcont⟩ := specOk_fields (hok sp (by simp))
    rw [List.map_cons, List.flatten_cons]
    simp only [List.append_assoc]
    rw [matched_peel_line hle _ _ off (manifestLine_not_lt hpe hhe) (manifestLine_marker sp)]
    rw [ih (off + (manifestLineOf sp).length + le.length) v
      (fun x hx => hok x (by simp [hx]))]
    rw [manifestLinePairs]
    simp only [List.map_cons, List.sum_cons, List.cons_append]
    have harith : off + (manifestLineOf sp).length + le.length +
        ((t.map (fun sp => (manifestLineOf sp).length + le.length)).sum) =
      off + ((manifestLineOf sp).length + le.length +
        (t.map (fun sp => (manifestLineOf sp).length + le.length)).sum) := by omega
    rw [harith]

theorem body_matched {le : JStr} (hle : le = jstr "\n" ∨ le = jstr "\r\n") :
    ∀ (specs : List FileSpec) (off : Nat),
      (∀ sp ∈ specs, specOk le sp = true) →
      (lineSplitAux ((specs.map (blockOf le)).flatten) off []).filter
          (fun p => containsSub p.2 merchMarker) =
        bodyHeaderPairs le off specs := by
  intro specs
  induction specs with
  | nil =>
    intro off _
    simp only [List.map_nil]
    rw [show (List.flatten ([] : List JStr)) = ([] : JStr) from rfl]
    rw [lineSplitAux, List.filter_cons]
    rw [if_neg (by decide : ¬(containsSub (([] : JStr).reverse) merchMarker = true))]
    rfl
  | cons sp t ih =>
    intro off hok
    have hsp := hok sp (by simp)
    obtain ⟨hp0, hh0, hpe, hhe, heol, hcont⟩ := specOk_fields hsp
    rw [List.map_cons, List.flatten_cons]
    cases hcnt : sp.content with
    | none =>
      have hblock : blockOf le sp = fileHeaderOf sp ++ le ++ [] := by
        unfold blockOf
        rw [hcnt]
      rw [hblock]
      simp only [List.append_assoc, List.append_nil]
      rw [matched_peel_line hle _ _ off
        (fileHeader_not_lt hpe (specOk_eol_esc hsp)) (fileHeader_marker sp)]
      rw [ih (off + (fileHeaderOf sp).length + le.length) (fun x hx => hok x (by simp [hx]))]
      rw [bodyHeaderPairs]
      have harith : off + (blockOf le sp).length
          = off + (fileHeaderOf sp).length + le.length := by
        unfold blockOf
        rw [hcnt]
        simp
        try omega
      rw [harith]
    | some c =>
      have hblock : blockOf le sp = fileHeaderOf sp ++ le ++ (c ++ le) := by
        unfold blockOf
        rw [hcnt]
      rw [hblock]
      simp only [List.append_assoc]
      rw [matched_peel_line hle _ _ off
        (fileHeader_not_lt hpe (specOk_eol_esc hsp)) (fileHeader_marker sp)]
      have hbs := hcont c hcnt
      unfold blockSafe at hbs
      simp only [Bool.and_eq_true, Bool.not_eq_eq_eq_not, Bool.not_true] at hbs
      rw [matched_peel_chunk hle c _ _ hbs.1]
      rw [ih (off + (fileHeaderOf sp).length + le.length + c.length + le.length)
        (fun x hx => hok x (by simp [hx]))]
      rw [bodyHeaderPairs]
      have harith : off + (blockOf le sp).length
          = off + (fileHeaderOf sp).length + le.length + c.length + le.length := by
        unfold blockOf
        rw [hcnt]
        simp
        omega
      rw [harith]

theorem matchedLines_renderDoc {base le : JStr} {specs : List FileSpec}
    (hok : renderOk base le specs) :
    matchedLines (renderDoc base le specs) =
      (sepLine.length + le.length, setupLineOf base) ::
        (manifestLinePairs le (manifestStart base le) specs ++
         bodyHeaderPairs le (bodyStart base le specs) specs) := by
  obtain ⟨hbase, hbesc, hle, hspecs, hnodup⟩ := hok
  unfold matchedLines lineSplit renderDoc
  simp only [List.append_assoc]
  rw [matched_peel_chunk hle sepLine _ 0 (by decide)]
  rw [matched_peel_line hle (setupLineOf base) _ _ (setupLine_not_lt hbesc)
    (setupLine_marker base)]
  rw [manifest_matched hle specs _ _ hspecs]
  rw [matched_peel_chunk hle sepLine _ _ (by decide)]
  rw [matched_peel_blank hle _ _]
  rw [body_matched hle specs _ hspecs]
  simp only [Nat.zero_add]
  rfl

/-! ### JSON round-trips -/

theorem parseJStringBody_escChar (c : Char) (w : JStr) (f : Nat) :
    parseJStringBody (f + 1) (jsonEscapeChar c ++ w) =
      (fun r => (c :: r.1, r.2)) <$> parseJStringBody f w := by
  by_cases hq : c = '"'
  · subst hq; rfl
  by_cases hbs : c = '\\'
  · subst hbs; rfl
  by_cases hn : c = '\n'
  · subst hn; rfl
  by_cases hr : c = '\r'
  · subst hr; rfl
  by_cases htb : c = '\t'
  · subst htb; rfl
  by_cases hbk : c = '\x08'
  · subst hbk; rfl
  by_cases hff : c = '\x0c'
  · subst hff; rfl
  by_cases hlt : c.toNat < 0x20
  · have hec : jsonEscapeChar c
        = ['\\', 'u', '0', '0', hexCh (c.toNat / 16), hexCh (c.toNat % 16)] := by
      unfold jsonEscapeChar
      rw [if_neg hq, if_neg hbs, if_neg hn, if_neg hr, if_neg htb, if_neg hbk, if_neg hff,
        if_pos hlt]
    rw [hec]
    simp only [List.cons_append, List.nil_append]
    rw [parseJStringBody]
    try dsimp only
    rw [if_neg (by decide : ¬(('\\' : Char) = '"')), if_pos (rfl : ('\\' : Char) = '\\')]
    have hu : unescapeJson
        ('u' :: '0' :: '0' :: hexCh (c.toNat / 16) :: hexCh (c.toNat % 16) :: w)
        = some (c, w) := by
      unfold unescapeJson
      try dsimp only
      rw [if_neg (by decide : ¬(('u' : Char) = '"')), if_neg (by decide : ¬(('u' : Char) = '\\')),
        if_neg (by decide : ¬(('u' : Char) = '/')), if_neg (by decide : ¬(('u' : Char) = 'b')),
        if_neg (by decide : ¬(('u' : Char) = 'f')), if_neg (by decide : ¬(('u' : Char) = 'n')),
        if_neg (by decide : ¬(('u' : Char) = 'r')), if_neg (by decide : ¬(('u' : Char) = 't')),
        if_pos (rfl : ('u' : Char) = 'u')]
      try dsimp only
      rw [show hexVal '0' = some 0 from rfl]
      rw [hexVal_hexCh (by omega), hexVal_hexCh (by omega)]
      try dsimp only
      have hx : ((0 * 16 + 0) * 16 + c.toNat / 16) * 16 + c.toNat % 16 = c.toNat := by omega
      rw [hx]
      rw [if_neg (by omega)]
      rw [Char.ofNat_toNat]
    rw [hu]
  · have hec : jsonEscapeChar c = [c] := by
      unfold jsonEscapeChar
      rw [if_neg hq, if_neg hbs, if_neg hn, if_neg hr, if_neg htb, if_neg hbk, if_neg hff,
        if_neg hlt]
    rw [hec, List.singleton_append]
    rw [parseJStringBody]
    try dsimp only
    rw [if_neg hq, if_neg hbs, if_neg hlt]

theorem parseJStringBody_escape :
    ∀ (s : JStr) (rest : JStr) (fuel : Nat), s.length + 1 ≤ fuel →
      parseJStringBody fuel (jsonEscape s ++ '"' :: rest) = some (s, rest) := by
  intro s
  induction s with
  | nil =>
    intro rest fuel hf
    cases fuel with
    | zero => omega
    | succ f =>
      rw [show jsonEscape [] = [] from rfl, List.nil_append]
      rfl
  | cons c s2 ih =>
    intro rest fuel hf
    cases fuel with
    | zero => omega
    | succ f =>
      have hs2 : s2.length + 1 ≤ f := by
        simp only [List.length_cons] at hf
        omega
      rw [show jsonEscape (c :: s2) = jsonEscapeChar c ++ jsonEscape s2 from rfl]
      rw [List.append_assoc, parseJStringBody_escChar, ih rest f hs2]
      rfl

theorem parseDigits_digit {d : Nat} (hd : d < 10) (rest : JStr) :
    parseDigits (digitCh d :: rest) =
      match parseDigits rest with
      | some (v, k, r2) => some (d * 10 ^ k + v, k + 1, r2)
      | none => some (d, 1, rest) := by
  obtain ⟨h0, h9⟩ : ('0' : Char).toNat = 48 ∧ ('9' : Char).toNat = 57 :=
    ⟨rfl, rfl⟩
  have ht := digitCh_toNat hd
  rw [parseDigits]
  rw [if_pos ⟨char_le_iff_toNat.mpr (by omega), char_le_iff_toNat.mpr (by omega)⟩]
  have hval : (digitCh d).toNat - '0'.toNat = d := by omega
  cases hp : parseDigits rest with
  | some t3 =>
    obtain ⟨v, k, r2⟩ := t3
    dsimp only
    rw [hval]
  | none =>
    dsimp only
    rw [hval]

theorem parseDigits_decDigitsAux :
    ∀ (fuel m : Nat), 0 < fuel → m < 10 ^ fuel →
      (∀ v k rest2 rest, parseDigits rest = some (v, k, rest2) →
        parseDigits (decDigitsAux fuel m ++ rest)
          = some (m * 10 ^ k + v, (decDigitsAux fuel m).length + k, rest2)) ∧
      (∀ rest, parseDigits rest = none →
        parseDigits (decDigitsAux fuel m ++ rest)
          = some (m, (decDigitsAux fuel m).length, rest)) := by
  intro fuel
  induction fuel with
  | zero => intro m h0 _; omega
  | succ f ih =>
    intro m _ hm
    by_cases hlt : m < 10
    · constructor
      · intro v k rest2 rest hp
        rw [decDigitsAux, if_pos hlt, List.singleton_append, parseDigits_digit hlt, hp]
        simp [Nat.add_comm]
      · intro rest hp
        rw [decDigitsAux, if_pos hlt, List.singleton_append, parseDigits_digit hlt, hp]
        simp
    · have hf : 0 < f := by
        by_contra hc
        push_neg at hc
        interval_cases f
        simp at hm
        omega
      have hdiv : m / 10 < 10 ^ f := by
        have h1 : m < 10 ^ (f + 1) := hm
        rw [pow_succ] at h1
        omega
      have ihm := ih (m / 10) hf hdiv
      constructor
      · intro v k rest2 rest hp
        rw [decDigitsAux, if_neg hlt, List.append_assoc, List.singleton_append]
        have hinner : parseDigits (digitCh (m % 10) :: rest)
            = some (m % 10 * 10 ^ k + v, k + 1, rest2) := by
          rw [parseDigits_digit (Nat.mod_lt _ (by omega)) rest, hp]
        rw [ihm.1 _ _ _ _ hinner]
        have hval : m / 10 * 10 ^ (k + 1) + (m % 10 * 10 ^ k + v) = m * 10 ^ k + v := by
          conv_rhs => rw [← Nat.div_add_mod m 10]
          ring
        rw [hval]
        simp only [List.length_append, List.length_cons, List.length_nil]
        simp [Nat.add_assoc, Nat.add_comm, Nat.add_left_comm]
      · intro rest hp
        rw [decDigitsAux, if_neg hlt, List.append_assoc, List.singleton_append]
        have hinner : parseDigits (digitCh (m % 10) :: rest)
            = some (m % 10, 1, rest) := by
          rw [parseDigits_digit (Nat.mod_lt _ (by omega)) rest, hp]
        rw [ihm.1 _ _ _ _ hinner]
        have hval : m / 10 * 10 ^ 1 + m % 10 = m := by
          have h2 := Nat.div_add_mod m 10
          simp only [pow_one]
          omega
        rw [hval]
        simp only [List.length_append, List.length_cons, List.length_nil]

theorem decDigitsAux_head :
    ∀ (fuel n : Nat), 0 < fuel → n < 10 ^ fuel →
      ∃ d0 t0, decDigitsAux fuel n = digitCh d0 :: t0 ∧ d0 < 10 ∧ (1 ≤ n → 1 ≤ d0) := by
  intro fuel
  induction fuel with
  | zero => intro n h _; omega
  | succ f ih =>
    intro n _ hn
    by_cases hlt : n < 10
    · exact ⟨n, [], by rw [decDigitsAux, if_pos hlt], hlt, fun h => h⟩
    · have hf : 0 < f := by
        by_contra hc
        push_neg at hc
        interval_cases f
        simp at hn
        omega
      have hdiv : n / 10 < 10 ^ f := by
        rw [pow_succ] at hn
        omega
      obtain ⟨d0, t0, hd, hlt0, hpos⟩ := ih (n / 10) hf hdiv
      refine ⟨d0, t0 ++ [digitCh (n % 10)], ?_, hlt0, fun _ => hpos (by omega)⟩
      rw [decDigitsAux, if_neg hlt, hd]
      simp

theorem parseJNumber_decDigits (i : Nat) (h : Char) (rest : JStr)
    (hh : h = ',' ∨ h = '\x7d') :
    parseJNumber (decDigits i ++ h :: rest) = some (jnumOfNat i, h :: rest) := by
  have hne : ¬('0' ≤ h ∧ h ≤ '9') := by
    rcases hh with h1 | h1 <;> subst h1 <;> decide
  have hnd : h ≠ '.' ∧ ¬(h = 'e' ∨ h = 'E') := by
    rcases hh with h1 | h1 <;> subst h1 <;> exact ⟨by decide, by decide⟩
  have hipow : i < 10 ^ (i + 1) :=
    lt_of_lt_of_le (Nat.lt_pow_self (by norm_num) i)
      (Nat.pow_le_pow_right (by norm_num) (by omega))
  have hpd_none : parseDigits (h :: rest) = none := by
    rw [parseDigits, if_neg hne]
  have hD0 := (parseDigits_decDigitsAux (i + 1) i (by omega) hipow).2 _ hpd_none
  have hD : parseDigits (decDigits i ++ h :: rest)
      = some (i, (decDigits i).length, h :: rest) := hD0
  obtain ⟨d0, t0, hdec0, hd0, hpos⟩ := decDigitsAux_head (i + 1) i (by omega) hipow
  have hdec : decDigits i = digitCh d0 :: t0 := hdec0
  rw [parseJNumber.eq_def]
  split
  rename_i p neg cs1 heq
  have hm : (match decDigits i ++ h :: rest with
      | '-' :: t => (true, t)
      | x => (false, decDigits i ++ h :: rest)) = (false, decDigits i ++ h :: rest) := by
    split
    · rename_i t heq2
      rw [hdec, List.cons_append] at heq2
      exfalso
      have h1 : digitCh d0 = '-' := (List.cons_eq_cons.mp heq2).1
      have h2 := congrArg Char.toNat h1
      rw [digitCh_toNat hd0] at h2
      have h3 : ('-' : Char).toNat = 45 := rfl
      omega
    · rfl
  rw [hm] at heq
  simp only [Prod.mk.injEq] at heq
  obtain ⟨h4, h5⟩ := heq
  subst h4
  subst h5
  split
  · rename_i t heq2
    have hi0 : i = 0 := by
      by_contra hc
      rw [hdec, List.cons_append] at heq2
      have h1 : digitCh d0 = '0' := (List.cons_eq_cons.mp heq2).1
      have h2 := congrArg Char.toNat h1
      rw [digitCh_toNat hd0] at h2
      have h3 : ('0' : Char).toNat = 48 := rfl
      have h6 : 1 ≤ d0 := hpos (by omega)
      omega
    subst hi0
    rw [show decDigits 0 = ['0'] from by decide] at heq2
    have ht : h :: rest = t := (List.cons_eq_cons.mp heq2).2
    subst ht
    split
    · rename_i c3 t3 heq3
      have hc3 : c3 = h := (List.cons_eq_cons.mp heq3).1.symm
      rw [hc3, if_neg hne]
      rw [Option.bind_eq_bind, Option.some_bind]
      try dsimp only
      split
      · rename_i t2 heq4
        exact absurd ((List.cons_eq_cons.mp heq4).1) hnd.1
      · rw [Option.bind_eq_bind, Option.some_bind]
        try dsimp only
        rw [if_neg hnd.2]
        rw [Option.bind_eq_bind, Option.some_bind]
        norm_num [jnumOfNat, jnumCanon]
    · rename_i heq3
      exact absurd heq3 (by simp)
  · rename_i c u hne0 heq2
    have hi1 : 1 ≤ i := by
      by_contra hc
      push_neg at hc
      interval_cases i
      have hc0 : c = '0' := by
        have h7 := heq2
        rw [show decDigits 0 = ['0'] from by decide] at h7
        exact ((List.cons_eq_cons.mp h7).1).symm
      exact hne0 hc0
    have hc : c = digitCh d0 := by
      rw [hdec, List.cons_append] at heq2
      exact ((List.cons_eq_cons.mp heq2).1).symm
    have h6 : 1 ≤ d0 := hpos hi1
    have h19 : '1' ≤ c ∧ c ≤ '9' := by
      constructor
      · show ('1' : Char).toNat ≤ c.toNat
        rw [hc, digitCh_toNat hd0]
        have : ('1' : Char).toNat = 49 := rfl
        omega
      · show c.toNat ≤ ('9' : Char).toNat
        rw [hc, digitCh_toNat hd0]
        have : ('9' : Char).toNat = 57 := rfl
        omega
    rw [if_pos h19, hD]
    try dsimp only
    rw [Option.bind_eq_bind, Option.some_bind]
    try dsimp only
    split
    · rename_i t2 heq4
      exact absurd ((List.cons_eq_cons.mp heq4).1) hnd.1
    · rw [Option.bind_eq_bind, Option.some_bind]
      try dsimp only
      rw [if_neg hnd.2]
      rw [Option.bind_eq_bind, Option.some_bind]
      norm_num [jnumOfNat, jnumCanon]
  · rename_i heq2
    rw [hdec, List.cons_append] at heq2
    exact absurd heq2 (by simp)

theorem jsonEscape_length_ge (s : JStr) : s.length ≤ (jsonEscape s).length := by
  induction s with
  | nil => simp [jsonEscape]
  | cons c t ih =>
    have hc : 1 ≤ (jsonEscapeChar c).length := by
      unfold jsonEscapeChar
      repeat' split
      all_goals simp
    have : jsonEscape (c :: t) = jsonEscapeChar c ++ jsonEscape t := rfl
    rw [this, List.length_append, List.length_cons]
    omega

theorem parseJValue_jq (s rest : JStr) (f : Nat) :
    parseJValue (f + 1) (jq s ++ rest) = some (JsonVal.str s, rest) := by
  have hshape : jq s ++ rest = '"' :: (jsonEscape s ++ '"' :: rest) := by
    simp [jq]
  rw [hshape, parseJValue]
  try dsimp only
  rw [show List.dropWhile jsonWS ('"' :: (jsonEscape s ++ '"' :: rest))
      = '"' :: (jsonEscape s ++ '"' :: rest) from by rw [List.dropWhile_cons_of_neg (by decide)]]
  try dsimp only
  rw [if_pos (rfl : ('"' : Char) = '"')]
  rw [parseJStringBody_escape _ rest _
    (by have := jsonEscape_length_ge s; simp only [List.length_append, List.length_cons]; omega)]
  rfl

theorem digitCh_ne_of_toNat {n : Nat} (hn : n < 10) {c : Char}
    (hc : c.toNat < 48 ∨ 57 < c.toNat) : digitCh n ≠ c := by
  intro h
  rw [char_eq_iff_toNat, digitCh_toNat hn] at h
  omega

theorem digitCh_not_jsonWS {n : Nat} (hn : n < 10) : jsonWS (digitCh n) = false := by
  have h1 := digitCh_ne_of_toNat hn (c := ' ') (by decide)
  have h2 := digitCh_ne_of_toNat hn (c := '\t') (by decide)
  have h3 := digitCh_ne_of_toNat hn (c := '\n') (by decide)
  have h4 := digitCh_ne_of_toNat hn (c := '\r') (by decide)
  unfold jsonWS
  simp [h1, h2, h3, h4]

theorem parseJValue_decDigits (i : Nat) (h : Char) (rest : JStr) (f : Nat)
    (hh : h = ',' ∨ h = '\x7d') :
    parseJValue (f + 1) (decDigits i ++ h :: rest) =
      some (JsonVal.num (jnumOfNat i), h :: rest) := by
  have hipow : i < 10 ^ (i + 1) :=
    lt_of_lt_of_le (Nat.lt_pow_self (by norm_num) i)
      (Nat.pow_le_pow_right (by norm_num) (by omega))
  obtain ⟨d0, t0, hdec0, hd0, hpos⟩ := decDigitsAux_head (i + 1) i (by omega) hipow
  have hdec : decDigits i = digitCh d0 :: t0 := hdec0
  have htoNat := digitCh_toNat hd0
  have hshape : decDigits i ++ h :: rest = digitCh d0 :: (t0 ++ h :: rest) := by
    rw [hdec, List.cons_append]
  rw [parseJValue]
  try dsimp only
  rw [hshape]
  rw [List.dropWhile_cons_of_neg (by rw [digitCh_not_jsonWS hd0]; exact Bool.false_ne_true)]
  try dsimp only
  rw [if_neg (digitCh_ne_of_toNat hd0 (by decide))]
  rw [if_neg (digitCh_ne_of_toNat hd0 (by decide))]
  rw [if_neg (digitCh_ne_of_toNat hd0 (by decide))]
  rw [if_neg (by
    show ¬(startsWithL (digitCh d0 :: (t0 ++ h :: rest)) (jstr "true") = true)
    rw [show jstr "true" = 't' :: jstr "rue" from rfl]
    unfold startsWithL
    simp only [Bool.and_eq_true, decide_eq_true_eq]
    intro hx
    exact absurd hx.1.symm (digitCh_ne_of_toNat hd0 (by decide)))]
  rw [if_neg (by
    show ¬(startsWithL (digitCh d0 :: (t0 ++ h :: rest)) (jstr "false") = true)
    rw [show jstr "false" = 'f' :: jstr "alse" from rfl]
    unfold startsWithL
    simp only [Bool.and_eq_true, decide_eq_true_eq]
    intro hx
    exact absurd hx.1.symm (digitCh_ne_of_toNat hd0 (by decide)))]
  rw [if_neg (by
    show ¬(startsWithL (digitCh d0 :: (t0 ++ h :: rest)) (jstr "null") = true)
    rw [show jstr "null" = 'n' :: jstr "ull" from rfl]
    unfold startsWithL
    simp only [Bool.and_eq_true, decide_eq_true_eq]
    intro hx
    exact absurd hx.1.symm (digitCh_ne_of_toNat hd0 (by decide)))]
  rw [show digitCh d0 :: (t0 ++ h :: rest) = decDigits i ++ h :: rest from hshape.symm]
  rw [parseJNumber_decDigits i h rest hh]
  rfl

theorem parseJMembers_last (key rest : JStr) (val : JsonVal) (vtext : JStr) (f : Nat)
    (hv : parseJValue f (vtext ++ '\x7d' :: rest) = some (val, '\x7d' :: rest)) :
    parseJMembers (f + 1) (jq key ++ ':' :: (vtext ++ '\x7d' :: rest)) =
      some ([(key, val)], rest) := by
  have hshape : jq key ++ ':' :: (vtext ++ '\x7d' :: rest)
      = '"' :: (jsonEscape key ++ '"' :: (':' :: (vtext ++ '\x7d' :: rest))) := by
    simp [jq]
  rw [parseJMembers]
  try dsimp only
  rw [hshape]
  rw [List.dropWhile_cons_of_neg (by decide)]
  split
  · rename_i t heq
    have ht : jsonEscape key ++ '"' :: (':' :: (vtext ++ '\x7d' :: rest)) = t :=
      (List.cons_eq_cons.mp heq).2
    subst ht
    rw [parseJStringBody_escape _ _ _
      (by have := jsonEscape_length_ge key
          simp only [List.length_append, List.length_cons]; omega)]
    try dsimp only
    rw [List.dropWhile_cons_of_neg (by decide)]
    split
    · rename_i rest3 heq2
      have h3 : vtext ++ '\x7d' :: rest = rest3 := (List.cons_eq_cons.mp heq2).2
      subst h3
      rw [hv]
      try dsimp only
      rw [List.dropWhile_cons_of_neg (by decide)]
      split
      · rename_i rest6 heq3
        exact absurd (List.cons_eq_cons.mp heq3).1 (by decide)
      · rename_i rest6 heq3
        have h6 : rest = rest6 := (List.cons_eq_cons.mp heq3).2
        subst h6
        rfl
      · rename_i hn1 hn2
        exact (hn2 rest rfl).elim
    · rename_i hn
      exact (hn (vtext ++ '\x7d' :: rest) rfl).elim
  · rename_i hn
    exact (hn (jsonEscape key ++ '"' :: (':' :: (vtext ++ '\x7d' :: rest))) rfl).elim

theorem parseJMembers_cons (key more rest : JStr) (val : JsonVal) (vtext : JStr)
    (fields : List (JStr × JsonVal)) (f : Nat)
    (hv : parseJValue f (vtext ++ ',' :: more) = some (val, ',' :: more))
    (hm : parseJMembers f more = some (fields, rest)) :
    parseJMembers (f + 1) (jq key ++ ':' :: (vtext ++ ',' :: more)) =
      some ((key, val) :: fields, rest) := by
  have hshape : jq key ++ ':' :: (vtext ++ ',' :: more)
      = '"' :: (jsonEscape key ++ '"' :: (':' :: (vtext ++ ',' :: more))) := by
    simp [jq]
  rw [parseJMembers]
  try dsimp only
  rw [hshape]
  rw [List.dropWhile_cons_of_neg (by decide)]
  split
  · rename_i t heq
    have ht : jsonEscape key ++ '"' :: (':' :: (vtext ++ ',' :: more)) = t :=
      (List.cons_eq_cons.mp heq).2
    subst ht
    rw [parseJStringBody_escape _ _ _
      (by have := jsonEscape_length_ge key
          simp only [List.length_append, List.length_cons]; omega)]
    try dsimp only
    rw [List.dropWhile_cons_of_neg (by decide)]
    split
    · rename_i rest3 heq2
      have h3 : vtext ++ ',' :: more = rest3 := (List.cons_eq_cons.mp heq2).2
      subst h3
      rw [hv]
      try dsimp only
      rw [List.dropWhile_cons_of_neg (by decide)]
      split
      · rename_i rest6 heq3
        have h6 : more = rest6 := (List.cons_eq_cons.mp heq3).2
        subst h6
        rw [hm]
      · rename_i rest6 heq3
        exact absurd (List.cons_eq_cons.mp heq3).1 (by decide)
      · rename_i hn1 hn2
        exact (hn1 more rfl).elim
    · rename_i hn
      exact (hn (vtext ++ ',' :: more) rfl).elim
  · rename_i hn
    exact (hn (jsonEscape key ++ '"' :: (':' :: (vtext ++ ',' :: more))) rfl).elim

theorem parseJValue_obj (t rest : JStr) (fields : List (JStr × JsonVal)) (f : Nat)
    (ht : ∃ t2, t = '"' :: t2)
    (hm : parseJMembers f t = some (fields, rest)) :
    parseJValue (f + 1) ('\x7b' :: t) = some (JsonVal.obj fields, rest) := by
  obtain ⟨t2, rfl⟩ := ht
  rw [parseJValue]
  try dsimp only
  rw [List.dropWhile_cons_of_neg (by decide)]
  try dsimp only
  rw [if_neg (by decide : ¬(('\x7b' : Char) = '"')), if_pos (rfl : ('\x7b' : Char) = '\x7b')]
  rw [List.dropWhile_cons_of_neg (by decide)]
  split
  · rename_i r2 heq
    exact absurd (List.cons_eq_cons.mp heq).1 (by decide)
  · rw [hm]

theorem jsonParse_objShape (t : JStr) (fields : List (JStr × JsonVal))
    (ht : ∃ t2, t = '"' :: t2)
    (hm : parseJMembers (t.length + 1) t = some (fields, [])) :
    jsonParse ('\x7b' :: t) = some (JsonVal.obj fields) := by
  rw [jsonParse]
  have hlen : ('\x7b' :: t).length + 1 = (t.length + 1) + 1 := by simp
  rw [hlen, parseJValue_obj t [] fields (t.length + 1) ht hm]
  rfl

theorem jq_append_cons (s r : JStr) : ∃ t2, jq s ++ r = '"' :: t2 :=
  ⟨jsonEscape s ++ '"' :: r, by simp [jq]⟩

theorem jsonParse_renderSetupJson (bp : JStr) :
    jsonParse (renderSetupJson bp) =
      some (JsonVal.obj [(jstr "basePath", JsonVal.str bp)]) := by
  have hshape : renderSetupJson bp
      = '\x7b' :: (jq (jstr "basePath") ++ ':' :: (jq bp ++ '\x7d' :: ([] : JStr))) := by
    simp [renderSetupJson, jLB, jRB]
  rw [hshape]
  apply jsonParse_objShape
  · exact jq_append_cons _ _
  · have hk : ∃ k, (jq (jstr "basePath") ++ ':' :: (jq bp ++ '\x7d' :: ([] : JStr))).length + 1
        = k + 2 := by
      refine ⟨(jq (jstr "basePath") ++ ':' :: (jq bp ++ '\x7d' :: ([] : JStr))).length - 1, ?_⟩
      simp [jq, List.length_append]
    obtain ⟨k, hk⟩ := hk
    rw [hk]
    exact parseJMembers_last _ _ _ _ (k + 1) (parseJValue_jq bp ('\x7d' :: []) k)

theorem jsonParse_renderExistingJson (p : JStr) (i : Nat) (hsh : JStr) :
    jsonParse (renderExistingJson p i hsh) =
      some (JsonVal.obj [(jstr "path", JsonVal.str p), (jstr "idx", JsonVal.num (jnumOfNat i)),
        (jstr "hash", JsonVal.str hsh)]) := by
  have hshape : renderExistingJson p i hsh
      = '\x7b' :: (jq (jstr "path") ++ ':' :: (jq p ++ ',' ::
          (jq (jstr "idx") ++ ':' :: (decDigits i ++ ',' ::
            (jq (jstr "hash") ++ ':' :: (jq hsh ++ '\x7d' :: ([] : JStr))))))) := by
    simp [renderExistingJson, jLB, jRB]
  rw [hshape]
  apply jsonParse_objShape
  · exact jq_append_cons _ _
  · have hk : ∃ k, (jq (jstr "path") ++ ':' :: (jq p ++ ',' ::
          (jq (jstr "idx") ++ ':' :: (decDigits i ++ ',' ::
            (jq (jstr "hash") ++ ':' :: (jq hsh ++ '\x7d' :: ([] : JStr))))))).length + 1
        = k + 4 := by
      refine ⟨(jq (jstr "path") ++ ':' :: (jq p ++ ',' ::
          (jq (jstr "idx") ++ ':' :: (decDigits i ++ ',' ::
            (jq (jstr "hash") ++ ':' :: (jq hsh ++ '\x7d' :: ([] : JStr))))))).length - 3, ?_⟩
      simp [jq, List.length_append]
      omega
    obtain ⟨k, hk⟩ := hk
    rw [hk]
    exact parseJMembers_cons _ _ _ _ _ _ (k + 3) (parseJValue_jq p _ (k + 2))
      (parseJMembers_cons _ _ _ _ _ _ (k + 2)
        (parseJValue_decDigits i ',' _ (k + 1) (Or.inl rfl))
        (parseJMembers_last _ _ _ _ (k + 1) (parseJValue_jq hsh _ k)))

theorem jsonParse_renderFileJson_none (p : JStr) (i : Nat) :
    jsonParse (renderFileJson p i none) =
      some (JsonVal.obj [(jstr "path", JsonVal.str p),
        (jstr "idx", JsonVal.num (jnumOfNat i))]) := by
  have hshape : renderFileJson p i none
      = '\x7b' :: (jq (jstr "path") ++ ':' :: (jq p ++ ',' ::
          (jq (jstr "idx") ++ ':' :: (decDigits i ++ '\x7d' :: ([] : JStr))))) := by
    simp [renderFileJson, jLB, jRB]
  rw [hshape]
  apply jsonParse_objShape
  · exact jq_append_cons _ _
  · have hk : ∃ k, (jq (jstr "path") ++ ':' :: (jq p ++ ',' ::
          (jq (jstr "idx") ++ ':' :: (decDigits i ++ '\x7d' :: ([] : JStr))))).length + 1
        = k + 3 := by
      refine ⟨(jq (jstr "path") ++ ':' :: (jq p ++ ',' ::
          (jq (jstr "idx") ++ ':' :: (decDigits i ++ '\x7d' :: ([] : JStr))))).length - 2, ?_⟩
      simp [jq, List.length_append]
      omega
    obtain ⟨k, hk⟩ := hk
    rw [hk]
    exact parseJMembers_cons _ _ _ _ _ _ (k + 2) (parseJValue_jq p _ (k + 1))
      (parseJMembers_last _ _ _ _ (k + 1)
        (parseJValue_decDigits i '\x7d' _ k (Or.inr rfl)))

theorem jsonParse_renderFileJson_some (p : JStr) (i : Nat) (e : JStr) :
    jsonParse (renderFileJson p i (some e)) =
      some (JsonVal.obj [(jstr "path", JsonVal.str p),
        (jstr "idx", JsonVal.num (jnumOfNat i)), (jstr "eol", JsonVal.str e)]) := by
  have hshape : renderFileJson p i (some e)
      = '\x7b' :: (jq (jstr "path") ++ ':' :: (jq p ++ ',' ::
          (jq (jstr "idx") ++ ':' :: (decDigits i ++ ',' ::
            (jq (jstr "eol") ++ ':' :: (jq e ++ '\x7d' :: ([] : JStr))))))) := by
    simp [renderFileJson, jLB, jRB]
  rw [hshape]
  apply jsonParse_objShape
  · exact jq_append_cons _ _
  · have hk : ∃ k, (jq (jstr "path") ++ ':' :: (jq p ++ ',' ::
          (jq (jstr "idx") ++ ':' :: (decDigits i ++ ',' ::
            (jq (jstr "eol") ++ ':' :: (jq e ++ '\x7d' :: ([] : JStr))))))).length + 1
        = k + 4 := by
      refine ⟨(jq (jstr "path") ++ ':' :: (jq p ++ ',' ::
          (jq (jstr "idx") ++ ':' :: (decDigits i ++ ',' ::
            (jq (jstr "eol") ++ ':' :: (jq e ++ '\x7d' :: ([] : JStr))))))).length - 3, ?_⟩
      simp [jq, List.length_append]
      omega
    obtain ⟨k, hk⟩ := hk
    rw [hk]
    exact parseJMembers_cons _ _ _ _ _ _ (k + 3) (parseJValue_jq p _ (k + 2))
      (parseJMembers_cons _ _ _ _ _ _ (k + 2)
        (parseJValue_decDigits i ',' _ (k + 1) (Or.inl rfl))
        (parseJMembers_last _ _ _ _ (k + 1) (parseJValue_jq e _ k)))

theorem merchTail_rbrack (Y : JStr) :
    merchTail (Y ++ ['\x7d']) = some (false, Y.length + 1) := by
  simp +decide [merchTail, List.reverse_append]

theorem merchTail_rbrack_colon (Y : JStr) :
    merchTail (Y ++ ['\x7d', ':']) = some (true, Y.length + 1) := by
  simp +decide [merchTail, List.reverse_append]

theorem findMerchCmd_step (c : Char) (t : JStr) (i jEnd : Nat)
    (hc : startsWithL (c :: t) merchMarker = false) :
    findMerchCmd (c :: t) i jEnd = findMerchCmd t (i + 1) jEnd := by
  rw [findMerchCmd]
  rw [hc]
  simp

theorem findMerchCmd_found (t : JStr) (i jEnd : Nat) (cmd : JStr) (rel : Nat)
    (hm : merchAfterMarker t = some (cmd, rel))
    (hle : i + 8 + rel + 2 ≤ jEnd) :
    findMerchCmd (merchMarker ++ t) i jEnd = some (cmd, i + 8 + rel) := by
  have hcons : merchMarker ++ t = ' ' :: (jstr "merch::" ++ t) := by
    simp [merchMarker, jstr]
  rw [hcons, findMerchCmd]
  rw [show ' ' :: (jstr "merch::" ++ t) = merchMarker ++ t from hcons.symm]
  rw [startsWithL_append_self]
  rw [show (merchMarker ++ t).drop merchMarker.length = t from List.drop_left _ _]
  rw [hm]
  try dsimp only
  rw [show merchMarker.length = 8 from rfl]
  rw [if_pos hle]
  simp

theorem takeWhile_cmd_concat (pre : JStr) (R : JStr)
    (hpre : ∀ c ∈ pre, isCmdChar c = true) :
    (pre ++ ':' :: R).takeWhile isCmdChar = pre := by
  induction pre with
  | nil =>
    simp only [List.nil_append]
    rw [List.takeWhile_cons_of_neg (by decide)]
  | cons c t ih =>
    rw [List.cons_append, List.takeWhile_cons_of_pos (hpre c (by simp))]
    rw [ih (fun x hx => hpre x (by simp [hx]))]

theorem merchAfterMarker_shape (pre X : JStr)
    (hne : pre ≠ [])
    (hpre : ∀ c ∈ pre, isCmdChar c = true) :
    merchAfterMarker (pre ++ ':' :: (' ' :: '\x7b' :: X)) = some (pre, pre.length + 2) := by
  unfold merchAfterMarker
  rw [takeWhile_cmd_concat pre _ hpre]
  rw [if_neg hne]
  rw [List.drop_left]
  split
  · rename_i rest heq
    have hr : ' ' :: '\x7b' :: X = rest := (List.cons_eq_cons.mp heq).2
    subst hr
    rw [show List.takeWhile jsWS (' ' :: '\x7b' :: X) = [' '] from by
      rw [List.takeWhile_cons_of_pos (by decide), List.takeWhile_cons_of_neg (by decide)]]
    try dsimp only
    try rw [show List.drop [' '].length (' ' :: '\x7b' :: X) = '\x7b' :: X from rfl]
    split
    · rename_i tail heq2
      simp
    · rename_i hn
      exact (hn X rfl).elim
  · rename_i hn
    exact (hn (' ' :: '\x7b' :: X) rfl).elim

theorem tryParseMerchLine_header (CMD J z : JStr) (v : JsonVal)
    (hz : z = [] ∨ z = [':'])
    (hne : CMD ≠ []) (hch : ∀ c ∈ CMD, isCmdChar c = true)
    (hjson : jsonParse ('\x7b' :: (J ++ ['\x7d'])) = some v) :
    tryParseMerchLine
        ((jstr "//" ++ merchMarker ++ CMD ++ [':', ' ']) ++ ('\x7b' :: (J ++ ['\x7d'])) ++ z)
      = some ⟨CMD, v, decide (z = [':'])⟩ := by
  have hx : (jstr "//" ++ merchMarker ++ CMD ++ [':', ' ']).length = CMD.length + 12 := by
    simp [jstr, merchMarker]
    try omega
  have hfind : findMerchCmd
      ((jstr "//" ++ merchMarker ++ CMD ++ [':', ' ']) ++ ('\x7b' :: (J ++ ['\x7d'])) ++ z) 0
      (CMD.length + 12 + (J.length + 2))
      = some (CMD, 2 + 8 + (CMD.length + 2)) := by
    have hshape : (jstr "//" ++ merchMarker ++ CMD ++ [':', ' ']) ++ ('\x7b' :: (J ++ ['\x7d'])) ++ z
        = '/' :: ('/' :: (merchMarker ++ (CMD ++ ':' :: (' ' :: '\x7b' :: (J ++ '\x7d' :: z))))) := by
      simp [jstr, merchMarker]
    rw [hshape]
    rw [findMerchCmd_step _ _ _ _ (by simp +decide [startsWithL, merchMarker, jstr])]
    rw [findMerchCmd_step _ _ _ _ (by simp +decide [startsWithL, merchMarker, jstr])]
    rw [findMerchCmd_found _ _ _ _ _ (merchAfterMarker_shape CMD _ hne hch) (by omega)]
  unfold tryParseMerchLine
  rcases hz with rfl | rfl
  · have htail : ((jstr "//" ++ merchMarker ++ CMD ++ [':', ' ']) ++ ('\x7b' :: (J ++ ['\x7d'])) ++ [])
        = ((jstr "//" ++ merchMarker ++ CMD ++ [':', ' ']) ++ '\x7b' :: J) ++ ['\x7d'] := by
      simp
    rw [htail, merchTail_rbrack]
    try dsimp only
    rw [show ((jstr "//" ++ merchMarker ++ CMD ++ [':', ' ']) ++ '\x7b' :: J) ++ ['\x7d']
        = (jstr "//" ++ merchMarker ++ CMD ++ [':', ' ']) ++ ('\x7b' :: (J ++ ['\x7d'])) ++ [] from by simp]
    rw [show ((jstr "//" ++ merchMarker ++ CMD ++ [':', ' ']) ++ '\x7b' :: J).length + 1
        = CMD.length + 12 + (J.length + 2) from by
      simp only [List.length_append, List.length_cons, hx]
      omega]
    rw [hfind]
    try dsimp only
    rw [show 2 + 8 + (CMD.length + 2)
        = (jstr "//" ++ merchMarker ++ CMD ++ [':', ' ']).length from by rw [hx]; omega]
    rw [show CMD.length + 12 + (J.length + 2)
        = (jstr "//" ++ merchMarker ++ CMD ++ [':', ' ']).length + ('\x7b' :: (J ++ ['\x7d'])).length
        from by rw [hx]; simp; try omega]
    rw [substrJS_extract]
    rw [hjson]
    rfl
  · have htail : ((jstr "//" ++ merchMarker ++ CMD ++ [':', ' ']) ++ ('\x7b' :: (J ++ ['\x7d'])) ++ [':'])
        = ((jstr "//" ++ merchMarker ++ CMD ++ [':', ' ']) ++ '\x7b' :: J) ++ ['\x7d', ':'] := by
      simp
    rw [htail, merchTail_rbrack_colon]
    try dsimp only
    rw [show ((jstr "//" ++ merchMarker ++ CMD ++ [':', ' ']) ++ '\x7b' :: J) ++ ['\x7d', ':']
        = (jstr "//" ++ merchMarker ++ CMD ++ [':', ' ']) ++ ('\x7b' :: (J ++ ['\x7d'])) ++ [':'] from by simp]
    rw [show ((jstr "//" ++ merchMarker ++ CMD ++ [':', ' ']) ++ '\x7b' :: J).length + 1
        = CMD.length + 12 + (J.length + 2) from by
      simp only [List.length_append, List.length_cons, hx]
      omega]
    rw [hfind]
    try dsimp only
    rw [show 2 + 8 + (CMD.length + 2)
        = (jstr "//" ++ merchMarker ++ CMD ++ [':', ' ']).length from by rw [hx]; omega]
    rw [show CMD.length + 12 + (J.length + 2)
        = (jstr "//" ++ merchMarker ++ CMD ++ [':', ' ']).length + ('\x7b' :: (J ++ ['\x7d'])).length
        from by rw [hx]; simp; try omega]
    rw [substrJS_extract]
    rw [hjson]
    rfl

theorem tryParseMerchLine_setup (base : JStr) :
    tryParseMerchLine (setupLineOf base) =
      some ⟨jstr "setup", JsonVal.obj [(jstr "basePath", JsonVal.str base)], false⟩ := by
  have hshape : setupLineOf base
      = (jstr "//" ++ merchMarker ++ jstr "setup" ++ [':', ' ']) ++
          ('\x7b' :: ((jq (jstr "basePath") ++ ':' :: jq base) ++ ['\x7d'])) ++ ([] : JStr) := by
    simp [setupLineOf, stdFormatter, LineFormatter.format, renderSetupJson, jLB, jRB, jstr,
      merchMarker]
  have hj : jsonParse ('\x7b' :: ((jq (jstr "basePath") ++ ':' :: jq base) ++ ['\x7d']))
      = some (JsonVal.obj [(jstr "basePath", JsonVal.str base)]) := by
    have h2 := jsonParse_renderSetupJson base
    have h3 : renderSetupJson base
        = '\x7b' :: ((jq (jstr "basePath") ++ ':' :: jq base) ++ ['\x7d']) := by
      simp [renderSetupJson, jLB, jRB]
    rw [h3] at h2
    exact h2
  rw [hshape]
  rw [tryParseMerchLine_header _ _ _ _ (Or.inl rfl) (by decide) (by decide) hj]
  rfl

theorem tryParseMerchLine_manifest (sp : FileSpec) :
    tryParseMerchLine (manifestLineOf sp) =
      some ⟨jstr "existing-file",
        JsonVal.obj [(jstr "path", JsonVal.str sp.path),
          (jstr "idx", JsonVal.num (jnumOfNat sp.idx)),
          (jstr "hash", JsonVal.str sp.hash)], false⟩ := by
  have hshape : manifestLineOf sp
      = (jstr "//" ++ merchMarker ++ jstr "existing-file" ++ [':', ' ']) ++
          ('\x7b' :: ((jq (jstr "path") ++ ':' :: (jq sp.path ++ ',' ::
            (jq (jstr "idx") ++ ':' :: (decDigits sp.idx ++ ',' ::
              (jq (jstr "hash") ++ ':' :: jq sp.hash))))) ++ ['\x7d'])) ++ ([] : JStr) := by
    simp [manifestLineOf, stdFormatter, LineFormatter.format, renderExistingJson, jLB, jRB, jstr,
      merchMarker]
  have hj : jsonParse ('\x7b' :: ((jq (jstr "path") ++ ':' :: (jq sp.path ++ ',' ::
        (jq (jstr "idx") ++ ':' :: (decDigits sp.idx ++ ',' ::
          (jq (jstr "hash") ++ ':' :: jq sp.hash))))) ++ ['\x7d']))
      = some (JsonVal.obj [(jstr "path", JsonVal.str sp.path),
          (jstr "idx", JsonVal.num (jnumOfNat sp.idx)),
          (jstr "hash", JsonVal.str sp.hash)]) := by
    have h2 := jsonParse_renderExistingJson sp.path sp.idx sp.hash
    have h3 : renderExistingJson sp.path sp.idx sp.hash
        = '\x7b' :: ((jq (jstr "path") ++ ':' :: (jq sp.path ++ ',' ::
            (jq (jstr "idx") ++ ':' :: (decDigits sp.idx ++ ',' ::
              (jq (jstr "hash") ++ ':' :: jq sp.hash))))) ++ ['\x7d']) := by
      simp [renderExistingJson, jLB, jRB]
    rw [h3] at h2
    exact h2
  rw [hshape]
  rw [tryParseMerchLine_header _ _ _ _ (Or.inl rfl) (by decide) (by decide) hj]
  rfl

theorem tryParseMerchLine_file (sp : FileSpec) :
    tryParseMerchLine (fileHeaderOf sp) =
      some ⟨jstr "file",
        JsonVal.obj ([(jstr "path", JsonVal.str sp.path),
          (jstr "idx", JsonVal.num (jnumOfNat sp.idx))] ++
          (match sp.eol with
           | some e => [(jstr "eol", JsonVal.str e)]
           | none => [])),
        (match sp.content with | some _ => true | none => false)⟩ := by
  rcases hc : sp.content with _ | c <;> rcases he : sp.eol with _ | e
  · have hshape : fileHeaderOf sp
        = (jstr "//" ++ merchMarker ++ jstr "file" ++ [':', ' ']) ++
            ('\x7b' :: ((jq (jstr "path") ++ ':' :: (jq sp.path ++ ',' ::
              (jq (jstr "idx") ++ ':' :: decDigits sp.idx))) ++ ['\x7d'])) ++ ([] : JStr) := by
      simp [fileHeaderOf, stdFormatter, LineFormatter.format, renderFileJson, jLB, jRB, jstr,
        merchMarker, hc, he]
    have hj : jsonParse ('\x7b' :: ((jq (jstr "path") ++ ':' :: (jq sp.path ++ ',' ::
          (jq (jstr "idx") ++ ':' :: decDigits sp.idx))) ++ ['\x7d']))
        = some (JsonVal.obj [(jstr "path", JsonVal.str sp.path),
            (jstr "idx", JsonVal.num (jnumOfNat sp.idx))]) := by
      have h2 := jsonParse_renderFileJson_none sp.path sp.idx
      have h3 : renderFileJson sp.path sp.idx none
          = '\x7b' :: ((jq (jstr "path") ++ ':' :: (jq sp.path ++ ',' ::
              (jq (jstr "idx") ++ ':' :: decDigits sp.idx))) ++ ['\x7d']) := by
        simp [renderFileJson, jLB, jRB]
      rw [h3] at h2
      exact h2
    rw [hshape]
    rw [tryParseMerchLine_header _ _ _ _ (Or.inl rfl) (by decide) (by decide) hj]
    simp [hc, he]
  · have hshape : fileHeaderOf sp
        = (jstr "//" ++ merchMarker ++ jstr "file" ++ [':', ' ']) ++
            ('\x7b' :: ((jq (jstr "path") ++ ':' :: (jq sp.path ++ ',' ::
              (jq (jstr "idx") ++ ':' :: (decDigits sp.idx ++ ',' ::
                (jq (jstr "eol") ++ ':' :: jq e))))) ++ ['\x7d'])) ++ ([] : JStr) := by
      simp [fileHeaderOf, stdFormatter, LineFormatter.format, renderFileJson, jLB, jRB, jstr,
        merchMarker, hc, he]
    have hj : jsonParse ('\x7b' :: ((jq (jstr "path") ++ ':' :: (jq sp.path ++ ',' ::
          (jq (jstr "idx") ++ ':' :: (decDigits sp.idx ++ ',' ::
            (jq (jstr "eol") ++ ':' :: jq e))))) ++ ['\x7d']))
        = some (JsonVal.obj [(jstr "path", JsonVal.str sp.path),
            (jstr "idx", JsonVal.num (jnumOfNat sp.idx)),
            (jstr "eol", JsonVal.str e)]) := by
      have h2 := jsonParse_renderFileJson_some sp.path sp.idx e
      have h3 : renderFileJson sp.path sp.idx (some e)
          = '\x7b' :: ((jq (jstr "path") ++ ':' :: (jq sp.path ++ ',' ::
              (jq (jstr "idx") ++ ':' :: (decDigits sp.idx ++ ',' ::
                (jq (jstr "eol") ++ ':' :: jq e))))) ++ ['\x7d']) := by
        simp [renderFileJson, jLB, jRB]
      rw [h3] at h2
      exact h2
    rw [hshape]
    rw [tryParseMerchLine_header _ _ _ _ (Or.inl rfl) (by decide) (by decide) hj]
    simp [hc, he]
  · have hshape : fileHeaderOf sp
        = (jstr "//" ++ merchMarker ++ jstr "file" ++ [':', ' ']) ++
            ('\x7b' :: ((jq (jstr "path") ++ ':' :: (jq sp.path ++ ',' ::
              (jq (jstr "idx") ++ ':' :: decDigits sp.idx))) ++ ['\x7d'])) ++ [':'] := by
      simp [fileHeaderOf, stdFormatter, LineFormatter.format, renderFileJson, jLB, jRB, jstr,
        merchMarker, hc, he]
    have hj : jsonParse ('\x7b' :: ((jq (jstr "path") ++ ':' :: (jq sp.path ++ ',' ::
          (jq (jstr "idx") ++ ':' :: decDigits sp.idx))) ++ ['\x7d']))
        = some (JsonVal.obj [(jstr "path", JsonVal.str sp.path),
            (jstr "idx", JsonVal.num (jnumOfNat sp.idx))]) := by
      have h2 := jsonParse_renderFileJson_none sp.path sp.idx
      have h3 : renderFileJson sp.path sp.idx none
          = '\x7b' :: ((jq (jstr "path") ++ ':' :: (jq sp.path ++ ',' ::
              (jq (jstr "idx") ++ ':' :: decDigits sp.idx))) ++ ['\x7d']) := by
        simp [renderFileJson, jLB, jRB]
      rw [h3] at h2
      exact h2
    rw [hshape]
    rw [tryParseMerchLine_header _ _ _ _ (Or.inr rfl) (by decide) (by decide) hj]
    simp [hc, he]
  · have hshape : fileHeaderOf sp
        = (jstr "//" ++ merchMarker ++ jstr "file" ++ [':', ' ']) ++
            ('\x7b' :: ((jq (jstr "path") ++ ':' :: (jq sp.path ++ ',' ::
              (jq (jstr "idx") ++ ':' :: (decDigits sp.idx ++ ',' ::
                (jq (jstr "eol") ++ ':' :: jq e))))) ++ ['\x7d'])) ++ [':'] := by
      simp [fileHeaderOf, stdFormatter, LineFormatter.format, renderFileJson, jLB, jRB, jstr,
        merchMarker, hc, he]
    have hj : jsonParse ('\x7b' :: ((jq (jstr "path") ++ ':' :: (jq sp.path ++ ',' ::
          (jq (jstr "idx") ++ ':' :: (decDigits sp.idx ++ ',' ::
            (jq (jstr "eol") ++ ':' :: jq e))))) ++ ['\x7d']))
        = some (JsonVal.obj [(jstr "path", JsonVal.str sp.path),
            (jstr "idx", JsonVal.num (jnumOfNat sp.idx)),
            (jstr "eol", JsonVal.str e)]) := by
      have h2 := jsonParse_renderFileJson_some sp.path sp.idx e
      have h3 : renderFileJson sp.path sp.idx (some e)
          = '\x7b' :: ((jq (jstr "path") ++ ':' :: (jq sp.path ++ ',' ::
              (jq (jstr "idx") ++ ':' :: (decDigits sp.idx ++ ',' ::
                (jq (jstr "eol") ++ ':' :: jq e))))) ++ ['\x7d']) := by
        simp [renderFileJson, jLB, jRB]
      rw [h3] at h2
      exact h2
    rw [hshape]
    rw [tryParseMerchLine_header _ _ _ _ (Or.inr rfl) (by decide) (by decide) hj]
    simp [hc, he]

theorem jnumOfNat_inj {a b : Nat} (h : jnumOfNat a = jnumOfNat b) : a = b := by
  have h2 : (a : Int) = (b : Int) := congrArg JNum.mant h
  exact_mod_cast h2

theorem jmGet_append_left {α β : Type} [DecidableEq α] :
    ∀ (m1 m2 : JMap α β) (k : α), jmGet m1 k = none → jmGet (m1 ++ m2) k = jmGet m2 k := by
  intro m1
  induction m1 with
  | nil => intro m2 k _; rfl
  | cons p t ih =>
    intro m2 k h
    obtain ⟨k1, v1⟩ := p
    rw [jmGet] at h
    by_cases he : k1 = k
    · rw [if_pos he] at h; exact absurd h (by simp)
    · rw [if_neg he] at h
      rw [List.cons_append, jmGet, if_neg he]
      exact ih m2 k h

theorem jmSet_fresh {α β : Type} [DecidableEq α] :
    ∀ (m : JMap α β) (k : α) (v : β), jmGet m k = none → jmSet m k v = m ++ [(k, v)] := by
  intro m
  induction m with
  | nil => intro k v _; rfl
  | cons p t ih =>
    intro k v h
    obtain ⟨k1, v1⟩ := p
    rw [jmGet] at h
    by_cases he : k1 = k
    · rw [if_pos he] at h; exact absurd h (by simp)
    · rw [if_neg he] at h
      rw [jmSet, if_neg he, List.cons_append, ih k v h]

theorem jmGet_jmSet_self {α β : Type} [DecidableEq α] :
    ∀ (m : JMap α β) (k : α) (v : β), jmGet (jmSet m k v) k = some v := by
  intro m
  induction m with
  | nil => intro k v; simp [jmSet, jmGet]
  | cons p t ih =>
    intro k v
    obtain ⟨k1, v1⟩ := p
    rw [jmSet]
    by_cases he : k1 = k
    · rw [if_pos he, jmGet, if_pos rfl]
    · rw [if_neg he, jmGet, if_neg he]
      exact ih k v

theorem jmSet_jmSet {α β : Type} [DecidableEq α] :
    ∀ (m : JMap α β) (k : α) (v w : β), jmSet (jmSet m k v) k w = jmSet m k w := by
  intro m
  induction m with
  | nil => intro k v w; simp [jmSet]
  | cons p t ih =>
    intro k v w
    obtain ⟨k1, v1⟩ := p
    rw [jmSet]
    by_cases he : k1 = k
    · rw [if_pos he, jmSet, if_pos rfl, jmSet, if_pos he]
    · rw [if_neg he, jmSet, if_neg he, jmSet, if_neg he, ih]

theorem jmGet_jmSet_ne {α β : Type} [DecidableEq α] :
    ∀ (m : JMap α β) (k k2 : α) (v : β), k ≠ k2 →
      jmGet (jmSet m k v) k2 = jmGet m k2 := by
  intro m
  induction m with
  | nil => intro k k2 v hne; simp [jmSet, jmGet, hne]
  | cons p t ih =>
    intro k k2 v hne
    obtain ⟨k1, v1⟩ := p
    rw [jmSet]
    by_cases he : k1 = k
    · rw [if_pos he, jmGet, if_neg hne, jmGet, if_neg (he ▸ hne)]
    · rw [if_neg he, jmGet, jmGet]
      by_cases he2 : k1 = k2
      · rw [if_pos he2, if_pos he2]
      · rw [if_neg he2, if_neg he2, ih _ _ _ hne]

theorem charAt_append_right (u w : JStr) (k : Nat) :
    charAt (u ++ w) (u.length + k) = charAt w k := by
  unfold charAt
  rw [List.get?_append_right (Nat.le_add_right _ _)]
  simp

theorem charAt_append_cons (x : JStr) (c : Char) (w : JStr) :
    charAt (x ++ c :: w) x.length = some c := by
  have h := charAt_append_right x (c :: w) 0
  simpa using h

theorem contentStartAfter_at (doc x le rest2 : JStr)
    (hle : le = jstr "\n" ∨ le = jstr "\r\n")
    (hdoc : doc = x ++ (le ++ rest2)) :
    contentStartAfter doc x.length = x.length + le.length := by
  unfold contentStartAfter
  rcases hle with h | h
  · subst h
    have h1 : charAt doc x.length = some '\n' := by
      rw [hdoc, show jstr "\n" ++ rest2 = '\n' :: rest2 from by simp [jstr]]
      exact charAt_append_cons x '\n' rest2
    rw [h1]
    rw [if_neg (show ¬((some '\n' : Option Char) = some '\x0d') from by simp)]
    try dsimp only
    rw [h1, if_pos rfl]
    simp [jstr]
  · subst h
    have h1 : charAt doc x.length = some '\r' := by
      rw [hdoc, show jstr "\r\n" ++ rest2 = '\r' :: ('\n' :: rest2) from by simp [jstr]]
      exact charAt_append_cons x '\r' ('\n' :: rest2)
    have h2 : charAt doc (x.length + 1) = some '\n' := by
      rw [hdoc, show x ++ (jstr "\r\n" ++ rest2) = (x ++ ['\r']) ++ '\n' :: rest2 from by
        simp [jstr]]
      have h3 := charAt_append_cons (x ++ ['\r']) '\n' rest2
      simpa using h3
    rw [h1, if_pos rfl]
    try dsimp only
    rw [h2, if_pos rfl]
    simp [jstr]
    try omega

theorem closePending_at_block (doc x c le rest : JStr) (st : ScanState) (tgt : PendingTarget)
    (hle : le = jstr "\n" ∨ le = jstr "\r\n")
    (hdoc : doc = x ++ (le ++ (c ++ (le ++ rest))))
    (hsafe : le = jstr "\n" → ¬(c.getLast? = some '\r'))
    (hp : st.pending = some ⟨x.length + le.length, tgt⟩) :
    closePending doc st (x.length + le.length + c.length + le.length) =
      assignContent st c tgt := by
  unfold closePending
  rw [hp]
  try dsimp only
  have hsub : substrJS doc (x.length + le.length) (x.length + le.length + c.length) = c := by
    have hd2 : doc = (x ++ le) ++ c ++ (le ++ rest) := by rw [hdoc]; simp
    have h3 := substrJS_extract (x ++ le) c (le ++ rest)
    rw [← hd2] at h3
    simpa [Nat.add_assoc] using h3
  rcases hle with h | h
  · subst h
    have hlen : (jstr "\n").length = 1 := by simp [jstr]
    rw [hlen]
    rw [hlen] at hsub
    have h1 : charAt doc (x.length + 1 + c.length + 1 - 1) = some '\n' := by
      have hs : x.length + 1 + c.length + 1 - 1 = (x ++ jstr "\n" ++ c).length := by
        simp [jstr]
        try omega
      rw [hs, hdoc, show x ++ (jstr "\n" ++ (c ++ (jstr "\n" ++ rest)))
          = (x ++ jstr "\n" ++ c) ++ '\n' :: rest from by simp [jstr]]
      exact charAt_append_cons _ '\n' rest
    have hcnd : 0 < x.length + 1 + c.length + 1 ∧
        charAt doc (x.length + 1 + c.length + 1 - 1) = some '\n' := ⟨by omega, h1⟩
    rw [if_pos hcnd]
    have h2 : ¬(0 < x.length + 1 + c.length + 1 - 1 ∧
        charAt doc (x.length + 1 + c.length + 1 - 1 - 1) = some '\x0d') := by
      rintro ⟨h3, h4⟩
      rcases List.eq_nil_or_concat c with hc | ⟨c2, cl, hc⟩
      · subst hc
        have h5 : charAt doc (x.length + 1 + List.length ([] : JStr) + 1 - 1 - 1)
            = some '\n' := by
          have hs : x.length + 1 + List.length ([] : JStr) + 1 - 1 - 1 = x.length := by
            simp
          rw [hs, hdoc, show jstr "\n" ++ (([] : JStr) ++ (jstr "\n" ++ rest))
              = '\n' :: ('\n' :: rest) from by simp [jstr]]
          exact charAt_append_cons x '\n' _
        rw [h5] at h4
        simp at h4
      · subst hc
        simp only [List.concat_eq_append] at hdoc hsafe h4
        have h5 : charAt doc (x.length + 1 + (c2 ++ [cl]).length + 1 - 1 - 1) = some cl := by
          have hs : x.length + 1 + (c2 ++ [cl]).length + 1 - 1 - 1
              = (x ++ jstr "\n" ++ c2).length := by
            simp [jstr]
            try omega
          rw [hs, hdoc, show x ++ (jstr "\n" ++ ((c2 ++ [cl]) ++ (jstr "\n" ++ rest)))
              = (x ++ jstr "\n" ++ c2) ++ cl :: (jstr "\n" ++ rest) from by simp [jstr]]
          exact charAt_append_cons _ cl _
        rw [h5] at h4
        have h6 : cl = '\x0d' := by simpa using h4
        subst h6
        exact hsafe trivial (by simp)
    rw [if_neg h2]
    rw [show x.length + 1 + c.length + 1 - 1 = x.length + 1 + c.length from by omega]
    rw [hsub]
  · subst h
    have hlen : (jstr "\r\n").length = 2 := by simp [jstr]
    rw [hlen]
    rw [hlen] at hsub
    have h1 : charAt doc (x.length + 2 + c.length + 2 - 1) = some '\n' := by
      have hs : x.length + 2 + c.length + 2 - 1 = (x ++ jstr "\r\n" ++ c ++ ['\r']).length := by
        simp [jstr]
        try omega
      rw [hs, hdoc, show x ++ (jstr "\r\n" ++ (c ++ (jstr "\r\n" ++ rest)))
          = (x ++ jstr "\r\n" ++ c ++ ['\r']) ++ '\n' :: rest from by simp [jstr]]
      exact charAt_append_cons _ '\n' rest
    have hcnd : 0 < x.length + 2 + c.length + 2 ∧
        charAt doc (x.length + 2 + c.length + 2 - 1) = some '\n' := ⟨by omega, h1⟩
    rw [if_pos hcnd]
    have h2 : charAt doc (x.length + 2 + c.length + 2 - 1 - 1) = some '\x0d' := by
      have hs : x.length + 2 + c.length + 2 - 1 - 1 = (x ++ jstr "\r\n" ++ c).length := by
        simp [jstr]
        try omega
      rw [hs, hdoc, show x ++ (jstr "\r\n" ++ (c ++ (jstr "\r\n" ++ rest)))
          = (x ++ jstr "\r\n" ++ c) ++ '\r' :: ('\n' :: rest) from by simp [jstr]]
      exact charAt_append_cons _ '\x0d' _
    have hcnd2 : 0 < x.length + 2 + c.length + 2 - 1 ∧
        charAt doc (x.length + 2 + c.length + 2 - 1 - 1) = some '\x0d' := ⟨by omega, h2⟩
    rw [if_pos hcnd2]
    rw [show x.length + 2 + c.length + 2 - 1 - 1 = x.length + 2 + c.length from by omega]
    rw [hsub]

theorem closePending_none (doc : JStr) (st : ScanState) (k : Nat) (hp : st.pending = none) :
    closePending doc st k = st := by
  unfold closePending
  rw [hp]

theorem pending_reset_eq (st : ScanState) (hp : st.pending = none) :
    { st with pending := none } = st := by
  cases st
  simp only at hp
  rw [hp]

theorem scanStep_setup (doc : JStr) (st : ScanState) (off : Nat) (base : JStr)
    (hp : st.pending = none) (hb : base ≠ []) :
    scanStep doc st (off, setupLineOf base) =
      { st with basePath := some base,
                setupHeaderRange := some ⟨off, off + (setupLineOf base).length⟩ } := by
  unfold scanStep
  try dsimp only
  rw [closePending_none _ _ _ hp, pending_reset_eq st hp]
  rw [tryParseMerchLine_setup base]
  try dsimp only
  rw [if_pos rfl]
  rw [show objGet (JsonVal.obj [(jstr "basePath", JsonVal.str base)]) (jstr "basePath")
      = some (JsonVal.str base) from rfl]
  try dsimp only
  rw [if_pos (by simp [truthy, hb])]
  simp [jsToString, hp]

theorem scanStep_manifest (doc : JStr) (st : ScanState) (off : Nat) (sp : FileSpec) (le : JStr)
    (hp : st.pending = none) (hok : specOk le sp = true) :
    scanStep doc st (off, manifestLineOf sp) =
      { st with existingFiles := st.existingFiles ++ [manifestRecOf off sp] } := by
  obtain ⟨hpne, hhne, hpesc, hhesc⟩ := specOk_fields hok
  unfold scanStep
  try dsimp only
  rw [closePending_none _ _ _ hp, pending_reset_eq st hp]
  rw [tryParseMerchLine_manifest sp]
  try dsimp only
  rw [if_neg (by decide)]
  rw [if_pos rfl]
  rw [show objGet (JsonVal.obj [(jstr "path", JsonVal.str sp.path),
      (jstr "idx", JsonVal.num (jnumOfNat sp.idx)),
      (jstr "hash", JsonVal.str sp.hash)]) (jstr "idx")
      = some (JsonVal.num (jnumOfNat sp.idx)) from rfl]
  rw [show objGet (JsonVal.obj [(jstr "path", JsonVal.str sp.path),
      (jstr "idx", JsonVal.num (jnumOfNat sp.idx)),
      (jstr "hash", JsonVal.str sp.hash)]) (jstr "path")
      = some (JsonVal.str sp.path) from rfl]
  rw [show objGet (JsonVal.obj [(jstr "path", JsonVal.str sp.path),
      (jstr "idx", JsonVal.num (jnumOfNat sp.idx)),
      (jstr "hash", JsonVal.str sp.hash)]) (jstr "hash")
      = some (JsonVal.str sp.hash) from rfl]
  try dsimp only
  rw [if_pos ⟨by simp [truthy, hpne], by simp [truthy, hhne]⟩]
  simp [jsToString, hashFieldOf, manifestRecOf, hp]

theorem eolSpecOf_str (e : JStr) :
    eolSpecOf (some (JsonVal.str e)) = eolSpecOfRendered (some e) := by
  unfold eolSpecOf eolSpecOfRendered
  try dsimp only
  by_cases h0 : e = []
  · subst h0
    rw [if_neg (by simp [truthy])]
    rw [if_neg (by simp [jstr]), if_neg (by simp [jstr]), if_pos rfl]
  · rw [if_pos (by simp [truthy, h0])]
    try dsimp only
    by_cases h1 : e = jstr "\r\n"
    · subst h1
      simp
    · rw [if_neg h1, if_neg h1]
      by_cases h2 : e = jstr "\n"
      · subst h2
        simp
      · rw [if_neg h2, if_neg h2, if_neg h0]

theorem scanStep_file_none (doc : JStr) (st : ScanState) (off : Nat) (sp : FileSpec) (le : JStr)
    (hp : st.pending = none) (hok : specOk le sp = true) (hc : sp.content = none) :
    scanStep doc st (off, fileHeaderOf sp) =
      { st with updatedFiles := (jmSet st.updatedFiles (jnumOfNat sp.idx)
          ⟨jnumOfNat sp.idx, sp.path, none, ⟨off, off + (fileHeaderOf sp).length⟩,
            eolSpecOfRendered sp.eol⟩) } := by
  obtain ⟨hpne, hhne, hpesc, hhesc⟩ := specOk_fields hok
  unfold scanStep
  try dsimp only
  rw [closePending_none _ _ _ hp, pending_reset_eq st hp]
  rw [tryParseMerchLine_file sp]
  rcases he : sp.eol with _ | e
  · try dsimp only
    rw [if_neg (by decide), if_neg (by decide), if_pos rfl]
    rw [show objGet (JsonVal.obj ([(jstr "path", JsonVal.str sp.path),
        (jstr "idx", JsonVal.num (jnumOfNat sp.idx))] ++ [])) (jstr "path")
        = some (JsonVal.str sp.path) from rfl]
    try dsimp only
    rw [if_pos (by simp [truthy, hpne])]
    rw [show objGet (JsonVal.obj ([(jstr "path", JsonVal.str sp.path),
        (jstr "idx", JsonVal.num (jnumOfNat sp.idx))] ++ [])) (jstr "idx")
        = some (JsonVal.num (jnumOfNat sp.idx)) from rfl]
    try dsimp only
    rw [hc]
    try dsimp only
    rw [show objGet (JsonVal.obj ([(jstr "path", JsonVal.str sp.path),
        (jstr "idx", JsonVal.num (jnumOfNat sp.idx))] ++ [])) (jstr "eol")
        = none from rfl]
    simp [jsToString, hp, show eolSpecOfRendered none = none from rfl,
      show eolSpecOf none = none from rfl]
  · try dsimp only
    rw [if_neg (by decide), if_neg (by decide), if_pos rfl]
    rw [show objGet (JsonVal.obj ([(jstr "path", JsonVal.str sp.path),
        (jstr "idx", JsonVal.num (jnumOfNat sp.idx))] ++ [(jstr "eol", JsonVal.str e)]))
        (jstr "path") = some (JsonVal.str sp.path) from rfl]
    try dsimp only
    rw [if_pos (by simp [truthy, hpne])]
    rw [show objGet (JsonVal.obj ([(jstr "path", JsonVal.str sp.path),
        (jstr "idx", JsonVal.num (jnumOfNat sp.idx))] ++ [(jstr "eol", JsonVal.str e)]))
        (jstr "idx") = some (JsonVal.num (jnumOfNat sp.idx)) from rfl]
    try dsimp only
    rw [hc]
    try dsimp only
    rw [show objGet (JsonVal.obj ([(jstr "path", JsonVal.str sp.path),
        (jstr "idx", JsonVal.num (jnumOfNat sp.idx))] ++ [(jstr "eol", JsonVal.str e)]))
        (jstr "eol") = some (JsonVal.str e) from rfl]
    rw [eolSpecOf_str]
    simp [jsToString, hp]

theorem scanStep_file_some (doc : JStr) (st : ScanState) (off : Nat) (sp : FileSpec) (le c : JStr)
    (hp : st.pending = none) (hok : specOk le sp = true) (hc : sp.content = some c) :
    scanStep doc st (off, fileHeaderOf sp) =
      { st with
        updatedFiles := (jmSet st.updatedFiles (jnumOfNat sp.idx)
          ⟨jnumOfNat sp.idx, sp.path, none, ⟨off, off + (fileHeaderOf sp).length⟩,
            eolSpecOfRendered sp.eol⟩),
        pending := (some ⟨contentStartAfter doc (off + (fileHeaderOf sp).length),
          .updated (jnumOfNat sp.idx)⟩) } := by
  obtain ⟨hpne, hhne, hpesc, hhesc⟩ := specOk_fields hok
  unfold scanStep
  try dsimp only
  rw [closePending_none _ _ _ hp, pending_reset_eq st hp]
  rw [tryParseMerchLine_file sp]
  rcases he : sp.eol with _ | e
  · try dsimp only
    rw [if_neg (by decide), if_neg (by decide), if_pos rfl]
    rw [show objGet (JsonVal.obj ([(jstr "path", JsonVal.str sp.path),
        (jstr "idx", JsonVal.num (jnumOfNat sp.idx))] ++ [])) (jstr "path")
        = some (JsonVal.str sp.path) from rfl]
    try dsimp only
    rw [if_pos (by simp [truthy, hpne])]
    rw [show objGet (JsonVal.obj ([(jstr "path", JsonVal.str sp.path),
        (jstr "idx", JsonVal.num (jnumOfNat sp.idx))] ++ [])) (jstr "idx")
        = some (JsonVal.num (jnumOfNat sp.idx)) from rfl]
    try dsimp only
    rw [hc]
    try dsimp only
    rw [show objGet (JsonVal.obj ([(jstr "path", JsonVal.str sp.path),
        (jstr "idx", JsonVal.num (jnumOfNat sp.idx))] ++ [])) (jstr "eol")
        = none from rfl]
    simp [jsToString, hp, show eolSpecOfRendered none = none from rfl,
      show eolSpecOf none = none from rfl]
  · try dsimp only
    rw [if_neg (by decide), if_neg (by decide), if_pos rfl]
    rw [show objGet (JsonVal.obj ([(jstr "path", JsonVal.str sp.path),
        (jstr "idx", JsonVal.num (jnumOfNat sp.idx))] ++ [(jstr "eol", JsonVal.str e)]))
        (jstr "path") = some (JsonVal.str sp.path) from rfl]
    try dsimp only
    rw [if_pos (by simp [truthy, hpne])]
    rw [show objGet (JsonVal.obj ([(jstr "path", JsonVal.str sp.path),
        (jstr "idx", JsonVal.num (jnumOfNat sp.idx))] ++ [(jstr "eol", JsonVal.str e)]))
        (jstr "idx") = some (JsonVal.num (jnumOfNat sp.idx)) from rfl]
    try dsimp only
    rw [hc]
    try dsimp only
    rw [show objGet (JsonVal.obj ([(jstr "path", JsonVal.str sp.path),
        (jstr "idx", JsonVal.num (jnumOfNat sp.idx))] ++ [(jstr "eol", JsonVal.str e)]))
        (jstr "eol") = some (JsonVal.str e) from rfl]
    rw [eolSpecOf_str]
    simp [jsToString, hp]

theorem scanStep_absorb (doc : JStr) (st : ScanState) (m : Nat × JStr) :
    scanStep doc st m = scanStep doc { closePending doc st m.1 with pending := none } m := by
  unfold scanStep
  try dsimp only
  simp only [closePending_none doc { closePending doc st m.1 with pending := none } m.1 rfl]

theorem scan_manifest_fold (doc le : JStr) :
    ∀ (specs : List FileSpec) (off : Nat) (st : ScanState),
      (∀ sp ∈ specs, specOk le sp = true) → st.pending = none →
      (manifestLinePairs le off specs).foldl (scanStep doc) st =
        { st with existingFiles := st.existingFiles ++ manifestRecsFrom le off specs } := by
  intro specs
  induction specs with
  | nil =>
    intro off st _ hp
    rw [manifestLinePairs, manifestRecsFrom]
    simp
  | cons sp t ih =>
    intro off st hok hp
    rw [manifestLinePairs, manifestRecsFrom, List.foldl_cons]
    rw [scanStep_manifest doc st off sp le hp (hok sp (by simp))]
    rw [ih (off + (manifestLineOf sp).length + le.length)
      { st with existingFiles := st.existingFiles ++ [manifestRecOf off sp] }
      (fun x hx => hok x (by simp [hx])) hp]
    simp

theorem scan_body_fold (doc le : JStr) (hle : le = jstr "\n" ∨ le = jstr "\r\n") :
    ∀ (specs : List FileSpec) (u : JStr) (st : ScanState),
      doc = u ++ (specs.map (blockOf le)).flatten →
      (∀ sp ∈ specs, specOk le sp = true) →
      (specs.map (fun sp => sp.idx)).Nodup →
      (∀ sp ∈ specs, jmGet st.updatedFiles (jnumOfNat sp.idx) = none) →
      st.pending = none →
      ∃ p, closePending doc ((bodyHeaderPairs le u.length specs).foldl (scanStep doc) st)
          doc.length =
        { st with
          updatedFiles := st.updatedFiles ++ updatedRecsFrom le u.length specs,
          pending := p } := by
  intro specs
  induction specs with
  | nil =>
    intro u st _ _ _ _ hp
    refine ⟨none, ?_⟩
    rw [bodyHeaderPairs, updatedRecsFrom, List.foldl_nil, closePending_none _ _ _ hp]
    rw [List.append_nil, ← hp]
  | cons sp t ih =>
    intro u st hdoc hok hnd hfresh hp
    have hoksp := hok sp (by simp)
    obtain ⟨hpne, hhne, hpesc, hhesc⟩ := specOk_fields hoksp
    have hq : jmGet st.updatedFiles (jnumOfNat sp.idx) = none := hfresh sp (by simp)
    have hblock : (blockOf le sp) = fileHeaderOf sp ++ le ++
        (match sp.content with | some c => c ++ le | none => []) := rfl
    have hfreshT : ∀ sp2 ∈ t, sp2.idx ≠ sp.idx := by
      intro sp2 h2 hEq
      simp only [List.map_cons, List.nodup_cons] at hnd
      exact hnd.1 (by
        have : sp2.idx ∈ t.map (fun s => s.idx) := List.mem_map_of_mem _ h2
        rw [hEq] at this
        exact this)
    have hndT : (t.map (fun s => s.idx)).Nodup := by
      simp only [List.map_cons, List.nodup_cons] at hnd
      exact hnd.2
    rw [bodyHeaderPairs, updatedRecsFrom, List.foldl_cons]
    rcases hc : sp.content with _ | c
    · rw [scanStep_file_none doc st u.length sp le hp hoksp hc]
      have hu2 : u.length + (blockOf le sp).length = (u ++ blockOf le sp).length := by
        simp
      rw [hu2]
      have hdoc2 : doc = (u ++ blockOf le sp) ++ (t.map (blockOf le)).flatten := by
        rw [hdoc]
        simp
      have hfresh2 : ∀ sp2 ∈ t, jmGet (jmSet st.updatedFiles (jnumOfNat sp.idx)
          (⟨jnumOfNat sp.idx, sp.path, none, ⟨u.length, u.length + (fileHeaderOf sp).length⟩,
            eolSpecOfRendered sp.eol⟩ : UpdatedFileInfo)) (jnumOfNat sp2.idx) = none := by
        intro sp2 h2
        rw [jmGet_jmSet_ne _ _ _ _ (fun hEq => hfreshT sp2 h2 (jnumOfNat_inj hEq).symm)]
        exact hfresh sp2 (by simp [h2])
      obtain ⟨p, hrec⟩ := ih (u ++ blockOf le sp)
        { st with updatedFiles := (jmSet st.updatedFiles (jnumOfNat sp.idx)
            ⟨jnumOfNat sp.idx, sp.path, none, ⟨u.length, u.length + (fileHeaderOf sp).length⟩,
              eolSpecOfRendered sp.eol⟩) }
        hdoc2 (fun x hx => hok x (by simp [hx])) hndT hfresh2 hp
      refine ⟨p, ?_⟩
      rw [hrec]
      rw [jmSet_fresh _ _ _ hq]
      simp only [List.append_assoc, List.cons_append, List.nil_append]
      rw [show updatedRecOf u.length sp = ⟨jnumOfNat sp.idx, sp.path, sp.content,
        ⟨u.length, u.length + (fileHeaderOf sp).length⟩, eolSpecOfRendered sp.eol⟩ from rfl, hc]
    · rw [scanStep_file_some doc st u.length sp le c hp hoksp hc]
      have hx : doc = (u ++ fileHeaderOf sp) ++
          (le ++ (c ++ (le ++ (t.map (blockOf le)).flatten))) := by
        rw [hdoc]
        simp [blockOf, hc]
      have hsafe : le = jstr "\n" → ¬(c.getLast? = some '\x0d') := by
        intro hle1
        have hbs := hhesc.2.2 c hc
        unfold blockSafe at hbs
        simp only [Bool.and_eq_true, Bool.or_eq_true, decide_eq_true_eq, Bool.not_eq_true',
          decide_eq_false_iff_not] at hbs
        rcases hbs.2 with h2 | h2
        · rw [hle1] at h2
          exact absurd h2 (by simp [jstr])
        · exact h2
      have hcs : contentStartAfter doc (u.length + (fileHeaderOf sp).length)
          = u.length + (fileHeaderOf sp).length + le.length := by
        have h2 := contentStartAfter_at doc (u ++ fileHeaderOf sp) le
          (c ++ (le ++ (t.map (blockOf le)).flatten)) hle hx
        simpa using h2
      rw [hcs]
      have hp1 : ({ st with
          updatedFiles := (jmSet st.updatedFiles (jnumOfNat sp.idx)
            ⟨jnumOfNat sp.idx, sp.path, none,
              ⟨u.length, u.length + (fileHeaderOf sp).length⟩, eolSpecOfRendered sp.eol⟩),
          pending := (some ⟨u.length + (fileHeaderOf sp).length + le.length,
            .updated (jnumOfNat sp.idx)⟩) } : ScanState).pending
          = some ⟨(u ++ fileHeaderOf sp).length + le.length, .updated (jnumOfNat sp.idx)⟩ := by
        simp
      have hclose := closePending_at_block doc (u ++ fileHeaderOf sp) c le
        ((t.map (blockOf le)).flatten)
        { st with
          updatedFiles := (jmSet st.updatedFiles (jnumOfNat sp.idx)
            ⟨jnumOfNat sp.idx, sp.path, none,
              ⟨u.length, u.length + (fileHeaderOf sp).length⟩, eolSpecOfRendered sp.eol⟩),
          pending := (some ⟨u.length + (fileHeaderOf sp).length + le.length,
            .updated (jnumOfNat sp.idx)⟩) }
        (.updated (jnumOfNat sp.idx)) hle hx hsafe hp1
      have hassign : assignContent
          { st with
            updatedFiles := (jmSet st.updatedFiles (jnumOfNat sp.idx)
              ⟨jnumOfNat sp.idx, sp.path, none,
                ⟨u.length, u.length + (fileHeaderOf sp).length⟩, eolSpecOfRendered sp.eol⟩),
            pending := (some ⟨u.length + (fileHeaderOf sp).length + le.length,
              .updated (jnumOfNat sp.idx)⟩) }
          c (.updated (jnumOfNat sp.idx)) =
          { st with
            updatedFiles := (jmSet st.updatedFiles (jnumOfNat sp.idx)
              ⟨jnumOfNat sp.idx, sp.path, some c,
                ⟨u.length, u.length + (fileHeaderOf sp).length⟩, eolSpecOfRendered sp.eol⟩),
            pending := (some ⟨u.length + (fileHeaderOf sp).length + le.length,
              .updated (jnumOfNat sp.idx)⟩) } := by
        unfold assignContent
        try dsimp only
        rw [jmGet_jmSet_self]
        try dsimp only
        rw [jmSet_jmSet]
      cases t with
      | nil =>
        rw [bodyHeaderPairs, List.foldl_nil]
        have hlen : doc.length
            = (u ++ fileHeaderOf sp).length + le.length + c.length + le.length := by
          rw [hx]
          simp
          try omega
        rw [hlen, hclose, hassign]
        refine ⟨some ⟨u.length + (fileHeaderOf sp).length + le.length,
          .updated (jnumOfNat sp.idx)⟩, ?_⟩
        rw [jmSet_fresh _ _ _ hq]
        rw [updatedRecsFrom]
        try simp only [List.append_assoc, List.cons_append, List.nil_append]
        rw [show updatedRecOf u.length sp = ⟨jnumOfNat sp.idx, sp.path, sp.content,
          ⟨u.length, u.length + (fileHeaderOf sp).length⟩, eolSpecOfRendered sp.eol⟩ from rfl, hc]
      | cons sp2 t2 =>
        rw [bodyHeaderPairs, List.foldl_cons]
        rw [scanStep_absorb doc _ ((u.length + (blockOf le sp).length), fileHeaderOf sp2)]
        have hoff : ((u.length + (blockOf le sp).length : Nat), fileHeaderOf sp2).1
            = (u ++ fileHeaderOf sp).length + le.length + c.length + le.length := by
          simp only [blockOf, hc, List.length_append]
          try omega
        rw [hoff, hclose, hassign]
        try dsimp only
        have hfold : List.foldl (scanStep doc)
            (scanStep doc
              { st with
                updatedFiles := (jmSet st.updatedFiles (jnumOfNat sp.idx)
                  ⟨jnumOfNat sp.idx, sp.path, some c,
                    ⟨u.length, u.length + (fileHeaderOf sp).length⟩, eolSpecOfRendered sp.eol⟩),
                pending := none }
              ((u.length + (blockOf le sp).length : Nat), fileHeaderOf sp2))
            (bodyHeaderPairs le (u.length + (blockOf le sp).length + (blockOf le sp2).length) t2)
            = List.foldl (scanStep doc)
              { st with
                updatedFiles := (jmSet st.updatedFiles (jnumOfNat sp.idx)
                  ⟨jnumOfNat sp.idx, sp.path, some c,
                    ⟨u.length, u.length + (fileHeaderOf sp).length⟩, eolSpecOfRendered sp.eol⟩),
                pending := none }
              (bodyHeaderPairs le (u.length + (blockOf le sp).length) (sp2 :: t2)) := by
          rw [bodyHeaderPairs, List.foldl_cons]
        rw [hfold]
        have hu2 : u.length + (blockOf le sp).length = (u ++ blockOf le sp).length := by
          simp
        rw [hu2]
        have hdoc2 : doc = (u ++ blockOf le sp) ++ ((sp2 :: t2).map (blockOf le)).flatten := by
          rw [hdoc]
          simp
        have hfresh2 : ∀ sp3 ∈ sp2 :: t2, jmGet
            (jmSet st.updatedFiles (jnumOfNat sp.idx)
              (⟨jnumOfNat sp.idx, sp.path, some c,
                ⟨u.length, u.length + (fileHeaderOf sp).length⟩,
                eolSpecOfRendered sp.eol⟩ : UpdatedFileInfo))
            (jnumOfNat sp3.idx) = none := by
          intro sp3 h3
          rw [jmGet_jmSet_ne _ _ _ _ (fun hEq => hfreshT sp3 h3 (jnumOfNat_inj hEq).symm)]
          exact hfresh sp3 (by simp [h3])
        obtain ⟨p, hrec⟩ := ih (u ++ blockOf le sp)
          { st with
            updatedFiles := (jmSet st.updatedFiles (jnumOfNat sp.idx)
              ⟨jnumOfNat sp.idx, sp.path, some c,
                ⟨u.length, u.length + (fileHeaderOf sp).length⟩, eolSpecOfRendered sp.eol⟩),
            pending := none }
          hdoc2 (fun x hx => hok x (by simp [hx])) hndT hfresh2 rfl
        refine ⟨p, ?_⟩
        rw [hrec]
        rw [jmSet_fresh _ _ _ hq]
        try simp only [List.append_assoc, List.cons_append, List.nil_append]
        rw [show updatedRecOf u.length sp = ⟨jnumOfNat sp.idx, sp.path, sp.content,
          ⟨u.length, u.length + (fileHeaderOf sp).length⟩, eolSpecOfRendered sp.eol⟩ from rfl, hc]

theorem updatedRecsFrom_keys (le : JStr) :
    ∀ (specs : List FileSpec) (off : Nat) (p : JNum × UpdatedFileInfo),
      p ∈ updatedRecsFrom le off specs → ∃ sp ∈ specs, p.1 = jnumOfNat sp.idx := by
  intro specs
  induction specs with
  | nil => intro off p h; simp [updatedRecsFrom] at h
  | cons sp t ih =>
    intro off p h
    rw [updatedRecsFrom] at h
    rcases List.mem_cons.mp h with h1 | h1
    · exact ⟨sp, by simp, by rw [h1]⟩
    · obtain ⟨sp2, h2, h3⟩ := ih _ p h1
      exact ⟨sp2, by simp [h2], h3⟩

theorem manifestRecsFrom_any_idx (le : JStr) :
    ∀ (specs : List FileSpec) (off : Nat) (sp : FileSpec), sp ∈ specs →
      (manifestRecsFrom le off specs).any
        (fun e => e.idx = jnumOfNat sp.idx) = true := by
  intro specs
  induction specs with
  | nil => intro off sp h; simp at h
  | cons sp1 t ih =>
    intro off sp h
    rw [manifestRecsFrom]
    rcases List.mem_cons.mp h with h1 | h1
    · subst h1
      simp [manifestRecOf]
    · simp only [List.any_cons, Bool.or_eq_true]
      exact Or.inr (ih _ sp h1)

theorem orphanDiags_renderDoc (base le : JStr) (specs : List FileSpec)
    (p : Option PendingContent) (d : List MerchDiagnostic) (r : Option OffsetRange) :
    orphanDiags ⟨manifestRecsFrom le (manifestStart base le) specs,
      updatedRecsFrom le (bodyStart base le specs) specs,
      [], some base, r, d, p⟩ = [] := by
  unfold orphanDiags
  rw [List.filterMap_eq_nil]
  intro a ha
  try dsimp only at ha ⊢
  obtain ⟨sp, hsp, hkey⟩ := updatedRecsFrom_keys le specs _ a ha
  rw [if_pos ?_]
  rw [show a.1 = jnumOfNat sp.idx from hkey]
  exact manifestRecsFrom_any_idx le specs _ sp hsp

theorem renderDoc_body_split (base le : JStr) (specs : List FileSpec) :
    renderDoc base le specs =
      (sepLine ++ le ++ setupLineOf base ++ le ++
        (specs.map (fun sp => manifestLineOf sp ++ le)).flatten ++ sepLine ++ le ++ le) ++
      (specs.map (blockOf le)).flatten := by
  unfold renderDoc
  simp

theorem renderDoc_body_start (base le : JStr) (specs : List FileSpec) :
    (sepLine ++ le ++ setupLineOf base ++ le ++
        (specs.map (fun sp => manifestLineOf sp ++ le)).flatten ++ sepLine ++ le ++ le).length
      = bodyStart base le specs := by
  unfold bodyStart manifestStart
  simp only [List.length_append, List.length_join, List.map_map]
  have h2 : (specs.map (List.length ∘ fun sp => manifestLineOf sp ++ le)).sum
      = (specs.map (fun sp => (manifestLineOf sp).length + le.length)).sum := by
    congr 1
    apply List.map_congr_left
    intro sp _
    simp
  rw [h2]
  try omega

theorem parseScan_renderDoc {base le : JStr} {specs : List FileSpec}
    (hok : renderOk base le specs) :
    ∃ p, parseScan (renderDoc base le specs) =
      ⟨manifestRecsFrom le (manifestStart base le) specs,
       updatedRecsFrom le (bodyStart base le specs) specs,
       [], some base,
       some ⟨sepLine.length + le.length, sepLine.length + le.length + (setupLineOf base).length⟩,
       [], p⟩ := by
  obtain ⟨hbne, hbesc, hle, hoks, hnd⟩ := hok
  unfold parseScan
  rw [matchedLines_renderDoc ⟨hbne, hbesc, hle, hoks, hnd⟩]
  rw [List.foldl_cons, List.foldl_append]
  rw [scanStep_setup _ initScanState _ base rfl hbne]
  set ST1 : ScanState := { initScanState with
    basePath := some base,
    setupHeaderRange := (some ⟨sepLine.length + le.length,
      sepLine.length + le.length + (setupLineOf base).length⟩) } with hST1
  rw [scan_manifest_fold _ le specs (manifestStart base le) ST1 hoks (by rw [hST1]; rfl)]
  set ST2 : ScanState := { ST1 with
    existingFiles := (ST1.existingFiles ++ manifestRecsFrom le (manifestStart base le) specs) }
    with hST2
  have hdoc2 := renderDoc_body_split base le specs
  have hfr : ∀ sp ∈ specs, jmGet ST2.updatedFiles (jnumOfNat sp.idx) = none := by
    intro sp _
    rw [hST2, hST1]
    rfl
  obtain ⟨p, hbody⟩ := scan_body_fold (renderDoc base le specs) le hle specs
    (sepLine ++ le ++ setupLineOf base ++ le ++
      (specs.map (fun sp => manifestLineOf sp ++ le)).flatten ++ sepLine ++ le ++ le)
    ST2 hdoc2 hoks hnd hfr (by rw [hST2, hST1]; rfl)
  rw [renderDoc_body_start base le specs] at hbody
  refine ⟨p, ?_⟩
  rw [hbody]
  rw [hST2, hST1]
  simp [initScanState]

theorem parseMerchDoc_renderDoc {base le : JStr} {specs : List FileSpec}
    (hok : renderOk base le specs) :
    parseMerchDoc (renderDoc base le specs) = .ok (expectedParsedDoc base le specs) := by
  obtain ⟨p, hscan⟩ := parseScan_renderDoc hok
  unfold parseMerchDoc
  rw [hscan]
  try dsimp only
  rw [orphanDiags_renderDoc]
  rfl

theorem flatten_map_filterMap {α β : Type} (g : α → JStr) (g2 : β → JStr) (h : α → Option β) :
    ∀ (l : List α),
      (∀ a ∈ l, (match h a with | some b => g a = g2 b | none => g a = [])) →
      (l.map g).flatten = ((l.filterMap h).map g2).flatten := by
  intro l
  induction l with
  | nil => intro _; rfl
  | cons a t ih =>
    intro hc
    have ha := hc a (by simp)
    rw [List.map_cons, List.flatten_cons, List.filterMap_cons]
    cases hh : h a with
    | none =>
      rw [hh] at ha
      rw [ha, List.nil_append, ih (fun x hx => hc x (by simp [hx]))]
    | some b =>
      rw [hh] at ha
      rw [ha, List.map_cons, List.flatten_cons, ih (fun x hx => hc x (by simp [hx]))]

theorem memHas_of_read {fs : MemFs} {f c : JStr} (h : memRead fs f = some c) :
    memHas fs f = true := by
  unfold memHas
  unfold memRead at h
  rw [h]
  rfl

theorem mergeFiles_eq_renderDoc (P : IPath) (files : List JStr) (baseDir : JStr)
    (woc : Bool) (fs : MemFs) :
    mergeFiles P files stdFormatter baseDir woc fs =
      renderDoc (normalizePath baseDir) (mergeMainLE files fs)
        (mergeSpecs P files baseDir woc fs (mergeMainLE files fs)) := by
  unfold mergeFiles renderDoc mergeSpecs
  try dsimp only
  rw [flatten_map_filterMap _
      (fun sp => manifestLineOf sp ++ mergeMainLE files fs)
      (fun p => (memRead fs p.2).map (fun c =>
        ⟨p.1, normalizePath (P.relative baseDir p.2), computeHash c,
          (match detectLineEnding c with
           | some fle => if fle ≠ mergeMainLE files fs then some fle else none
           | none => none),
          if woc then none else some (normalizeLineEndings c (mergeMainLE files fs))⟩))
      files.enum
      (by
        intro a _
        cases hr : memRead fs a.2 with
        | none =>
          try dsimp only
          rw [hr]
          simp
        | some c =>
          try dsimp only
          rw [hr]
          try simp only [Option.map_some]
          try dsimp only
          rw [if_pos (memHas_of_read hr)]
          rfl)]
  rw [flatten_map_filterMap _
      (blockOf (mergeMainLE files fs))
      (fun p => (memRead fs p.2).map (fun c =>
        ⟨p.1, normalizePath (P.relative baseDir p.2), computeHash c,
          (match detectLineEnding c with
           | some fle => if fle ≠ mergeMainLE files fs then some fle else none
           | none => none),
          if woc then none else some (normalizeLineEndings c (mergeMainLE files fs))⟩))
      files.enum
      (by
        intro a _
        cases hr : memRead fs a.2 with
        | none =>
          try dsimp only
          rw [hr]
          simp
        | some c =>
          try dsimp only
          rw [hr]
          try simp only [Option.map_some]
          try dsimp only
          rw [if_pos (memHas_of_read hr)]
          cases woc with
          | false =>
            unfold mergeBodyBlock blockOf fileHeaderOf
            try dsimp only
            simp
          | true =>
            unfold mergeBodyBlock blockOf fileHeaderOf
            try dsimp only
            simp)]
  have hsep : sepLine = stdFormatter.format (List.replicate 20 '=') := rfl
  have hsetup : setupLineOf (normalizePath baseDir)
      = stdFormatter.format (jstr "merch::setup: " ++ renderSetupJson (normalizePath baseDir)) :=
    rfl
  rw [← hsep, ← hsetup]
  simp

theorem detectLineEnding_cases {c x : JStr} (h : detectLineEnding c = some x) :
    x = jstr "\n" ∨ x = jstr "\r\n" := by
  unfold detectLineEnding at h
  split at h
  · exact Or.inr (by injection h with h2; exact h2.symm)
  · split at h
    · exact Or.inl (by injection h with h2; exact h2.symm)
    · exact absurd h (by simp)

theorem mergeMainLE_cases (files : List JStr) (fs : MemFs) :
    mergeMainLE files fs = jstr "\n" ∨ mergeMainLE files fs = jstr "\r\n" := by
  induction files with
  | nil => exact Or.inl rfl
  | cons f t ih =>
    rw [mergeMainLE]
    split
    · split
      · rename_i le hle
        rcases detectLineEnding_cases hle with h | h <;> subst h
        · exact Or.inl rfl
        · exact Or.inr rfl
      · exact ih
    · exact ih

theorem computeHash_ne_nil (c : JStr) : computeHash c ≠ [] := by
  unfold computeHash
  simp

theorem hexDigitsAux_shape :
    ∀ (fuel n : Nat), ∀ x ∈ hexDigitsAux fuel n, ∃ k, k < 16 ∧ x = hexCh k := by
  intro fuel
  induction fuel with
  | zero => intro n x hx; simp [hexDigitsAux] at hx
  | succ f ih =>
    intro n x hx
    rw [hexDigitsAux] at hx
    by_cases hlt : n < 16
    · rw [if_pos hlt] at hx
      simp at hx
      exact ⟨n, hlt, hx⟩
    · rw [if_neg hlt] at hx
      rcases List.mem_append.mp hx with h | h
      · exact ih _ x h
      · simp at h
        exact ⟨n % 16, by omega, h⟩

theorem escLineSafe_computeHash (c : JStr) : escLineSafe (computeHash c) = true := by
  unfold escLineSafe computeHash
  rw [List.all_eq_true]
  intro x hx
  simp only [List.mem_cons, List.mem_flatten, List.mem_map] at hx
  rcases hx with hx | ⟨l, ⟨d, _, hl⟩, hxl⟩
  · subst hx
    decide
  · subst hl
    rcases List.mem_append.mp hxl with h | h
    · obtain ⟨k, hk, hkx⟩ := hexDigitsAux_shape _ _ x h
      subst hkx
      have := hexCh_toNat_digit (n := k)
      have h2 : (hexCh k).toNat < 128 := by
        by_cases hk10 : k < 10
        · rw [hexCh_toNat_digit hk10]; omega
        · rw [hexCh_toNat_alpha (by omega) hk]; omega
      rw [Bool.not_eq_true', Bool.or_eq_false_iff]
      constructor <;>
        (rw [decide_eq_false_iff_not]; intro hEq; rw [hEq] at h2; revert h2; decide)
    · simp at h
      subst h
      decide

theorem mergeSpecs_ok (P : IPath) (files : List JStr) (baseDir : JStr) (woc : Bool)
    (fs : MemFs) (le : JStr)
    (hpaths : ∀ p ∈ files.enum, ∀ c, memRead fs p.2 = some c →
      normalizePath (P.relative baseDir p.2) ≠ [] ∧
        escLineSafe (normalizePath (P.relative baseDir p.2)) = true)
    (hcont : ∀ p ∈ files.enum, ∀ c, memRead fs p.2 = some c →
      woc = false → blockSafe le (normalizeLineEndings c le) = true) :
    ∀ sp ∈ mergeSpecs P files baseDir woc fs le, specOk le sp = true := by
  intro sp hsp
  unfold mergeSpecs at hsp
  rw [List.mem_filterMap] at hsp
  obtain ⟨p, hpmem, hpv⟩ := hsp
  cases hr : memRead fs p.2 with
  | none => rw [hr] at hpv; simp at hpv
  | some c =>
    rw [hr] at hpv
    try dsimp only at hpv
    rw [Option.map_some'] at hpv
    rw [Option.some.injEq] at hpv
    obtain ⟨hne, hesc⟩ := hpaths p hpmem c hr
    unfold specOk
    subst hpv
    try dsimp only
    simp only [Bool.and_eq_true, decide_eq_true_eq]
    refine ⟨⟨⟨⟨⟨hne, computeHash_ne_nil c⟩, hesc⟩, escLineSafe_computeHash c⟩, ?_⟩, ?_⟩
    · cases hd : detectLineEnding c with
      | none => rfl
      | some fle =>
        rcases detectLineEnding_cases hd with h | h <;> subst h <;> try dsimp only
        · by_cases hEq : jstr "\n" = le
          · rw [if_neg (not_not_intro hEq)]
          · rw [if_pos hEq]
            simp
        · by_cases hEq : jstr "\r\n" = le
          · rw [if_neg (not_not_intro hEq)]
          · rw [if_pos hEq]
            simp
    · cases woc with
      | true => simp
      | false =>
        try dsimp only
        try rw [if_neg (show ¬(false = true) from by simp)]
        exact hcont p hpmem c hr rfl

theorem filterMap_idx_sub {h : (Nat × JStr) → Option FileSpec}
    (hfst : ∀ p sp, h p = some sp → sp.idx = p.1) :
    ∀ (l : List (Nat × JStr)) (x : Nat),
      x ∈ (l.filterMap h).map (fun sp => sp.idx) → x ∈ l.map Prod.fst := by
  intro l
  induction l with
  | nil => intro x hx; simp at hx
  | cons p t ih =>
    intro x hx
    rw [List.filterMap_cons] at hx
    cases hh : h p with
    | none =>
      rw [hh] at hx
      exact List.mem_cons_of_mem _ (ih x hx)
    | some sp =>
      rw [hh] at hx
      rw [List.map_cons] at hx
      rcases List.mem_cons.mp hx with h1 | h1
      · rw [List.map_cons, h1, hfst p sp hh]
        exact List.mem_cons_self _ _
      · exact List.mem_cons_of_mem _ (ih x h1)

theorem nodup_filterMap_idx {h : (Nat × JStr) → Option FileSpec}
    (hfst : ∀ p sp, h p = some sp → sp.idx = p.1) :
    ∀ (l : List (Nat × JStr)), (l.map Prod.fst).Nodup →
      ((l.filterMap h).map (fun sp => sp.idx)).Nodup := by
  intro l
  induction l with
  | nil => intro _; simp
  | cons p t ih =>
    intro hnd
    rw [List.map_cons, List.nodup_cons] at hnd
    rw [List.filterMap_cons]
    cases hh : h p with
    | none => exact ih hnd.2
    | some sp =>
      rw [List.map_cons, List.nodup_cons]
      refine ⟨?_, ih hnd.2⟩
      intro hmem
      rw [hfst p sp hh] at hmem
      exact hnd.1 (filterMap_idx_sub hfst t p.1 hmem)

theorem mergeSpecs_nodup (P : IPath) (files : List JStr) (baseDir : JStr) (woc : Bool)
    (fs : MemFs) (le : JStr) :
    ((mergeSpecs P files baseDir woc fs le).map (fun sp => sp.idx)).Nodup := by
  unfold mergeSpecs
  apply nodup_filterMap_idx
  · intro p sp hp
    cases hr : memRead fs p.2 with
    | none => rw [hr] at hp; simp at hp
    | some c =>
      rw [hr, Option.map_some', Option.some.injEq] at hp
      rw [← hp]
  · rw [List.enum_map_fst]
    exact List.nodup_range _

theorem manifestRecsFrom_mem (le : JStr) :
    ∀ (specs : List FileSpec) (off : Nat) (sp : FileSpec), sp ∈ specs →
      ∃ r ∈ manifestRecsFrom le off specs,
        r.idx = jnumOfNat sp.idx ∧ r.hash = some sp.hash ∧ r.path = sp.path := by
  intro specs
  induction specs with
  | nil => intro off sp h; simp at h
  | cons sp1 t ih =>
    intro off sp h
    rw [manifestRecsFrom]
    rcases List.mem_cons.mp h with h1 | h1
    · subst h1
      exact ⟨manifestRecOf off sp, by simp, rfl, rfl, rfl⟩
    · obtain ⟨r, hr, hprops⟩ :=
        ih (off + (manifestLineOf sp1).length + le.length) sp h1
      exact ⟨r, List.mem_cons_of_mem _ hr, hprops⟩

theorem jmGet_updatedRecsFrom (le : JStr) :
    ∀ (specs : List FileSpec) (off : Nat) (sp : FileSpec), sp ∈ specs →
      (specs.map (fun s => s.idx)).Nodup →
      ∃ u, jmGet (updatedRecsFrom le off specs) (jnumOfNat sp.idx) = some u ∧
        u.idx = jnumOfNat sp.idx ∧ u.newPath = sp.path := by
  intro specs
  induction specs with
  | nil => intro off sp h; simp at h
  | cons sp1 t ih =>
    intro off sp h hnd
    rw [List.map_cons, List.nodup_cons] at hnd
    rw [updatedRecsFrom]
    rcases List.mem_cons.mp h with h1 | h1
    · subst h1
      exact ⟨updatedRecOf off sp, by rw [jmGet, if_pos rfl], rfl, rfl⟩
    · have hne : jnumOfNat sp1.idx ≠ jnumOfNat sp.idx := by
        intro hEq
        have h2 := jnumOfNat_inj hEq
        apply hnd.1
        rw [h2]
        exact List.mem_map_of_mem _ h1
      rw [jmGet, if_neg hne]
      exact ih _ sp h1 hnd.2

theorem mem_mergeSpecs (P : IPath) (files : List JStr) (baseDir : JStr) (woc : Bool)
    (fs : MemFs) (le : JStr) (i : Nat) (f c : JStr)
    (hget : files.get? i = some f) (hread : memRead fs f = some c) :
    (⟨i, normalizePath (P.relative baseDir f), computeHash c,
      (match detectLineEnding c with
       | some fle => if fle ≠ le then some fle else none
       | none => none),
      if woc then none else some (normalizeLineEndings c le)⟩ : FileSpec)
      ∈ mergeSpecs P files baseDir woc fs le := by
  unfold mergeSpecs
  rw [List.mem_filterMap]
  refine ⟨(i, f), List.mk_mem_enum_iff_get?.mpr hget, ?_⟩
  try dsimp only
  rw [hread, Option.map_some']

/-- C1: parsing the text `mergeFiles` builds from an ordered file set
reconstructs, for every included file, an existing record whose hash is the
hash of that file's content and whose idx is the file's position in the
input list, together with an updated record stored under the same idx. -/
theorem mergeFiles_parse_idx_hash (P : IPath) (files : List JStr) (baseDir : JStr)
    (woc : Bool) (fs : MemFs)
    (hbne : normalizePath baseDir ≠ [])
    (hbesc : escLineSafe (normalizePath baseDir) = true)
    (hpaths : files.enum.all (fun p =>
      match memRead fs p.2 with
      | some _ => decide (normalizePath (P.relative baseDir p.2) ≠ []) &&
          escLineSafe (normalizePath (P.relative baseDir p.2))
      | none => true) = true)
    (hcont : files.enum.all (fun p =>
      match memRead fs p.2 with
      | some c => woc || blockSafe (mergeMainLE files fs)
          (normalizeLineEndings c (mergeMainLE files fs))
      | none => true) = true) :
    ∃ doc : ParsedMerchDoc,
      parseMerchDoc (mergeFiles P files stdFormatter baseDir woc fs) = .ok doc ∧
      doc.diagnostics = [] ∧
      ∀ i f c, files.get? i = some f → memRead fs f = some c →
        (∃ e ∈ doc.existingFiles, e.idx = jnumOfNat i ∧ e.hash = some (computeHash c)) ∧
        (∃ u, jmGet doc.updatedFiles (jnumOfNat i) = some u ∧ u.idx = jnumOfNat i) := by
  have hpaths2 : ∀ p ∈ files.enum, ∀ c, memRead fs p.2 = some c →
      normalizePath (P.relative baseDir p.2) ≠ [] ∧
        escLineSafe (normalizePath (P.relative baseDir p.2)) = true := by
    intro p hp c hr
    have h2 := List.all_eq_true.mp hpaths p hp
    rw [hr] at h2
    try dsimp only at h2
    rw [Bool.and_eq_true, decide_eq_true_eq] at h2
    exact h2
  have hcont2 : ∀ p ∈ files.enum, ∀ c, memRead fs p.2 = some c → woc = false →
      blockSafe (mergeMainLE files fs) (normalizeLineEndings c (mergeMainLE files fs))
        = true := by
    intro p hp c hr hw
    have h2 := List.all_eq_true.mp hcont p hp
    rw [hr] at h2
    try dsimp only at h2
    rw [hw, Bool.false_or] at h2
    exact h2
  have hok : renderOk (normalizePath baseDir) (mergeMainLE files fs)
      (mergeSpecs P files baseDir woc fs (mergeMainLE files fs)) :=
    ⟨hbne, hbesc, mergeMainLE_cases files fs,
      mergeSpecs_ok P files baseDir woc fs (mergeMainLE files fs) hpaths2 hcont2,
      mergeSpecs_nodup P files baseDir woc fs (mergeMainLE files fs)⟩
  refine ⟨expectedParsedDoc (normalizePath baseDir) (mergeMainLE files fs)
    (mergeSpecs P files baseDir woc fs (mergeMainLE files fs)), ?_, rfl, ?_⟩
  · rw [mergeFiles_eq_renderDoc, parseMerchDoc_renderDoc hok]
  · intro i f c hget hread
    have hmem := mem_mergeSpecs P files baseDir woc fs (mergeMainLE files fs) i f c hget hread
    constructor
    · obtain ⟨r, hr, h1, h2, _⟩ := manifestRecsFrom_mem (mergeMainLE files fs)
        (mergeSpecs P files baseDir woc fs (mergeMainLE files fs))
        (manifestStart (normalizePath baseDir) (mergeMainLE files fs)) _ hmem
      exact ⟨r, hr, h1, h2⟩
    · obtain ⟨u, hu, h1, _⟩ := jmGet_updatedRecsFrom (mergeMainLE files fs)
        (mergeSpecs P files baseDir woc fs (mergeMainLE files fs))
        (bodyStart (normalizePath baseDir) (mergeMainLE files fs)
          (mergeSpecs P files baseDir woc fs (mergeMainLE files fs))) _ hmem
        (mergeSpecs_nodup P files baseDir woc fs (mergeMainLE files fs))
      exact ⟨u, hu, h1⟩

theorem mergeFiles_parse_idx_hash_witness :
    (normalizePath (jstr "/s") ≠ [] ∧
      escLineSafe (normalizePath (jstr "/s")) = true ∧
      ([jstr "/s/a"].enum.all (fun p =>
        match memRead [(jstr "/s/a", jstr "x")] p.2 with
        | some _ => decide (normalizePath (simplePath.relative (jstr "/s") p.2) ≠ []) &&
            escLineSafe (normalizePath (simplePath.relative (jstr "/s") p.2))
        | none => true) = true) ∧
      ([jstr "/s/a"].enum.all (fun p =>
        match memRead [(jstr "/s/a", jstr "x")] p.2 with
        | some c => false || blockSafe (mergeMainLE [jstr "/s/a"] [(jstr "/s/a", jstr "x")])
            (normalizeLineEndings c (mergeMainLE [jstr "/s/a"] [(jstr "/s/a", jstr "x")]))
        | none => true) = true)) ∧
    (∃ doc : ParsedMerchDoc,
      parseMerchDoc (mergeFiles simplePath [jstr "/s/a"] stdFormatter (jstr "/s") false
        [(jstr "/s/a", jstr "x")]) = .ok doc ∧
      doc.diagnostics = [] ∧
      ∀ i f c, [jstr "/s/a"].get? i = some f →
        memRead [(jstr "/s/a", jstr "x")] f = some c →
        (∃ e ∈ doc.existingFiles, e.idx = jnumOfNat i ∧ e.hash = some (computeHash c)) ∧
        (∃ u, jmGet doc.updatedFiles (jnumOfNat i) = some u ∧ u.idx = jnumOfNat i)) :=
  ⟨⟨by decide, by decide, by decide, by decide⟩,
    mergeFiles_parse_idx_hash simplePath [jstr "/s/a"] (jstr "/s") false
      [(jstr "/s/a", jstr "x")] (by decide) (by decide) (by decide) (by decide)⟩

theorem foldlM_id_of_all {ε α β : Type} {f : β → α → Except ε β} :
    ∀ (l : List α) (init : β), (∀ acc e, e ∈ l → f acc e = .ok acc) →
      l.foldlM f init = .ok init := by
  intro l
  induction l with
  | nil => intro init _; rfl
  | cons a t ih =>
    intro init h
    rw [List.foldlM_cons, h init a (by simp)]
    exact ih init (fun acc e he => h acc e (by simp [he]))

theorem foldl_id_of_all {α β : Type} {f : β → α → β} :
    ∀ (l : List α) (init : β), (∀ acc e, e ∈ l → f acc e = acc) →
      l.foldl f init = init := by
  intro l
  induction l with
  | nil => intro init _; rfl
  | cons a t ih =>
    intro init h
    rw [List.foldl_cons, h init a (by simp)]
    exact ih init (fun acc e he => h acc e (by simp [he]))

theorem manifestRecsFrom_shape (le : JStr) :
    ∀ (specs : List FileSpec) (off : Nat) (r : ExistingFileInfo),
      r ∈ manifestRecsFrom le off specs → ∃ off2 sp, sp ∈ specs ∧ r = manifestRecOf off2 sp := by
  intro specs
  induction specs with
  | nil => intro off r h; simp [manifestRecsFrom] at h
  | cons sp1 t ih =>
    intro off r h
    rw [manifestRecsFrom] at h
    rcases List.mem_cons.mp h with h1 | h1
    · exact ⟨off, sp1, by simp, h1⟩
    · obtain ⟨off2, sp, hsp, hr⟩ := ih _ r h1
      exact ⟨off2, sp, by simp [hsp], hr⟩

theorem jmGet_updatedRecsFrom_rec (le : JStr) :
    ∀ (specs : List FileSpec) (off : Nat) (sp : FileSpec), sp ∈ specs →
      (specs.map (fun s => s.idx)).Nodup →
      ∃ off2, jmGet (updatedRecsFrom le off specs) (jnumOfNat sp.idx)
        = some (updatedRecOf off2 sp) := by
  intro specs
  induction specs with
  | nil => intro off sp h; simp at h
  | cons sp1 t ih =>
    intro off sp h hnd
    rw [List.map_cons, List.nodup_cons] at hnd
    rw [updatedRecsFrom]
    rcases List.mem_cons.mp h with h1 | h1
    · subst h1
      exact ⟨off, by rw [jmGet, if_pos rfl]⟩
    · have hne : jnumOfNat sp1.idx ≠ jnumOfNat sp.idx := by
        intro hEq
        have h2 := jnumOfNat_inj hEq
        apply hnd.1
        rw [h2]
        exact List.mem_map_of_mem _ h1
      rw [jmGet, if_neg hne]
      exact ih _ sp h1 hnd.2

theorem buildStep_spec_noop (P : IPath) (fs : MemFs) (cH : Bool)
    (base le : JStr) (specs : List FileSpec)
    (acc : List FsAction × JMap JStr RenameInfo) (off2 off3 : Nat) (sp : FileSpec)
    (hup : jmGet (updatedRecsFrom le (bodyStart base le specs) specs) (jnumOfNat sp.idx)
      = some (updatedRecOf off3 sp))
    (hhash : ∀ c0, sp.content = some c0 →
      sp.hash = computeHash (applyEol (eolSpecOfRendered sp.eol) c0))
    (hrd : cH = true → sp.content = none ∨
      (∃ d, memRead fs (P.resolve base sp.path) = some d ∧ sp.hash = computeHash d)) :
    buildStep P fs cH (expectedParsedDoc base le specs) acc (manifestRecOf off2 sp)
      = .ok acc := by
  unfold buildStep
  try dsimp only
  rw [show (expectedParsedDoc base le specs).updatedFiles
      = updatedRecsFrom le (bodyStart base le specs) specs from rfl]
  rw [show (manifestRecOf off2 sp).idx = jnumOfNat sp.idx from rfl]
  rw [hup]
  rw [show (expectedParsedDoc base le specs).basePath = base from rfl]
  rw [show (manifestRecOf off2 sp).path = sp.path from rfl]
  try dsimp only
  rw [show (updatedRecOf off3 sp).newPath = sp.path from rfl]
  rw [if_neg (not_not_intro rfl)]
  rw [show (updatedRecOf off3 sp).content = sp.content from rfl]
  cases hc : sp.content with
  | none =>
    try dsimp only
    rw [if_neg (by simp)]
  | some c0 =>
    try dsimp only
    rw [show (updatedRecOf off3 sp).eol = eolSpecOfRendered sp.eol from rfl]
    rw [show (manifestRecOf off2 sp).hash = some sp.hash from rfl]
    cases cH with
    | false =>
      rw [if_neg (by simp)]
      rw [if_pos (by rw [hhash c0 hc])]
    | true =>
      rcases hrd rfl with h1 | ⟨d, hd, hdh⟩
      · rw [h1] at hc; exact absurd hc (by simp)
      · rw [if_pos ⟨rfl, by simp⟩]
        rw [hd]
        try dsimp only
        rw [if_pos (by rw [hdh])]
        rw [if_pos (by rw [hhash c0 hc])]

theorem buildActions_expected_empty (P : IPath) (fs : MemFs) (cH : Bool)
    (base le : JStr) (specs : List FileSpec)
    (hnd : (specs.map (fun s => s.idx)).Nodup)
    (hhash : ∀ sp ∈ specs, ∀ c0, sp.content = some c0 →
      sp.hash = computeHash (applyEol (eolSpecOfRendered sp.eol) c0))
    (hrd : cH = true → ∀ sp ∈ specs, sp.content = none ∨
      (∃ d, memRead fs (P.resolve base sp.path) = some d ∧ sp.hash = computeHash d)) :
    buildActions P (expectedParsedDoc base le specs) fs cH = .ok [] := by
  unfold buildActions
  rw [show (expectedParsedDoc base le specs).existingFiles
      = manifestRecsFrom le (manifestStart base le) specs from rfl]
  rw [foldlM_id_of_all (manifestRecsFrom le (manifestStart base le) specs) ([], [])
    (by
      intro acc e he
      obtain ⟨off2, sp, hsp, hre⟩ := manifestRecsFrom_shape le specs _ e he
      subst hre
      obtain ⟨off3, hup⟩ := jmGet_updatedRecsFrom_rec le specs
        (bodyStart base le specs) sp hsp hnd
      exact buildStep_spec_noop P fs cH base le specs acc off2 off3 sp hup
        (hhash sp hsp) (fun hch => hrd hch sp hsp))]
  try dsimp only [Bind.bind, Except.bind]
  rw [foldl_id_of_all ((expectedParsedDoc base le specs).updatedFiles) ([] : List FsAction)
    (by
      intro acc p hp
      unfold updatedOrphanStep
      rw [if_pos ?_]
      have hp2 : p ∈ updatedRecsFrom le (bodyStart base le specs) specs := hp
      obtain ⟨sp, hsp, hkey⟩ := updatedRecsFrom_keys le specs _ p hp2
      rw [show (expectedParsedDoc base le specs).existingFiles
          = manifestRecsFrom le (manifestStart base le) specs from rfl, hkey]
      exact manifestRecsFrom_any_idx le specs _ sp hsp)]
  rfl

theorem mergeSpecs_elim (P : IPath) (files : List JStr) (baseDir : JStr) (woc : Bool)
    (fs : MemFs) (le : JStr) :
    ∀ sp ∈ mergeSpecs P files baseDir woc fs le, ∃ p ∈ files.enum, ∃ c,
      memRead fs p.2 = some c ∧
      sp = ⟨p.1, normalizePath (P.relative baseDir p.2), computeHash c,
        mergeEolField c le, if woc then none else some (normalizeLineEndings c le)⟩ := by
  intro sp hsp
  unfold mergeSpecs at hsp
  rw [List.mem_filterMap] at hsp
  obtain ⟨p, hpmem, hpv⟩ := hsp
  cases hr : memRead fs p.2 with
  | none => rw [hr] at hpv; simp at hpv
  | some c =>
    rw [hr] at hpv
    rw [Option.map_some'] at hpv
    rw [Option.some.injEq] at hpv
    exact ⟨p, hpmem, c, hr, hpv.symm⟩

/-- C4 (amended): splitting a document freshly built from disk plans no
actions, provided each included file's content is restored exactly by
normalizing to the document ending and re-applying the rendered `eol`
field, and the resolved display path reads back the same content. -/
theorem splitContent_fresh_build_empty (P : IPath) (files : List JStr) (baseDir : JStr)
    (woc : Bool) (fs : MemFs) (cH dryRun : Bool)
    (hbne : normalizePath baseDir ≠ [])
    (hbesc : escLineSafe (normalizePath baseDir) = true)
    (hpaths : files.enum.all (fun p =>
      match memRead fs p.2 with
      | some _ => decide (normalizePath (P.relative baseDir p.2) ≠ []) &&
          escLineSafe (normalizePath (P.relative baseDir p.2))
      | none => true) = true)
    (hcont : files.enum.all (fun p =>
      match memRead fs p.2 with
      | some c => woc || blockSafe (mergeMainLE files fs)
          (normalizeLineEndings c (mergeMainLE files fs))
      | none => true) = true)
    (hread : files.enum.all (fun p =>
      match memRead fs p.2 with
      | some c => decide (memRead fs (P.resolve (normalizePath baseDir)
          (normalizePath (P.relative baseDir p.2))) = some c)
      | none => true) = true)
    (hround : files.enum.all (fun p =>
      match memRead fs p.2 with
      | some c => decide (applyEol (eolSpecOfRendered
            (mergeEolField c (mergeMainLE files fs)))
          (normalizeLineEndings c (mergeMainLE files fs)) = c)
      | none => true) = true) :
    splitContent P (mergeFiles P files stdFormatter baseDir woc fs) dryRun fs cH
      = .ok ([], fs) := by
  have hpaths2 : ∀ p ∈ files.enum, ∀ c, memRead fs p.2 = some c →
      normalizePath (P.relative baseDir p.2) ≠ [] ∧
        escLineSafe (normalizePath (P.relative baseDir p.2)) = true := by
    intro p hp c hr
    have h2 := List.all_eq_true.mp hpaths p hp
    rw [hr] at h2
    try dsimp only at h2
    rw [Bool.and_eq_true, decide_eq_true_eq] at h2
    exact h2
  have hcont2 : ∀ p ∈ files.enum, ∀ c, memRead fs p.2 = some c → woc = false →
      blockSafe (mergeMainLE files fs) (normalizeLineEndings c (mergeMainLE files fs))
        = true := by
    intro p hp c hr hw
    have h2 := List.all_eq_true.mp hcont p hp
    rw [hr] at h2
    try dsimp only at h2
    rw [hw, Bool.false_or] at h2
    exact h2
  have hok : renderOk (normalizePath baseDir) (mergeMainLE files fs)
      (mergeSpecs P files baseDir woc fs (mergeMainLE files fs)) :=
    ⟨hbne, hbesc, mergeMainLE_cases files fs,
      mergeSpecs_ok P files baseDir woc fs (mergeMainLE files fs) hpaths2 hcont2,
      mergeSpecs_nodup P files baseDir woc fs (mergeMainLE files fs)⟩
  unfold splitContent
  rw [mergeFiles_eq_renderDoc, parseMerchDoc_renderDoc hok]
  try dsimp only
  rw [buildActions_expected_empty P fs cH (normalizePath baseDir) (mergeMainLE files fs)
    (mergeSpecs P files baseDir woc fs (mergeMainLE files fs))
    (mergeSpecs_nodup P files baseDir woc fs (mergeMainLE files fs))
    (by
      intro sp hsp c0 hc0
      obtain ⟨p, hpmem, c, hr, hspv⟩ :=
        mergeSpecs_elim P files baseDir woc fs (mergeMainLE files fs) sp hsp
      subst hspv
      try dsimp only at hc0 ⊢
      have h2 := List.all_eq_true.mp hround p hpmem
      rw [hr] at h2
      try dsimp only at h2
      rw [decide_eq_true_eq] at h2
      cases hw : woc with
      | true => rw [hw] at hc0; simp at hc0
      | false =>
        rw [hw] at hc0
        simp only [if_neg (show ¬(false = true) from by simp)] at hc0
        rw [Option.some.injEq] at hc0
        rw [← hc0]
        rw [h2]
    )
    (by
      intro _ sp hsp
      obtain ⟨p, hpmem, c, hr, hspv⟩ :=
        mergeSpecs_elim P files baseDir woc fs (mergeMainLE files fs) sp hsp
      subst hspv
      refine Or.inr ⟨c, ?_, rfl⟩
      have h2 := List.all_eq_true.mp hread p hpmem
      rw [hr] at h2
      try dsimp only at h2
      rw [decide_eq_true_eq] at h2
      exact h2)]
  cases dryRun with
  | true => rfl
  | false => rfl

/-- C4 counterexample: a single file whose content mixes `\n` and `\r\n`
line endings; the freshly built document plans a write action, because the
builder stored the dominant-ending normalization of the content while the
hash records the original bytes. -/
theorem splitContent_fresh_mixed_eol_write :
    splitContent simplePath
        (mergeFiles simplePath [jstr "/s/a"] stdFormatter (jstr "/s") false c4Fs)
        true c4Fs true
      = .ok ([.write (jstr "/s/a") (jstr "a\r\nb\r\n") (some ⟨158, 195⟩)], c4Fs) := by
  rfl

theorem splitContent_fresh_build_empty_witness :
    (normalizePath (jstr "/s") ≠ [] ∧
      escLineSafe (normalizePath (jstr "/s")) = true ∧
      ([jstr "/s/a"].enum.all (fun p =>
        match memRead [(jstr "/s/a", jstr "x\n")] p.2 with
        | some _ => decide (normalizePath (simplePath.relative (jstr "/s") p.2) ≠ []) &&
            escLineSafe (normalizePath (simplePath.relative (jstr "/s") p.2))
        | none => true) = true) ∧
      ([jstr "/s/a"].enum.all (fun p =>
        match memRead [(jstr "/s/a", jstr "x\n")] p.2 with
        | some c => false || blockSafe (mergeMainLE [jstr "/s/a"] [(jstr "/s/a", jstr "x\n")])
            (normalizeLineEndings c (mergeMainLE [jstr "/s/a"] [(jstr "/s/a", jstr "x\n")]))
        | none => true) = true) ∧
      ([jstr "/s/a"].enum.all (fun p =>
        match memRead [(jstr "/s/a", jstr "x\n")] p.2 with
        | some c => decide (memRead [(jstr "/s/a", jstr "x\n")]
            (simplePath.resolve (normalizePath (jstr "/s"))
              (normalizePath (simplePath.relative (jstr "/s") p.2))) = some c)
        | none => true) = true) ∧
      ([jstr "/s/a"].enum.all (fun p =>
        match memRead [(jstr "/s/a", jstr "x\n")] p.2 with
        | some c => decide (applyEol (eolSpecOfRendered
              (mergeEolField c (mergeMainLE [jstr "/s/a"] [(jstr "/s/a", jstr "x\n")])))
            (normalizeLineEndings c
              (mergeMainLE [jstr "/s/a"] [(jstr "/s/a", jstr "x\n")])) = c)
        | none => true) = true)) ∧
    splitContent simplePath
        (mergeFiles simplePath [jstr "/s/a"] stdFormatter (jstr "/s") false
          [(jstr "/s/a", jstr "x\n")])
        false [(jstr "/s/a", jstr "x\n")] true
      = .ok ([], [(jstr "/s/a", jstr "x\n")]) :=
  ⟨⟨by decide, by decide, by decide, by decide, by decide, by decide⟩,
    splitContent_fresh_build_empty simplePath [jstr "/s/a"] (jstr "/s") false
      [(jstr "/s/a", jstr "x\n")] true false (by decide) (by decide) (by decide) (by decide)
      (by decide) (by decide)⟩

theorem lastIndexOfCh_last (ch : Char) :
    ∀ (y : JStr), lastIndexOfCh (y ++ [ch]) ch = some y.length := by
  intro y
  induction y with
  | nil => simp [lastIndexOfCh]
  | cons x t ih =>
    rw [List.cons_append, lastIndexOfCh, ih]
    simp

theorem substrJS_zero_take (d : JStr) (k : Nat) : substrJS d 0 k = d.take k := by
  unfold substrJS
  simp

theorem substrJS_drop (d : JStr) (k : Nat) (h : k ≤ d.length) :
    substrJS d k d.length = d.drop k := by
  unfold substrJS
  rw [max_eq_right h, min_eq_left h, List.take_length]

theorem find?_manifestRecsFrom (le : JStr) :
    ∀ (specs : List FileSpec) (off : Nat) (sp : FileSpec), sp ∈ specs →
      (specs.map (fun s => s.idx)).Nodup →
      ∃ off2, (manifestRecsFrom le off specs).find?
          (fun e => e.idx = jnumOfNat sp.idx) = some (manifestRecOf off2 sp) := by
  intro specs
  induction specs with
  | nil => intro off sp h; simp at h
  | cons sp1 t ih =>
    intro off sp h hnd
    rw [List.map_cons, List.nodup_cons] at hnd
    rw [manifestRecsFrom]
    rcases List.mem_cons.mp h with h1 | h1
    · subst h1
      refine ⟨off, ?_⟩
      rw [List.find?_cons_of_pos _ (by simp [manifestRecOf])]
    · have hne : jnumOfNat sp1.idx ≠ jnumOfNat sp.idx := by
        intro hEq
        have h2 := jnumOfNat_inj hEq
        apply hnd.1
        rw [h2]
        exact List.mem_map_of_mem _ h1
      rw [List.find?_cons_of_neg _ (by simp [manifestRecOf, hne])]
      exact ih _ sp h1 hnd.2

theorem jmGet_updatedRecsFrom_last (le : JStr) (spL : FileSpec) :
    ∀ (specs0 : List FileSpec) (off : Nat),
      (((specs0 ++ [spL]).map (fun s => s.idx)).Nodup) →
      jmGet (updatedRecsFrom le off (specs0 ++ [spL])) (jnumOfNat spL.idx)
        = some (updatedRecOf
            (off + ((specs0.map (fun s => (blockOf le s).length)).sum)) spL) := by
  intro specs0
  induction specs0 with
  | nil =>
    intro off _
    rw [List.nil_append, updatedRecsFrom, jmGet, if_pos rfl]
    simp
  | cons s0 t ih =>
    intro off hnd
    rw [List.cons_append] at hnd ⊢
    rw [List.map_cons, List.nodup_cons] at hnd
    have hne : jnumOfNat s0.idx ≠ jnumOfNat spL.idx := by
      intro hEq
      have h2 := jnumOfNat_inj hEq
      apply hnd.1
      rw [h2]
      exact List.mem_map_of_mem _ (by simp)
    rw [updatedRecsFrom, jmGet, if_neg hne]
    rw [ih _ hnd.2]
    rw [List.map_cons, List.sum_cons]
    rw [show off + (blockOf le s0).length + (t.map (fun s => (blockOf le s).length)).sum
        = off + ((blockOf le s0).length + (t.map (fun s => (blockOf le s).length)).sum)
        from by omega]

theorem updatedRecsFrom_starts_le (le : JStr) (spL : FileSpec) :
    ∀ (specs0 : List FileSpec) (off : Nat) (p : JNum × UpdatedFileInfo),
      p ∈ updatedRecsFrom le off (specs0 ++ [spL]) →
      p.2.headerOffsetRange.start
        ≤ off + ((specs0.map (fun s => (blockOf le s).length)).sum) := by
  intro specs0
  induction specs0 with
  | nil =>
    intro off p hp
    rw [List.nil_append, updatedRecsFrom] at hp
    rcases List.mem_cons.mp hp with h1 | h1
    · rw [h1]
      simp [updatedRecOf]
    · simp [updatedRecsFrom] at h1
  | cons s0 t ih =>
    intro off p hp
    rw [List.cons_append, updatedRecsFrom] at hp
    rw [List.map_cons, List.sum_cons]
    rcases List.mem_cons.mp hp with h1 | h1
    · rw [h1]
      simp [updatedRecOf]
    · have h2 := ih (off + (blockOf le s0).length) p h1
      omega

theorem trimEnd_at_end (d x c le : JStr)
    (hle : le = jstr "\n" ∨ le = jstr "\r\n")
    (hdoc : d = x ++ (le ++ (c ++ le)))
    (hsafe : le = jstr "\n" → ¬(c.getLast? = some '\x0d')) :
    trimEnd d d.length = x.length + le.length + c.length := by
  have hlen : d.length = x.length + le.length + c.length + le.length := by
    rw [hdoc]
    simp
    try omega
  unfold trimEnd
  rw [hlen]
  rcases hle with h | h
  · subst h
    have hl1 : (jstr "\n").length = 1 := by simp [jstr]
    rw [hl1]
    have h1 : charAt d (x.length + 1 + c.length + 1 - 1) = some '\n' := by
      have hs : x.length + 1 + c.length + 1 - 1 = (x ++ jstr "\n" ++ c).length := by
        simp [jstr]
        try omega
      rw [hs, hdoc, show x ++ (jstr "\n" ++ (c ++ jstr "\n"))
          = (x ++ jstr "\n" ++ c) ++ '\n' :: [] from by simp [jstr]]
      exact charAt_append_cons _ '\n' []
    have hcnd : 0 < x.length + 1 + c.length + 1 ∧
        charAt d (x.length + 1 + c.length + 1 - 1) = some '\n' := ⟨by omega, h1⟩
    rw [if_pos hcnd]
    have h2 : ¬(0 < x.length + 1 + c.length + 1 - 1 ∧
        charAt d (x.length + 1 + c.length + 1 - 1 - 1) = some '\x0d') := by
      rintro ⟨h3, h4⟩
      rcases List.eq_nil_or_concat c with hc | ⟨c2, cl, hc⟩
      · subst hc
        have h5 : charAt d (x.length + 1 + List.length ([] : JStr) + 1 - 1 - 1)
            = some '\n' := by
          have hs : x.length + 1 + List.length ([] : JStr) + 1 - 1 - 1 = x.length := by
            simp
          rw [hs, hdoc, show jstr "\n" ++ (([] : JStr) ++ jstr "\n")
              = '\n' :: ('\n' :: []) from by simp [jstr]]
          exact charAt_append_cons x '\n' _
        rw [h5] at h4
        simp at h4
      · subst hc
        simp only [List.concat_eq_append] at hdoc hsafe h4
        have h5 : charAt d (x.length + 1 + (c2 ++ [cl]).length + 1 - 1 - 1) = some cl := by
          have hs : x.length + 1 + (c2 ++ [cl]).length + 1 - 1 - 1
              = (x ++ jstr "\n" ++ c2).length := by
            simp [jstr]
            try omega
          rw [hs, hdoc, show x ++ (jstr "\n" ++ ((c2 ++ [cl]) ++ jstr "\n"))
              = (x ++ jstr "\n" ++ c2) ++ cl :: jstr "\n" from by simp [jstr]]
          exact charAt_append_cons _ cl _
        rw [h5] at h4
        have h6 : cl = '\x0d' := by simpa using h4
        subst h6
        exact hsafe trivial (by simp)
    rw [if_neg h2]
    omega
  · subst h
    have hl1 : (jstr "\r\n").length = 2 := by simp [jstr]
    rw [hl1]
    have h1 : charAt d (x.length + 2 + c.length + 2 - 1) = some '\n' := by
      have hs : x.length + 2 + c.length + 2 - 1
          = (x ++ jstr "\r\n" ++ c ++ ['\r']).length := by
        simp [jstr]
        try omega
      rw [hs, hdoc, show x ++ (jstr "\r\n" ++ (c ++ jstr "\r\n"))
          = (x ++ jstr "\r\n" ++ c ++ ['\r']) ++ '\n' :: [] from by simp [jstr]]
      exact charAt_append_cons _ '\n' []
    have hcnd : 0 < x.length + 2 + c.length + 2 ∧
        charAt d (x.length + 2 + c.length + 2 - 1) = some '\n' := ⟨by omega, h1⟩
    rw [if_pos hcnd]
    have h2 : charAt d (x.length + 2 + c.length + 2 - 1 - 1) = some '\x0d' := by
      have hs : x.length + 2 + c.length + 2 - 1 - 1 = (x ++ jstr "\r\n" ++ c).length := by
        simp [jstr]
        try omega
      rw [hs, hdoc, show x ++ (jstr "\r\n" ++ (c ++ jstr "\r\n"))
          = (x ++ jstr "\r\n" ++ c) ++ '\r' :: ('\n' :: []) from by simp [jstr]]
      exact charAt_append_cons _ '\x0d' _
    have hcnd2 : 0 < x.length + 2 + c.length + 2 - 1 ∧
        charAt d (x.length + 2 + c.length + 2 - 1 - 1) = some '\x0d' := ⟨by omega, h2⟩
    rw [if_pos hcnd2]
    omega

theorem fileHeaderOf_some (sp : FileSpec) (c : JStr) (hc : sp.content = some c) :
    fileHeaderOf sp = fileHeaderOf
      ⟨sp.idx, sp.path, sp.hash, sp.eol, none⟩ ++ [':'] := by
  unfold fileHeaderOf LineFormatter.format
  rw [hc]
  simp [stdFormatter]

theorem manifestLineOf_content_free (sp : FileSpec) :
    manifestLineOf ⟨sp.idx, sp.path, sp.hash, sp.eol, none⟩ = manifestLineOf sp := rfl

theorem specOk_content_none {le : JStr} {sp : FileSpec} (h : specOk le sp = true) :
    specOk le (⟨sp.idx, sp.path, sp.hash, sp.eol, none⟩ : FileSpec) = true := by
  unfold specOk at h ⊢
  try dsimp only at h ⊢
  simp only [Bool.and_eq_true] at h ⊢
  exact ⟨⟨h.1.1, h.1.2⟩, by simp⟩

/-- C7 counterexample to the unrestricted claim: on `c7Doc`, whose content
block lacks a trailing line terminator, `foldFile` reports `hadModifiedContent
= false` (the stored hash matches), yet unfolding the folded document yields
`c7Doc ++ "\n"`, not `c7Doc`: `unfoldFile` always re-inserts a line terminator
after the restored content. -/
theorem fold_unfold_adds_trailing_newline :
    (match parseMerchDoc c7Doc with
     | .ok doc =>
       match jmGet doc.updatedFiles (jnumOfNat 0) with
       | some u =>
         match foldFile c7Doc u c7Fs (jstr "/s") with
         | .ok r =>
           !r.hadModifiedContent &&
           (match parseMerchDoc r.newContent with
            | .ok doc2 =>
              match jmGet doc2.updatedFiles (jnumOfNat 0) with
              | some u2 =>
                match unfoldFile simplePath r.newContent u2 c7Fs (jstr "/s") with
                | .ok r2 => decide (r2.newContent = c7Doc ++ jstr "\n")
                | .error _ => false
              | none => false
            | .error _ => false)
         | .error _ => false
       | none => false
     | .error _ => false) = true
    ∧ c7Doc ++ jstr "\n" ≠ c7Doc :=
  ⟨by decide, by decide⟩

theorem updatedRecsFrom_append (le : JStr) (B : List FileSpec) :
    ∀ (A : List FileSpec) (off : Nat),
      updatedRecsFrom le off (A ++ B)
        = updatedRecsFrom le off A
          ++ updatedRecsFrom le (off + ((A.map (fun s => (blockOf le s).length)).sum)) B := by
  intro A
  induction A with
  | nil => intro off; simp [updatedRecsFrom]
  | cons a t ih =>
    intro off
    rw [List.cons_append, updatedRecsFrom, updatedRecsFrom, ih]
    rw [List.map_cons, List.sum_cons, List.cons_append]
    rw [show off + (blockOf le a).length + (t.map (fun s => (blockOf le s).length)).sum
        = off + ((blockOf le a).length + (t.map (fun s => (blockOf le s).length)).sum)
        from by omega]

theorem updatedRecsFrom_start_lb (le : JStr) :
    ∀ (specs : List FileSpec) (off : Nat) (p : JNum × UpdatedFileInfo),
      p ∈ updatedRecsFrom le off specs → off ≤ p.2.headerOffsetRange.start := by
  intro specs
  induction specs with
  | nil => intro off p hp; simp [updatedRecsFrom] at hp
  | cons sp t ih =>
    intro off p hp
    rw [updatedRecsFrom] at hp
    rcases List.mem_cons.mp hp with h1 | h1
    · rw [h1]
      simp [updatedRecOf]
    · have h2 := ih (off + (blockOf le sp).length) p h1
      omega

theorem jmGet_updatedRecsFrom_mid (le : JStr) (spM : FileSpec) (specs1 : List FileSpec) :
    ∀ (specs0 : List FileSpec) (off : Nat),
      (((specs0 ++ spM :: specs1).map (fun s => s.idx)).Nodup) →
      jmGet (updatedRecsFrom le off (specs0 ++ spM :: specs1)) (jnumOfNat spM.idx)
        = some (updatedRecOf
            (off + ((specs0.map (fun s => (blockOf le s).length)).sum)) spM) := by
  intro specs0
  induction specs0 with
  | nil =>
    intro off _
    rw [List.nil_append, updatedRecsFrom, jmGet, if_pos rfl]
    simp
  | cons s0 t ih =>
    intro off hnd
    rw [List.cons_append] at hnd ⊢
    rw [List.map_cons, List.nodup_cons] at hnd
    have hne : jnumOfNat s0.idx ≠ jnumOfNat spM.idx := by
      intro hEq
      have h2 := jnumOfNat_inj hEq
      apply hnd.1
      rw [h2]
      exact List.mem_map_of_mem _ (by simp)
    rw [updatedRecsFrom, jmGet, if_neg hne]
    rw [ih _ hnd.2]
    rw [List.map_cons, List.sum_cons]
    rw [show off + (blockOf le s0).length + (t.map (fun s => (blockOf le s).length)).sum
        = off + ((blockOf le s0).length + (t.map (fun s => (blockOf le s).length)).sum)
        from by omega]

theorem foldl_min_all_ge (a : Nat) :
    ∀ (l : List Nat), (∀ x ∈ l, a ≤ x) → l.foldl min a = a := by
  intro l
  induction l with
  | nil => intro _; rfl
  | cons x t ih =>
    intro h
    rw [List.foldl_cons, min_eq_left (h x (by simp))]
    exact ih (fun y hy => h y (by simp [hy]))

theorem blockOf_length_pos (le : JStr) (sp : FileSpec)
    (hle : le = jstr "\n" ∨ le = jstr "\r\n") : 0 < (blockOf le sp).length := by
  have hlen : 0 < le.length := by
    rcases hle with h | h <;> rw [h] <;> simp [jstr]
  unfold blockOf
  simp
  omega

theorem trimEnd_block (d x c le rest : JStr)
    (hle : le = jstr "\n" ∨ le = jstr "\r\n")
    (hdoc : d = x ++ (le ++ (c ++ (le ++ rest))))
    (hsafe : le = jstr "\n" → ¬(c.getLast? = some '\x0d')) :
    trimEnd d (x.length + le.length + c.length + le.length)
      = x.length + le.length + c.length := by
  unfold trimEnd
  rcases hle with h | h
  · subst h
    have hl1 : (jstr "\n").length = 1 := by simp [jstr]
    rw [hl1]
    have h1 : charAt d (x.length + 1 + c.length + 1 - 1) = some '\n' := by
      have hs : x.length + 1 + c.length + 1 - 1 = (x ++ jstr "\n" ++ c).length := by
        simp [jstr]
        try omega
      rw [hs, hdoc, show x ++ (jstr "\n" ++ (c ++ (jstr "\n" ++ rest)))
          = (x ++ jstr "\n" ++ c) ++ '\n' :: rest from by simp [jstr]]
      exact charAt_append_cons _ '\n' rest
    have hcnd : 0 < x.length + 1 + c.length + 1 ∧
        charAt d (x.length + 1 + c.length + 1 - 1) = some '\n' := ⟨by omega, h1⟩
    rw [if_pos hcnd]
    have h2 : ¬(0 < x.length + 1 + c.length + 1 - 1 ∧
        charAt d (x.length + 1 + c.length + 1 - 1 - 1) = some '\x0d') := by
      rintro ⟨h3, h4⟩
      rcases List.eq_nil_or_concat c with hc | ⟨c2, cl, hc⟩
      · subst hc
        have h5 : charAt d (x.length + 1 + List.length ([] : JStr) + 1 - 1 - 1)
            = some '\n' := by
          have hs : x.length + 1 + List.length ([] : JStr) + 1 - 1 - 1 = x.length := by
            simp
          rw [hs, hdoc, show jstr "\n" ++ (([] : JStr) ++ (jstr "\n" ++ rest))
              = '\n' :: ('\n' :: rest) from by simp [jstr]]
          exact charAt_append_cons x '\n' _
        rw [h5] at h4
        simp at h4
      · subst hc
        simp only [List.concat_eq_append] at hdoc hsafe h4
        have h5 : charAt d (x.length + 1 + (c2 ++ [cl]).length + 1 - 1 - 1) = some cl := by
          have hs : x.length + 1 + (c2 ++ [cl]).length + 1 - 1 - 1
              = (x ++ jstr "\n" ++ c2).length := by
            simp [jstr]
            try omega
          rw [hs, hdoc, show x ++ (jstr "\n" ++ ((c2 ++ [cl]) ++ (jstr "\n" ++ rest)))
              = (x ++ jstr "\n" ++ c2) ++ cl :: (jstr "\n" ++ rest) from by simp [jstr]]
          exact charAt_append_cons _ cl _
        rw [h5] at h4
        have h6 : cl = '\x0d' := by simpa using h4
        subst h6
        exact hsafe trivial (by simp)
    rw [if_neg h2]
    omega
  · subst h
    have hl1 : (jstr "\r\n").length = 2 := by simp [jstr]
    rw [hl1]
    have h1 : charAt d (x.length + 2 + c.length + 2 - 1) = some '\n' := by
      have hs : x.length + 2 + c.length + 2 - 1
          = (x ++ jstr "\r\n" ++ c ++ ['\r']).length := by
        simp [jstr]
        try omega
      rw [hs, hdoc, show x ++ (jstr "\r\n" ++ (c ++ (jstr "\r\n" ++ rest)))
          = (x ++ jstr "\r\n" ++ c ++ ['\r']) ++ '\n' :: rest from by simp [jstr]]
      exact charAt_append_cons _ '\n' rest
    have hcnd : 0 < x.length + 2 + c.length + 2 ∧
        charAt d (x.length + 2 + c.length + 2 - 1) = some '\n' := ⟨by omega, h1⟩
    rw [if_pos hcnd]
    have h2 : charAt d (x.length + 2 + c.length + 2 - 1 - 1) = some '\x0d' := by
      have hs : x.length + 2 + c.length + 2 - 1 - 1 = (x ++ jstr "\r\n" ++ c).length := by
        simp [jstr]
        try omega
      rw [hs, hdoc, show x ++ (jstr "\r\n" ++ (c ++ (jstr "\r\n" ++ rest)))
          = (x ++ jstr "\r\n" ++ c) ++ '\r' :: ('\n' :: rest) from by simp [jstr]]
      exact charAt_append_cons _ '\x0d' _
    have hcnd2 : 0 < x.length + 2 + c.length + 2 - 1 ∧
        charAt d (x.length + 2 + c.length + 2 - 1 - 1) = some '\x0d' := ⟨by omega, h2⟩
    rw [if_pos hcnd2]
    omega

theorem needsTrailing_le_append (le rest : JStr)
    (hle : le = jstr "\n" ∨ le = jstr "\r\n") :
    (!(startsWithL (le ++ rest) (jstr "\n")) && !(startsWithL (le ++ rest) (jstr "\r\n")))
      = false := by
  rcases hle with h | h
  · subst h
    rw [startsWithL_append_self]
    simp
  · subst h
    rw [startsWithL_append_self]
    simp

theorem renderOk_content_none_mid {base le : JStr} {specs0 specs1 : List FileSpec}
    {spM : FileSpec} (hok : renderOk base le (specs0 ++ spM :: specs1)) :
    renderOk base le (specs0 ++ ⟨spM.idx, spM.path, spM.hash, spM.eol, none⟩ :: specs1) := by
  obtain ⟨h1, h2, h3, h4, h5⟩ := hok
  refine ⟨h1, h2, h3, ?_, ?_⟩
  · intro sp hsp
    rcases List.mem_append.mp hsp with h | h
    · exact h4 sp (List.mem_append.mpr (.inl h))
    · rcases List.mem_cons.mp h with h | h
      · rw [h]
        exact specOk_content_none (h4 spM (List.mem_append.mpr (.inr (by simp))))
      · exact h4 sp (List.mem_append.mpr (.inr (by simp [h])))
  · simpa using h5

theorem bodyStart_content_none_mid (base le : JStr) (specs0 specs1 : List FileSpec)
    (spM : FileSpec) :
    bodyStart base le (specs0 ++ ⟨spM.idx, spM.path, spM.hash, spM.eol, none⟩ :: specs1)
    = bodyStart base le (specs0 ++ spM :: specs1) := by
  unfold bodyStart
  rw [List.map_append, List.map_append]
  rfl

theorem foldFile_renderDoc_last (fs : MemFs) (bp base le : JStr)
    (specs0 : List FileSpec) (spL : FileSpec) (c : JStr)
    (hok : renderOk base le (specs0 ++ [spL]))
    (hc : spL.content = some c)
    (hhash : spL.hash = computeHash (applyEol (eolSpecOfRendered spL.eol) c)) :
    foldFile (renderDoc base le (specs0 ++ [spL]))
        (updatedRecOf (bodyStart base le (specs0 ++ [spL]) +
          ((specs0.map (fun s => (blockOf le s).length)).sum)) spL) fs bp
      = .ok ⟨renderDoc base le
          (specs0 ++ [⟨spL.idx, spL.path, spL.hash, spL.eol, none⟩]), false⟩ := by
  have hokL : specOk le spL = true := hok.2.2.2.1 spL (by simp)
  have hle := hok.2.2.1
  have hsafe : le = jstr "\n" → ¬(c.getLast? = some '\x0d') := by
    intro hle1
    have hbs := (specOk_fields hokL).2.2.2.2.2 c hc
    unfold blockSafe at hbs
    simp only [Bool.and_eq_true, Bool.or_eq_true, decide_eq_true_eq, Bool.not_eq_true',
      decide_eq_false_iff_not] at hbs
    rcases hbs.2 with h2 | h2
    · rw [hle1] at h2
      exact absurd h2 (by simp [jstr])
    · exact h2
  set x0 : JStr := sepLine ++ le ++ setupLineOf base ++ le ++
    (((specs0 ++ [spL]).map (fun sp => manifestLineOf sp ++ le)).flatten) ++
    sepLine ++ le ++ le ++ ((specs0.map (blockOf le)).flatten) with hx0def
  have hd1 : renderDoc base le (specs0 ++ [spL])
      = x0 ++ (fileHeaderOf spL ++ (le ++ (c ++ le))) := by
    rw [hx0def]
    unfold renderDoc
    rw [show (specs0 ++ [spL]).map (blockOf le) = specs0.map (blockOf le) ++ [blockOf le spL]
      from by simp]
    rw [show blockOf le spL = fileHeaderOf spL ++ (le ++ (c ++ le)) from by
      unfold blockOf
      rw [hc]
      simp]
    simp
  have hd2 : renderDoc base le (specs0 ++ [⟨spL.idx, spL.path, spL.hash, spL.eol, none⟩])
      = x0 ++ (fileHeaderOf (⟨spL.idx, spL.path, spL.hash, spL.eol, none⟩ : FileSpec)
          ++ le) := by
    rw [hx0def]
    unfold renderDoc
    rw [show (specs0 ++ [(⟨spL.idx, spL.path, spL.hash, spL.eol, none⟩ : FileSpec)]).map
          (blockOf le)
        = specs0.map (blockOf le) ++ [blockOf le ⟨spL.idx, spL.path, spL.hash, spL.eol, none⟩]
      from by simp]
    rw [show blockOf le (⟨spL.idx, spL.path, spL.hash, spL.eol, none⟩ : FileSpec)
        = fileHeaderOf (⟨spL.idx, spL.path, spL.hash, spL.eol, none⟩ : FileSpec) ++ le from by
      unfold blockOf
      simp]
    rw [show (specs0 ++ [(⟨spL.idx, spL.path, spL.hash, spL.eol, none⟩ : FileSpec)]).map
          (fun sp => manifestLineOf sp ++ le)
        = (specs0 ++ [spL]).map (fun sp => manifestLineOf sp ++ le) from by
      simp [manifestLineOf_content_free spL]]
    simp
  have hx0len : x0.length = bodyStart base le (specs0 ++ [spL]) +
      ((specs0.map (fun s => (blockOf le s).length)).sum) := by
    rw [hx0def]
    unfold bodyStart manifestStart
    simp only [List.length_append, List.length_join, List.map_map]
    have h2 : ∀ (l : List FileSpec), (l.map (List.length ∘ fun sp => manifestLineOf sp ++ le)).sum
        = (l.map (fun sp => (manifestLineOf sp).length + le.length)).sum := by
      intro l
      congr 1
      apply List.map_congr_left
      intro sp _
      simp
    rw [h2]
    have h3 : (specs0.map (List.length ∘ blockOf le)).sum
        = (specs0.map (fun s => (blockOf le s).length)).sum := by
      congr 1
    rw [h3]
    try omega
  obtain ⟨off2, hfind⟩ := find?_manifestRecsFrom le (specs0 ++ [spL])
    (manifestStart base le) spL (by simp) hok.2.2.2.2
  unfold foldFile
  simp only [updatedRecOf]
  try dsimp only
  rw [hc]
  try dsimp only
  rw [parseMerchDoc_renderDoc hok]
  try dsimp only
  rw [show (expectedParsedDoc base le (specs0 ++ [spL])).existingFiles
      = manifestRecsFrom le (manifestStart base le) (specs0 ++ [spL]) from rfl]
  rw [hfind]
  try dsimp only
  rw [show (manifestRecOf off2 spL).hash = some spL.hash from rfl]
  rw [hhash]
  rw [show (decide (¬(some (computeHash (applyEol (eolSpecOfRendered spL.eol) c))
      = some (computeHash (applyEol (eolSpecOfRendered spL.eol) c))))) = false from by simp]
  rw [← hx0len]
  have hd1b : renderDoc base le (specs0 ++ [spL])
      = (x0 ++ fileHeaderOf spL) ++ (le ++ (c ++ le)) := by
    rw [hd1]
    simp
  have hsub1 : substrJS (renderDoc base le (specs0 ++ [spL])) x0.length
      (x0.length + (fileHeaderOf spL).length) = fileHeaderOf spL := by
    rw [show renderDoc base le (specs0 ++ [spL])
        = x0 ++ fileHeaderOf spL ++ (le ++ (c ++ le)) from hd1b]
    exact substrJS_extract x0 (fileHeaderOf spL) (le ++ (c ++ le))
  rw [hsub1]
  rw [fileHeaderOf_some spL c hc, lastIndexOfCh_last]
  try dsimp only
  have hfce : findContentEnd (renderDoc base le (specs0 ++ [spL])) x0.length
      (expectedParsedDoc base le (specs0 ++ [spL]))
      = (x0 ++ fileHeaderOf spL).length + le.length + c.length := by
    unfold findContentEnd
    rw [show (expectedParsedDoc base le (specs0 ++ [spL])).updatedFiles
        = updatedRecsFrom le (bodyStart base le (specs0 ++ [spL])) (specs0 ++ [spL])
        from rfl]
    rw [show (expectedParsedDoc base le (specs0 ++ [spL])).newFiles
        = ([] : List NewFileInfo) from rfl]
    have hfilt : ((updatedRecsFrom le (bodyStart base le (specs0 ++ [spL]))
          (specs0 ++ [spL])).map (fun p => p.2.headerOffsetRange.start)).filter
          (fun s => decide (x0.length < s)) = [] := by
      rw [List.filter_eq_nil]
      intro a ha
      obtain ⟨p, hp, hpa⟩ := List.mem_map.mp ha
      have hb := updatedRecsFrom_starts_le le spL specs0
        (bodyStart base le (specs0 ++ [spL])) p hp
      rw [hpa] at hb
      rw [← hx0len] at hb
      simp
      omega
    rw [hfilt]
    simp only [List.map_nil, List.filter_nil, List.append_nil]
    exact trimEnd_at_end _ (x0 ++ fileHeaderOf spL) c le hle hd1b hsafe
  rw [hfce]
  have hd1c : renderDoc base le (specs0 ++ [spL])
      = (x0 ++ fileHeaderOf (⟨spL.idx, spL.path, spL.hash, spL.eol, none⟩ : FileSpec))
        ++ ([':'] ++ (le ++ (c ++ le))) := by
    rw [hd1, fileHeaderOf_some spL c hc]
    simp
  have hsub0 : substrJS (renderDoc base le (specs0 ++ [spL])) 0
      (x0.length + (fileHeaderOf
        (⟨spL.idx, spL.path, spL.hash, spL.eol, none⟩ : FileSpec)).length)
      = x0 ++ fileHeaderOf (⟨spL.idx, spL.path, spL.hash, spL.eol, none⟩ : FileSpec) := by
    rw [substrJS_zero_take, hd1c]
    rw [show x0.length + (fileHeaderOf
        (⟨spL.idx, spL.path, spL.hash, spL.eol, none⟩ : FileSpec)).length
        = (x0 ++ fileHeaderOf
            (⟨spL.idx, spL.path, spL.hash, spL.eol, none⟩ : FileSpec)).length
        from by simp]
    exact List.take_left _ _
  rw [hsub0]
  have hsub2 : substrJS (renderDoc base le (specs0 ++ [spL]))
      ((x0 ++ fileHeaderOf spL).length + le.length + c.length)
      (renderDoc base le (specs0 ++ [spL])).length = le := by
    have hd1d : renderDoc base le (specs0 ++ [spL])
        = ((x0 ++ fileHeaderOf spL) ++ le ++ c) ++ le := by
      rw [hd1b]
      simp
    rw [substrJS_drop _ _ (by rw [hd1d]; simp; omega)]
    rw [hd1d]
    rw [show ((x0 ++ fileHeaderOf spL).length + le.length + c.length)
        = ((x0 ++ fileHeaderOf spL) ++ le ++ c).length from by simp; omega]
    exact List.drop_left _ _
  rw [hsub2]
  rw [← hhash]
  rw [hd2]
  rw [List.append_assoc]

theorem renderOk_content_none {base le : JStr} {specs0 : List FileSpec} {spL : FileSpec}
    (hok : renderOk base le (specs0 ++ [spL])) :
    renderOk base le (specs0 ++ [⟨spL.idx, spL.path, spL.hash, spL.eol, none⟩]) := by
  obtain ⟨h1, h2, h3, h4, h5⟩ := hok
  refine ⟨h1, h2, h3, ?_, ?_⟩
  · intro sp hsp
    rcases List.mem_append.mp hsp with h | h
    · exact h4 sp (List.mem_append.mpr (.inl h))
    · simp at h
      rw [h]
      exact specOk_content_none (h4 spL (List.mem_append.mpr (.inr (by simp))))
  · simpa using h5

theorem bodyStart_content_none (base le : JStr) (specs0 : List FileSpec) (spL : FileSpec) :
    bodyStart base le (specs0 ++ [⟨spL.idx, spL.path, spL.hash, spL.eol, none⟩])
    = bodyStart base le (specs0 ++ [spL]) := by
  unfold bodyStart
  rw [List.map_append, List.map_append]
  rfl

theorem needsTrailing_of_le (le : JStr) (hle : le = jstr "\n" ∨ le = jstr "\r\n") :
    (!(startsWithL le (jstr "\n")) && !(startsWithL le (jstr "\r\n"))) = false := by
  rcases hle with h | h <;> rw [h] <;> decide

theorem unfoldFile_renderDoc_last (P : IPath) (fs : MemFs) (bp base le : JStr)
    (specs0 : List FileSpec) (spL : FileSpec) (c d0 : JStr)
    (hok : renderOk base le (specs0 ++ [spL]))
    (hc : spL.content = some c)
    (hfsread : memRead fs (P.resolve bp spL.path) = some d0)
    (hnorm : (match detectLineEnding d0 with
        | some fle => if fle ≠ le then normalizeLineEndings d0 le else d0
        | none => d0) = c)
    (hdet : detectLineEnding (renderDoc base le
        (specs0 ++ [(⟨spL.idx, spL.path, spL.hash, spL.eol, none⟩ : FileSpec)])) = some le) :
    unfoldFile P
      (renderDoc base le (specs0 ++ [(⟨spL.idx, spL.path, spL.hash, spL.eol, none⟩ : FileSpec)]))
      (updatedRecOf
        (bodyStart base le (specs0 ++ [(⟨spL.idx, spL.path, spL.hash, spL.eol, none⟩ : FileSpec)])
          + ((specs0.map (fun s => (blockOf le s).length)).sum))
        (⟨spL.idx, spL.path, spL.hash, spL.eol, none⟩ : FileSpec))
      fs bp
    = .ok ⟨renderDoc base le (specs0 ++ [spL])⟩ := by
  have hokL : specOk le spL = true := hok.2.2.2.1 spL (by simp)
  have hle := hok.2.2.1
  have hok2 := renderOk_content_none hok
  set x0 : JStr := sepLine ++ le ++ setupLineOf base ++ le ++
    (((specs0 ++ [spL]).map (fun sp => manifestLineOf sp ++ le)).flatten) ++
    sepLine ++ le ++ le ++ ((specs0.map (blockOf le)).flatten) with hx0def
  have hd1 : renderDoc base le (specs0 ++ [spL])
      = x0 ++ (fileHeaderOf spL ++ (le ++ (c ++ le))) := by
    rw [hx0def]
    unfold renderDoc
    rw [show (specs0 ++ [spL]).map (blockOf le) = specs0.map (blockOf le) ++ [blockOf le spL]
      from by simp]
    rw [show blockOf le spL = fileHeaderOf spL ++ (le ++ (c ++ le)) from by
      unfold blockOf
      rw [hc]
      simp]
    simp
  have hd2 : renderDoc base le (specs0 ++ [⟨spL.idx, spL.path, spL.hash, spL.eol, none⟩])
      = x0 ++ (fileHeaderOf (⟨spL.idx, spL.path, spL.hash, spL.eol, none⟩ : FileSpec)
          ++ le) := by
    rw [hx0def]
    unfold renderDoc
    rw [show (specs0 ++ [(⟨spL.idx, spL.path, spL.hash, spL.eol, none⟩ : FileSpec)]).map
          (blockOf le)
        = specs0.map (blockOf le) ++ [blockOf le ⟨spL.idx, spL.path, spL.hash, spL.eol, none⟩]
      from by simp]
    rw [show blockOf le (⟨spL.idx, spL.path, spL.hash, spL.eol, none⟩ : FileSpec)
        = fileHeaderOf (⟨spL.idx, spL.path, spL.hash, spL.eol, none⟩ : FileSpec) ++ le from by
      unfold blockOf
      simp]
    rw [show (specs0 ++ [(⟨spL.idx, spL.path, spL.hash, spL.eol, none⟩ : FileSpec)]).map
          (fun sp => manifestLineOf sp ++ le)
        = (specs0 ++ [spL]).map (fun sp => manifestLineOf sp ++ le) from by
      simp [manifestLineOf_content_free spL]]
    simp
  have hx0len : x0.length = bodyStart base le (specs0 ++ [spL]) +
      ((specs0.map (fun s => (blockOf le s).length)).sum) := by
    rw [hx0def]
    unfold bodyStart manifestStart
    simp only [List.length_append, List.length_join, List.map_map]
    have h2 : ∀ (l : List FileSpec), (l.map (List.length ∘ fun sp => manifestLineOf sp ++ le)).sum
        = (l.map (fun sp => (manifestLineOf sp).length + le.length)).sum := by
      intro l
      congr 1
      apply List.map_congr_left
      intro sp _
      simp
    rw [h2]
    have h3 : (specs0.map (List.length ∘ blockOf le)).sum
        = (specs0.map (fun s => (blockOf le s).length)).sum := by
      congr 1
    rw [h3]
    try omega
  obtain ⟨off2, hfind⟩ := find?_manifestRecsFrom le
    (specs0 ++ [(⟨spL.idx, spL.path, spL.hash, spL.eol, none⟩ : FileSpec)])
    (manifestStart base le) (⟨spL.idx, spL.path, spL.hash, spL.eol, none⟩ : FileSpec)
    (by simp) hok2.2.2.2.2
  try dsimp only at hfind
  unfold unfoldFile
  simp only [updatedRecOf]
  try dsimp only
  rw [parseMerchDoc_renderDoc hok2]
  try dsimp only
  rw [show (expectedParsedDoc base le
      (specs0 ++ [(⟨spL.idx, spL.path, spL.hash, spL.eol, none⟩ : FileSpec)])).existingFiles
      = manifestRecsFrom le (manifestStart base le)
        (specs0 ++ [(⟨spL.idx, spL.path, spL.hash, spL.eol, none⟩ : FileSpec)]) from rfl]
  rw [hfind]
  try dsimp only
  rw [show (manifestRecOf off2
      (⟨spL.idx, spL.path, spL.hash, spL.eol, none⟩ : FileSpec)).path = spL.path from rfl]
  rw [hfsread]
  try dsimp only
  rw [hdet]
  simp only [Option.getD_some]
  rw [bodyStart_content_none base le specs0 spL]
  rw [← hx0len]
  rw [hnorm]
  have hd2b : renderDoc base le (specs0 ++ [⟨spL.idx, spL.path, spL.hash, spL.eol, none⟩])
      = (x0 ++ fileHeaderOf (⟨spL.idx, spL.path, spL.hash, spL.eol, none⟩ : FileSpec)) ++ le := by
    rw [hd2]
    simp
  have hrem : substrJS
      (renderDoc base le (specs0 ++ [⟨spL.idx, spL.path, spL.hash, spL.eol, none⟩]))
      (x0.length + (fileHeaderOf
        (⟨spL.idx, spL.path, spL.hash, spL.eol, none⟩ : FileSpec)).length)
      (renderDoc base le (specs0 ++ [⟨spL.idx, spL.path, spL.hash, spL.eol, none⟩])).length
      = le := by
    rw [substrJS_drop _ _ (by rw [hd2b]; simp)]
    rw [hd2b]
    rw [show x0.length + (fileHeaderOf
        (⟨spL.idx, spL.path, spL.hash, spL.eol, none⟩ : FileSpec)).length
        = (x0 ++ fileHeaderOf (⟨spL.idx, spL.path, spL.hash, spL.eol, none⟩ : FileSpec)).length
        from by simp]
    exact List.drop_left _ _
  rw [hrem]
  rw [needsTrailing_of_le le hle]
  have hsub0 : substrJS
      (renderDoc base le (specs0 ++ [⟨spL.idx, spL.path, spL.hash, spL.eol, none⟩])) 0
      (x0.length + (fileHeaderOf
        (⟨spL.idx, spL.path, spL.hash, spL.eol, none⟩ : FileSpec)).length)
      = x0 ++ fileHeaderOf (⟨spL.idx, spL.path, spL.hash, spL.eol, none⟩ : FileSpec) := by
    rw [substrJS_zero_take, hd2b]
    rw [show x0.length + (fileHeaderOf
        (⟨spL.idx, spL.path, spL.hash, spL.eol, none⟩ : FileSpec)).length
        = (x0 ++ fileHeaderOf (⟨spL.idx, spL.path, spL.hash, spL.eol, none⟩ : FileSpec)).length
        from by simp]
    exact List.take_left _ _
  rw [hsub0]
  rw [hd1, fileHeaderOf_some spL c hc]
  simp [List.append_assoc]

theorem foldFile_renderDoc_mid (fs : MemFs) (bp base le : JStr)
    (specs0 specs1 : List FileSpec) (spL : FileSpec) (c : JStr)
    (hok : renderOk base le (specs0 ++ spL :: specs1))
    (hc : spL.content = some c)
    (hhash : spL.hash = computeHash (applyEol (eolSpecOfRendered spL.eol) c)) :
    foldFile (renderDoc base le (specs0 ++ spL :: specs1))
        (updatedRecOf (bodyStart base le (specs0 ++ spL :: specs1) +
          ((specs0.map (fun s => (blockOf le s).length)).sum)) spL) fs bp
      = .ok ⟨renderDoc base le
          (specs0 ++ ⟨spL.idx, spL.path, spL.hash, spL.eol, none⟩ :: specs1), false⟩ := by
  cases specs1 with
  | nil => exact foldFile_renderDoc_last fs bp base le specs0 spL c hok hc hhash
  | cons s1 t1 =>
    have hokL : specOk le spL = true := hok.2.2.2.1 spL (by simp)
    have hle := hok.2.2.1
    have hsafe : le = jstr "\n" → ¬(c.getLast? = some '\x0d') := by
      intro hle1
      have hbs := (specOk_fields hokL).2.2.2.2.2 c hc
      unfold blockSafe at hbs
      simp only [Bool.and_eq_true, Bool.or_eq_true, decide_eq_true_eq, Bool.not_eq_true',
        decide_eq_false_iff_not] at hbs
      rcases hbs.2 with h2 | h2
      · rw [hle1] at h2
        exact absurd h2 (by simp [jstr])
      · exact h2
    set off0 := bodyStart base le (specs0 ++ spL :: s1 :: t1) with hoff0def
    set x0 : JStr := sepLine ++ le ++ setupLineOf base ++ le ++
      (((specs0 ++ spL :: s1 :: t1).map (fun sp => manifestLineOf sp ++ le)).flatten) ++
      sepLine ++ le ++ le ++ ((specs0.map (blockOf le)).flatten) with hx0def
    set rest : JStr := ((s1 :: t1).map (blockOf le)).flatten with hrestdef
    have hd1 : renderDoc base le (specs0 ++ spL :: s1 :: t1)
        = x0 ++ (fileHeaderOf spL ++ (le ++ (c ++ (le ++ rest)))) := by
      rw [hx0def, hrestdef]
      unfold renderDoc
      rw [show (specs0 ++ spL :: s1 :: t1).map (blockOf le)
          = specs0.map (blockOf le) ++ blockOf le spL :: (s1 :: t1).map (blockOf le)
        from by simp]
      rw [show blockOf le spL = fileHeaderOf spL ++ (le ++ (c ++ le)) from by
        unfold blockOf
        rw [hc]
        simp]
      simp
    have hd2 : renderDoc base le
          (specs0 ++ ⟨spL.idx, spL.path, spL.hash, spL.eol, none⟩ :: s1 :: t1)
        = x0 ++ ((fileHeaderOf (⟨spL.idx, spL.path, spL.hash, spL.eol, none⟩ : FileSpec)
            ++ le) ++ rest) := by
      rw [hx0def, hrestdef]
      unfold renderDoc
      rw [show (specs0 ++ (⟨spL.idx, spL.path, spL.hash, spL.eol, none⟩ : FileSpec)
              :: s1 :: t1).map (blockOf le)
          = specs0.map (blockOf le)
            ++ blockOf le ⟨spL.idx, spL.path, spL.hash, spL.eol, none⟩
              :: (s1 :: t1).map (blockOf le)
        from by simp]
      rw [show blockOf le (⟨spL.idx, spL.path, spL.hash, spL.eol, none⟩ : FileSpec)
          = fileHeaderOf (⟨spL.idx, spL.path, spL.hash, spL.eol, none⟩ : FileSpec) ++ le from by
        unfold blockOf
        simp]
      rw [show (specs0 ++ (⟨spL.idx, spL.path, spL.hash, spL.eol, none⟩ : FileSpec)
              :: s1 :: t1).map (fun sp => manifestLineOf sp ++ le)
          = (specs0 ++ spL :: s1 :: t1).map (fun sp => manifestLineOf sp ++ le) from by
        simp [manifestLineOf_content_free spL]]
      simp
    have hx0len : x0.length = off0 + ((specs0.map (fun s => (blockOf le s).length)).sum) := by
      rw [hx0def, hoff0def]
      unfold bodyStart manifestStart
      simp only [List.length_append, List.length_join, List.map_map]
      have h2 : ∀ (l : List FileSpec),
          (l.map (List.length ∘ fun sp => manifestLineOf sp ++ le)).sum
          = (l.map (fun sp => (manifestLineOf sp).length + le.length)).sum := by
        intro l
        congr 1
        apply List.map_congr_left
        intro sp _
        simp
      rw [h2]
      have h3 : (specs0.map (List.length ∘ blockOf le)).sum
          = (specs0.map (fun s => (blockOf le s).length)).sum := by
        congr 1
      rw [h3]
      try omega
    obtain ⟨off2, hfind⟩ := find?_manifestRecsFrom le (specs0 ++ spL :: s1 :: t1)
      (manifestStart base le) spL (by simp) hok.2.2.2.2
    unfold foldFile
    simp only [updatedRecOf]
    try dsimp only
    rw [hc]
    try dsimp only
    rw [parseMerchDoc_renderDoc hok]
    try dsimp only
    rw [show (expectedParsedDoc base le (specs0 ++ spL :: s1 :: t1)).existingFiles
        = manifestRecsFrom le (manifestStart base le) (specs0 ++ spL :: s1 :: t1) from rfl]
    rw [hfind]
    try dsimp only
    rw [show (manifestRecOf off2 spL).hash = some spL.hash from rfl]
    rw [hhash]
    rw [show (decide (¬(some (computeHash (applyEol (eolSpecOfRendered spL.eol) c))
        = some (computeHash (applyEol (eolSpecOfRendered spL.eol) c))))) = false from by simp]
    rw [← hx0len]
    have hd1b : renderDoc base le (specs0 ++ spL :: s1 :: t1)
        = (x0 ++ fileHeaderOf spL) ++ (le ++ (c ++ (le ++ rest))) := by
      rw [hd1]
      simp
    have hsub1 : substrJS (renderDoc base le (specs0 ++ spL :: s1 :: t1)) x0.length
        (x0.length + (fileHeaderOf spL).length) = fileHeaderOf spL := by
      rw [show renderDoc base le (specs0 ++ spL :: s1 :: t1)
          = x0 ++ fileHeaderOf spL ++ (le ++ (c ++ (le ++ rest))) from hd1b]
      exact substrJS_extract x0 (fileHeaderOf spL) (le ++ (c ++ (le ++ rest)))
    rw [hsub1]
    rw [fileHeaderOf_some spL c hc, lastIndexOfCh_last]
    try dsimp only
    have hblock : (blockOf le spL).length
        = (fileHeaderOf spL).length + le.length + c.length + le.length := by
      unfold blockOf
      rw [hc]
      simp
      try omega
    have hfce : findContentEnd (renderDoc base le (specs0 ++ spL :: s1 :: t1)) x0.length
        (expectedParsedDoc base le (specs0 ++ spL :: s1 :: t1))
        = (x0 ++ fileHeaderOf spL).length + le.length + c.length := by
      unfold findContentEnd
      rw [show (expectedParsedDoc base le (specs0 ++ spL :: s1 :: t1)).updatedFiles
          = updatedRecsFrom le off0 (specs0 ++ spL :: s1 :: t1) from rfl]
      rw [show (expectedParsedDoc base le (specs0 ++ spL :: s1 :: t1)).newFiles
          = ([] : List NewFileInfo) from rfl]
      rw [show updatedRecsFrom le off0 (specs0 ++ spL :: s1 :: t1)
          = updatedRecsFrom le off0 (specs0 ++ [spL])
            ++ updatedRecsFrom le
              (off0 + (((specs0 ++ [spL]).map (fun s => (blockOf le s).length)).sum))
              (s1 :: t1) from by
        rw [show specs0 ++ spL :: s1 :: t1 = (specs0 ++ [spL]) ++ s1 :: t1 from by simp]
        exact updatedRecsFrom_append le (s1 :: t1) (specs0 ++ [spL]) off0]
      have hoff1 : off0 + (((specs0 ++ [spL]).map (fun s => (blockOf le s).length)).sum)
          = x0.length + (blockOf le spL).length := by
        rw [hx0len]
        rw [List.map_append, List.sum_append]
        simp
        try omega
      rw [hoff1]
      rw [List.map_append, List.filter_append]
      have hfilt0 : ((updatedRecsFrom le off0 (specs0 ++ [spL])).map
            (fun p => p.2.headerOffsetRange.start)).filter
            (fun s => decide (x0.length < s)) = [] := by
        rw [List.filter_eq_nil]
        intro a ha
        obtain ⟨p, hp, hpa⟩ := List.mem_map.mp ha
        have hb := updatedRecsFrom_starts_le le spL specs0 off0 p hp
        rw [hpa] at hb
        rw [← hx0len] at hb
        simp
        omega
      rw [hfilt0]
      have hfilt1 : ((updatedRecsFrom le (x0.length + (blockOf le spL).length)
              (s1 :: t1)).map (fun p => p.2.headerOffsetRange.start)).filter
            (fun s => decide (x0.length < s))
          = (updatedRecsFrom le (x0.length + (blockOf le spL).length) (s1 :: t1)).map
            (fun p => p.2.headerOffsetRange.start) := by
        rw [List.filter_eq_self]
        intro a ha
        obtain ⟨p, hp, hpa⟩ := List.mem_map.mp ha
        have hb := updatedRecsFrom_start_lb le (s1 :: t1)
          (x0.length + (blockOf le spL).length) p hp
        rw [hpa] at hb
        have hpos := blockOf_length_pos le spL hle
        simp
        omega
      rw [hfilt1]
      simp only [List.map_nil, List.filter_nil, List.append_nil, List.nil_append]
      rw [updatedRecsFrom]
      rw [List.map_cons]
      try dsimp only
      rw [show (updatedRecOf (x0.length + (blockOf le spL).length) s1).headerOffsetRange.start
          = x0.length + (blockOf le spL).length from rfl]
      rw [foldl_min_all_ge (x0.length + (blockOf le spL).length)
        ((updatedRecsFrom le (x0.length + (blockOf le spL).length + (blockOf le s1).length)
          t1).map (fun p => p.2.headerOffsetRange.start))
        (by
          intro a ha
          obtain ⟨p, hp, hpa⟩ := List.mem_map.mp ha
          have hb := updatedRecsFrom_start_lb le t1
            (x0.length + (blockOf le spL).length + (blockOf le s1).length) p hp
          rw [hpa] at hb
          omega)]
      rw [show x0.length + (blockOf le spL).length
          = (x0 ++ fileHeaderOf spL).length + le.length + c.length + le.length from by
        rw [hblock]
        simp
        try omega]
      exact trimEnd_block (renderDoc base le (specs0 ++ spL :: s1 :: t1))
        (x0 ++ fileHeaderOf spL) c le rest hle hd1b hsafe
    rw [hfce]
    have hd1c : renderDoc base le (specs0 ++ spL :: s1 :: t1)
        = (x0 ++ fileHeaderOf (⟨spL.idx, spL.path, spL.hash, spL.eol, none⟩ : FileSpec))
          ++ ([':'] ++ (le ++ (c ++ (le ++ rest)))) := by
      rw [hd1, fileHeaderOf_some spL c hc]
      simp
    have hsub0 : substrJS (renderDoc base le (specs0 ++ spL :: s1 :: t1)) 0
        (x0.length + (fileHeaderOf
          (⟨spL.idx, spL.path, spL.hash, spL.eol, none⟩ : FileSpec)).length)
        = x0 ++ fileHeaderOf (⟨spL.idx, spL.path, spL.hash, spL.eol, none⟩ : FileSpec) := by
      rw [substrJS_zero_take, hd1c]
      rw [show x0.length + (fileHeaderOf
          (⟨spL.idx, spL.path, spL.hash, spL.eol, none⟩ : FileSpec)).length
          = (x0 ++ fileHeaderOf
              (⟨spL.idx, spL.path, spL.hash, spL.eol, none⟩ : FileSpec)).length
          from by simp]
      exact List.take_left _ _
    rw [hsub0]
    have hsub2 : substrJS (renderDoc base le (specs0 ++ spL :: s1 :: t1))
        ((x0 ++ fileHeaderOf spL).length + le.length + c.length)
        (renderDoc base le (specs0 ++ spL :: s1 :: t1)).length = le ++ rest := by
      have hd1d : renderDoc base le (specs0 ++ spL :: s1 :: t1)
          = ((x0 ++ fileHeaderOf spL) ++ le ++ c) ++ (le ++ rest) := by
        rw [hd1b]
        simp
      rw [substrJS_drop _ _ (by rw [hd1d]; simp; omega)]
      rw [hd1d]
      rw [show ((x0 ++ fileHeaderOf spL).length + le.length + c.length)
          = ((x0 ++ fileHeaderOf spL) ++ le ++ c).length from by simp; omega]
      exact List.drop_left _ _
    rw [hsub2]
    rw [← hhash]
    rw [hd2]
    simp

theorem unfoldFile_renderDoc_mid (P : IPath) (fs : MemFs) (bp base le : JStr)
    (specs0 specs1 : List FileSpec) (spL : FileSpec) (c d0 : JStr)
    (hok : renderOk base le (specs0 ++ spL :: specs1))
    (hc : spL.content = some c)
    (hfsread : memRead fs (P.resolve bp spL.path) = some d0)
    (hnorm : (match detectLineEnding d0 with
        | some fle => if fle ≠ le then normalizeLineEndings d0 le else d0
        | none => d0) = c)
    (hdet : detectLineEnding (renderDoc base le
        (specs0 ++ (⟨spL.idx, spL.path, spL.hash, spL.eol, none⟩ : FileSpec) :: specs1))
      = some le) :
    unfoldFile P
      (renderDoc base le
        (specs0 ++ (⟨spL.idx, spL.path, spL.hash, spL.eol, none⟩ : FileSpec) :: specs1))
      (updatedRecOf
        (bodyStart base le
            (specs0 ++ (⟨spL.idx, spL.path, spL.hash, spL.eol, none⟩ : FileSpec) :: specs1)
          + ((specs0.map (fun s => (blockOf le s).length)).sum))
        (⟨spL.idx, spL.path, spL.hash, spL.eol, none⟩ : FileSpec))
      fs bp
    = .ok ⟨renderDoc base le (specs0 ++ spL :: specs1)⟩ := by
  cases specs1 with
  | nil =>
    exact unfoldFile_renderDoc_last P fs bp base le specs0 spL c d0 hok hc hfsread hnorm hdet
  | cons s1 t1 =>
    have hokL : specOk le spL = true := hok.2.2.2.1 spL (by simp)
    have hle := hok.2.2.1
    have hok2 := renderOk_content_none_mid hok
    set x0 : JStr := sepLine ++ le ++ setupLineOf base ++ le ++
      (((specs0 ++ spL :: s1 :: t1).map (fun sp => manifestLineOf sp ++ le)).flatten) ++
      sepLine ++ le ++ le ++ ((specs0.map (blockOf le)).flatten) with hx0def
    set rest : JStr := ((s1 :: t1).map (blockOf le)).flatten with hrestdef
    have hd1 : renderDoc base le (specs0 ++ spL :: s1 :: t1)
        = x0 ++ (fileHeaderOf spL ++ (le ++ (c ++ (le ++ rest)))) := by
      rw [hx0def, hrestdef]
      unfold renderDoc
      rw [show (specs0 ++ spL :: s1 :: t1).map (blockOf le)
          = specs0.map (blockOf le) ++ blockOf le spL :: (s1 :: t1).map (blockOf le)
        from by simp]
      rw [show blockOf le spL = fileHeaderOf spL ++ (le ++ (c ++ le)) from by
        unfold blockOf
        rw [hc]
        simp]
      simp
    have hd2 : renderDoc base le
          (specs0 ++ ⟨spL.idx, spL.path, spL.hash, spL.eol, none⟩ :: s1 :: t1)
        = x0 ++ ((fileHeaderOf (⟨spL.idx, spL.path, spL.hash, spL.eol, none⟩ : FileSpec)
            ++ le) ++ rest) := by
      rw [hx0def, hrestdef]
      unfold renderDoc
      rw [show (specs0 ++ (⟨spL.idx, spL.path, spL.hash, spL.eol, none⟩ : FileSpec)
              :: s1 :: t1).map (blockOf le)
          = specs0.map (blockOf le)
            ++ blockOf le ⟨spL.idx, spL.path, spL.hash, spL.eol, none⟩
              :: (s1 :: t1).map (blockOf le)
        from by simp]
      rw [show blockOf le (⟨spL.idx, spL.path, spL.hash, spL.eol, none⟩ : FileSpec)
          = fileHeaderOf (⟨spL.idx, spL.path, spL.hash, spL.eol, none⟩ : FileSpec) ++ le from by
        unfold blockOf
        simp]
      rw [show (specs0 ++ (⟨spL.idx, spL.path, spL.hash, spL.eol, none⟩ : FileSpec)
              :: s1 :: t1).map (fun sp => manifestLineOf sp ++ le)
          = (specs0 ++ spL :: s1 :: t1).map (fun sp => manifestLineOf sp ++ le) from by
        simp [manifestLineOf_content_free spL]]
      simp
    have hx0len : x0.length = bodyStart base le (specs0 ++ spL :: s1 :: t1) +
        ((specs0.map (fun s => (blockOf le s).length)).sum) := by
      rw [hx0def]
      unfold bodyStart manifestStart
      simp only [List.length_append, List.length_join, List.map_map]
      have h2 : ∀ (l : List FileSpec),
          (l.map (List.length ∘ fun sp => manifestLineOf sp ++ le)).sum
          = (l.map (fun sp => (manifestLineOf sp).length + le.length)).sum := by
        intro l
        congr 1
        apply List.map_congr_left
        intro sp _
        simp
      rw [h2]
      have h3 : (specs0.map (List.length ∘ blockOf le)).sum
          = (specs0.map (fun s => (blockOf le s).length)).sum := by
        congr 1
      rw [h3]
      try omega
    obtain ⟨off2, hfind⟩ := find?_manifestRecsFrom le
      (specs0 ++ (⟨spL.idx, spL.path, spL.hash, spL.eol, none⟩ : FileSpec) :: s1 :: t1)
      (manifestStart base le) (⟨spL.idx, spL.path, spL.hash, spL.eol, none⟩ : FileSpec)
      (by simp) hok2.2.2.2.2
    try dsimp only at hfind
    unfold unfoldFile
    simp only [updatedRecOf]
    try dsimp only
    rw [parseMerchDoc_renderDoc hok2]
    try dsimp only
    rw [show (expectedParsedDoc base le
        (specs0 ++ (⟨spL.idx, spL.path, spL.hash, spL.eol, none⟩ : FileSpec)
          :: s1 :: t1)).existingFiles
        = manifestRecsFrom le (manifestStart base le)
          (specs0 ++ (⟨spL.idx, spL.path, spL.hash, spL.eol, none⟩ : FileSpec) :: s1 :: t1)
        from rfl]
    rw [hfind]
    try dsimp only
    rw [show (manifestRecOf off2
        (⟨spL.idx, spL.path, spL.hash, spL.eol, none⟩ : FileSpec)).path = spL.path from rfl]
    rw [hfsread]
    try dsimp only
    rw [hdet]
    simp only [Option.getD_some]
    rw [bodyStart_content_none_mid base le specs0 (s1 :: t1) spL]
    rw [← hx0len]
    rw [hnorm]
    have hd2b : renderDoc base le
          (specs0 ++ ⟨spL.idx, spL.path, spL.hash, spL.eol, none⟩ :: s1 :: t1)
        = (x0 ++ fileHeaderOf (⟨spL.idx, spL.path, spL.hash, spL.eol, none⟩ : FileSpec))
          ++ (le ++ rest) := by
      rw [hd2]
      simp
    have hrem : substrJS
        (renderDoc base le (specs0 ++ ⟨spL.idx, spL.path, spL.hash, spL.eol, none⟩
          :: s1 :: t1))
        (x0.length + (fileHeaderOf
          (⟨spL.idx, spL.path, spL.hash, spL.eol, none⟩ : FileSpec)).length)
        (renderDoc base le (specs0 ++ ⟨spL.idx, spL.path, spL.hash, spL.eol, none⟩
          :: s1 :: t1)).length
        = le ++ rest := by
      rw [substrJS_drop _ _ (by rw [hd2b]; simp)]
      rw [hd2b]
      rw [show x0.length + (fileHeaderOf
          (⟨spL.idx, spL.path, spL.hash, spL.eol, none⟩ : FileSpec)).length
          = (x0 ++ fileHeaderOf
              (⟨spL.idx, spL.path, spL.hash, spL.eol, none⟩ : FileSpec)).length
          from by simp]
      exact List.drop_left _ _
    rw [hrem]
    rw [needsTrailing_le_append le rest hle]
    have hsub0 : substrJS
        (renderDoc base le (specs0 ++ ⟨spL.idx, spL.path, spL.hash, spL.eol, none⟩
          :: s1 :: t1)) 0
        (x0.length + (fileHeaderOf
          (⟨spL.idx, spL.path, spL.hash, spL.eol, none⟩ : FileSpec)).length)
        = x0 ++ fileHeaderOf (⟨spL.idx, spL.path, spL.hash, spL.eol, none⟩ : FileSpec) := by
      rw [substrJS_zero_take, hd2b]
      rw [show x0.length + (fileHeaderOf
          (⟨spL.idx, spL.path, spL.hash, spL.eol, none⟩ : FileSpec)).length
          = (x0 ++ fileHeaderOf
              (⟨spL.idx, spL.path, spL.hash, spL.eol, none⟩ : FileSpec)).length
          from by simp]
      exact List.take_left _ _
    rw [hsub0]
    rw [hd1, fileHeaderOf_some spL c hc]
    simp [List.append_assoc]

/-- C7: `unfold(fold(d)) = d` holds when the record's content block ends in the
document's line terminator, as every block of a rendered document does: for a
benign rendered document and a spec at any position in it whose stored hash
matches its content, parsing yields the record, `foldFile` succeeds with
`hadModifiedContent = false`, the folded document parses again, and
`unfoldFile` on its record (against a filesystem whose copy of the file
normalizes back to the in-document content) restores the original document
text exactly. -/
theorem fold_unfold_restores_doc (P : IPath) (fs : MemFs) (bp base le : JStr)
    (specs0 specs1 : List FileSpec) (spM : FileSpec) (c d0 : JStr)
    (hok : renderOk base le (specs0 ++ spM :: specs1))
    (hc : spM.content = some c)
    (hhash : spM.hash = computeHash (applyEol (eolSpecOfRendered spM.eol) c))
    (hfsread : memRead fs (P.resolve bp spM.path) = some d0)
    (hnorm : (match detectLineEnding d0 with
        | some fle => if fle ≠ le then normalizeLineEndings d0 le else d0
        | none => d0) = c)
    (hdet : detectLineEnding (renderDoc base le
        (specs0 ++ (⟨spM.idx, spM.path, spM.hash, spM.eol, none⟩ : FileSpec) :: specs1))
      = some le) :
    ∃ doc u folded doc2 u2,
      parseMerchDoc (renderDoc base le (specs0 ++ spM :: specs1)) = .ok doc ∧
      jmGet doc.updatedFiles (jnumOfNat spM.idx) = some u ∧
      foldFile (renderDoc base le (specs0 ++ spM :: specs1)) u fs bp = .ok ⟨folded, false⟩ ∧
      parseMerchDoc folded = .ok doc2 ∧
      jmGet doc2.updatedFiles (jnumOfNat spM.idx) = some u2 ∧
      unfoldFile P folded u2 fs bp = .ok ⟨renderDoc base le (specs0 ++ spM :: specs1)⟩ := by
  have hok2 := renderOk_content_none_mid hok
  refine ⟨expectedParsedDoc base le (specs0 ++ spM :: specs1),
    updatedRecOf (bodyStart base le (specs0 ++ spM :: specs1) +
      ((specs0.map (fun s => (blockOf le s).length)).sum)) spM,
    renderDoc base le (specs0 ++ ⟨spM.idx, spM.path, spM.hash, spM.eol, none⟩ :: specs1),
    expectedParsedDoc base le
      (specs0 ++ ⟨spM.idx, spM.path, spM.hash, spM.eol, none⟩ :: specs1),
    updatedRecOf (bodyStart base le
        (specs0 ++ (⟨spM.idx, spM.path, spM.hash, spM.eol, none⟩ : FileSpec) :: specs1) +
      ((specs0.map (fun s => (blockOf le s).length)).sum))
      (⟨spM.idx, spM.path, spM.hash, spM.eol, none⟩ : FileSpec),
    ?_, ?_, ?_, ?_, ?_, ?_⟩
  · exact parseMerchDoc_renderDoc hok
  · rw [show (expectedParsedDoc base le (specs0 ++ spM :: specs1)).updatedFiles
        = updatedRecsFrom le (bodyStart base le (specs0 ++ spM :: specs1))
          (specs0 ++ spM :: specs1) from rfl]
    exact jmGet_updatedRecsFrom_mid le spM specs1 specs0 _ hok.2.2.2.2
  · exact foldFile_renderDoc_mid fs bp base le specs0 specs1 spM c hok hc hhash
  · exact parseMerchDoc_renderDoc hok2
  · rw [show (expectedParsedDoc base le
          (specs0 ++ (⟨spM.idx, spM.path, spM.hash, spM.eol, none⟩ : FileSpec)
            :: specs1)).updatedFiles
        = updatedRecsFrom le (bodyStart base le
            (specs0 ++ (⟨spM.idx, spM.path, spM.hash, spM.eol, none⟩ : FileSpec) :: specs1))
            (specs0 ++ (⟨spM.idx, spM.path, spM.hash, spM.eol, none⟩ : FileSpec) :: specs1)
        from rfl]
    exact jmGet_updatedRecsFrom_mid le
      (⟨spM.idx, spM.path, spM.hash, spM.eol, none⟩ : FileSpec) specs1 specs0 _
      hok2.2.2.2.2
  · exact unfoldFile_renderDoc_mid P fs bp base le specs0 specs1 spM c d0
      hok hc hfsread hnorm hdet

/-- C7 witness: a concrete run of the fold/unfold round trip on the record of
`/s/a` (content `x`), which is the first of two records of the rendered
document, so the folded block is followed by another header. -/
theorem fold_unfold_restores_doc_witness :
    ∃ doc u folded doc2 u2,
      parseMerchDoc (renderDoc (jstr "/s") (jstr "\n") ([] ++ c7Spec :: [c7SpecB]))
        = .ok doc ∧
      jmGet doc.updatedFiles (jnumOfNat c7Spec.idx) = some u ∧
      foldFile (renderDoc (jstr "/s") (jstr "\n") ([] ++ c7Spec :: [c7SpecB])) u c7Fs
        (jstr "/s") = .ok ⟨folded, false⟩ ∧
      parseMerchDoc folded = .ok doc2 ∧
      jmGet doc2.updatedFiles (jnumOfNat c7Spec.idx) = some u2 ∧
      unfoldFile simplePath folded u2 c7Fs (jstr "/s")
        = .ok ⟨renderDoc (jstr "/s") (jstr "\n") ([] ++ c7Spec :: [c7SpecB])⟩ :=
  fold_unfold_restores_doc simplePath c7Fs (jstr "/s") (jstr "/s") (jstr "\n")
    [] [c7SpecB] c7Spec (jstr "x") (jstr "x")
    ⟨by decide, by decide, Or.inl rfl, by decide, by decide⟩
    rfl rfl (by decide) rfl (by decide)
